import Mathlib

/-!
Verification of the decision-tree module `tree_structure.py`.

The Python module is embedded shallowly:

* `Node` / `Tree` mirror the classes of the source; node identifiers are the
  natural numbers behind the `str(i)` keys of the Python dictionary, and the
  dictionary itself is an insertion-ordered association list.
* Python exceptions (`KeyError`, `ValueError`, `TypeError`) become the
  `Except PErr` monad; a Python `print` followed by `return`/`return None`
  is an `ok` result carrying the corresponding outcome value.
* The external collaborator `fitting_tools` (split search, branch
  probabilities, child rules, data partition) is out of scope per the spec;
  growth takes it as an opaque `Splitter` argument.
* The unbounded `while` loops of the source take an explicit fuel argument;
  running out of fuel is the distinguished error `PErr.fuel`, so an `ok`
  result of such a function certifies that the Python loop terminates within
  that many iterations.
* Floats are modelled as rationals.
-/

set_option maxRecDepth 4000

namespace DT

/-- Python exceptions raised by the module, plus the fuel marker used to embed
unbounded loops. -/
inductive PErr where
  | keyError (k : String)
  | valueError (msg : String)
  | typeError (msg : String)
  | fuel
deriving Repr, DecidableEq

/-- A numpy array as far as this module observes it: a 1-D vector, a 2-D
matrix (rows = features, columns = samples), or an array of dimension at
least 3, whose contents the module never reads before rejecting it. -/
inductive NPArray where
  | d1 (xs : List ℚ)
  | d2 (rows : List (List ℚ))
  | dn (k : Nat)
deriving Repr, DecidableEq

/-- Dimensionality of the array (`dat.ndim`); `dn k` stands for an array of
dimension `k + 3`. -/
def NPArray.ndim : NPArray → Nat
  | .d1 _ => 1
  | .d2 _ => 2
  | .dn k => k + 3

/-- A tree vertex, mirroring `Node.__init__` field for field (the `key`
argument of the Python constructor is accepted but never stored, so it has
no counterpart here). -/
structure Node where
  left : Option Nat := none
  right : Option Nat := none
  parent : Option Nat := none
  rules : List (Nat × ℚ × ℚ) := []
  dat : NPArray := .d1 []
  labels : List ℤ := []
  is_stopped : Bool := false
  reach_prob : ℚ := 0
  class_prob : List ℚ := []
deriving Repr, DecidableEq

/-- Maximum of a list of rationals; Python's `max` raises on an empty list,
which never happens on the class-probability vectors this module builds
(they are nonempty whenever the label set is). -/
def listMax : List ℚ → ℚ
  | [] => 0
  | x :: xs => xs.foldl max x

/-- `Node.compute_error_rate`: `1 - max(class_prob)`. -/
def Node.compute_error_rate (nd : Node) : ℚ :=
  1 - listMax nd.class_prob

/-- The tree: node collection (insertion-ordered association list standing
for the Python dict keyed by `str(id)`), current leaf identifiers, and the
sorted class symbols.  `kernel_CDF` is opaque to the core and is dropped;
growth receives the collaborator explicitly instead. -/
structure Tree where
  node_dict : List (Nat × Node)
  leaf_inds : List Nat
  symbols : List ℤ
deriving Repr, DecidableEq

/-- Dictionary lookup (`node_dict[str(k)]` when it does not raise). -/
def dictGet : List (Nat × Node) → Nat → Option Node
  | [], _ => none
  | (k2, v) :: rest, k => if k2 = k then some v else dictGet rest k

/-- Dictionary write (`node_dict.update({str(k): v})` / attribute mutation of
the stored object): replace in place if the key exists, else append. -/
def dictSet : List (Nat × Node) → Nat → Node → List (Nat × Node)
  | [], k, v => [(k, v)]
  | (k2, v2) :: rest, k, v =>
    if k2 = k then (k2, v) :: rest else (k2, v2) :: dictSet rest k v

/-- Dictionary deletion of a present key (`del node_dict[str(k)]`). -/
def dictDel : List (Nat × Node) → Nat → List (Nat × Node)
  | [], _ => []
  | (k2, v2) :: rest, k => if k2 = k then rest else (k2, v2) :: dictDel rest k

/-- In-place update of a stored node object when the key is present
(mutating the object Python-side changes the dict entry only if the key is
still in the dict). -/
def dictModify : List (Nat × Node) → Nat → (Node → Node) → List (Nat × Node)
  | [], _, _ => []
  | (k2, v) :: rest, k, f =>
    if k2 = k then (k2, f v) :: rest else (k2, v) :: dictModify rest k f

/-- The keys of the dictionary in iteration order (`node_dict.keys()`). -/
def dictKeys : List (Nat × Node) → List Nat
  | [] => []
  | (k, _) :: rest => k :: dictKeys rest

/-- `node_dict[str(k)]`, raising `KeyError` on a missing key. -/
def lookupE (t : Tree) (k : Nat) : Except PErr Node :=
  match dictGet t.node_dict k with
  | some nd => .ok nd
  | none => .error (.keyError (toString k))

/-- `node_dict[str(k)]` where `k` may be Python `None` (then `str(None)` is
the key `"None"`, which is never present, so the access raises). -/
def lookupO (t : Tree) (k : Option Nat) : Except PErr Node :=
  match k with
  | none => .error (.keyError "None")
  | some i => lookupE t i

/-- Python truthiness of a child field (`if node.left:`): `None` and the
identifier `0` are falsy.  Identifier `0` is the root and is never a child
in any tree this module builds. -/
def truthyId : Option Nat → Bool
  | none => false
  | some k => k != 0

/-- `del node_dict[str(k)]`, raising `KeyError` when absent. -/
def delOneE (d : List (Nat × Node)) (k : Nat) : Except PErr (List (Nat × Node)) :=
  if (dictGet d k).isSome then .ok (dictDel d k) else .error (.keyError (toString k))

/-- `list.remove(x)`, raising `ValueError` when absent. -/
def removeOneE (l : List Nat) (x : Nat) : Except PErr (List Nat) :=
  if x ∈ l then .ok (l.erase x) else .error (.valueError "list.remove(x): x not in list")

/-- Distinct labels in a label vector: `len(np.unique(labels))`. -/
def numUnique (l : List ℤ) : Nat := l.dedup.length

/-- Ascending insertion used to model `np.unique`'s sorting. -/
def sortedInsert (x : ℤ) : List ℤ → List ℤ
  | [] => [x]
  | y :: ys => if x ≤ y then x :: y :: ys else y :: sortedInsert x ys

/-- `np.unique(labels)`: the distinct labels in ascending order. -/
def uniqueSorted (l : List ℤ) : List ℤ := l.dedup.foldr sortedInsert []

/-- `(arr.min(), arr.max())` over one axis; numpy raises on an empty axis. -/
def minMaxE : List ℚ → Except PErr (ℚ × ℚ)
  | [] => .error (.valueError
      "zero-size array to reduction operation minimum which has no identity")
  | x :: r => .ok (r.foldl min x, r.foldl max x)

/-- `np.min(dat, axis=1), np.max(dat, axis=1)`: per-row bounds of a 2-D
array, failing like numpy on an empty row. -/
def mapMinMax : List (List ℚ) → Except PErr (List (ℚ × ℚ))
  | [] => .ok []
  | row :: rest =>
    match minMaxE row with
    | .error e => .error e
    | .ok mm =>
      match mapMinMax rest with
      | .error e => .error e
      | .ok rest2 => .ok (mm :: rest2)

/-- The root rules of `Tree.__init__`: per-feature `(min, max)` bounds for
1-D and 2-D data, and the `ValueError` of the `else` branch otherwise. -/
def rulesOf : NPArray → Except PErr (List (Nat × ℚ × ℚ))
  | .d1 xs =>
    match minMaxE xs with
    | .error e => .error e
    | .ok mm => .ok [(0, mm.1, mm.2)]
  | .d2 rows =>
    match mapMinMax rows with
    | .error e => .error e
    | .ok mms => .ok (mms.enum.map (fun p => (p.1, p.2.1, p.2.2)))
  | .dn _ => .error (.valueError "Dimension of the input data should not be higher than 2")

/-- `Tree.__init__`: class symbols and empirical priors, root purity flag,
root rules from the data bounds, and the initial node collection
`{'0': root}` with `leaf_inds = [0]` and root reach probability 1. -/
def Tree.init (dat : NPArray) (labels : List ℤ) : Except PErr Tree :=
  let c := numUnique labels
  let stopped := c == 1
  let symbols := uniqueSorted labels
  let class_prob := symbols.map (fun s => ((labels.count s : ℚ)) / (labels.length : ℚ))
  match rulesOf dat with
  | .error e => .error e
  | .ok rules =>
    .ok { node_dict := [(0, { left := none, right := none, parent := none,
                              rules := rules, dat := dat, labels := labels,
                              is_stopped := stopped, reach_prob := 1,
                              class_prob := class_prob })],
          leaf_inds := [0], symbols := symbols }

/-- Loop body of `Tree.check_full_stopped`. -/
def checkStopGo (t : Tree) : List Nat → Except PErr Bool
  | [] => .ok true
  | i :: rest => do
    let leaf ← lookupE t i
    if leaf.is_stopped then checkStopGo t rest else .ok false

/-- `Tree.check_full_stopped`: true iff every current leaf is stopped. -/
def Tree.check_full_stopped (t : Tree) : Except PErr Bool :=
  checkStopGo t t.leaf_inds

/-- Everything the growth loop obtains from the collaborator for one split of
one leaf: the child posteriors and branch probabilities
(`compute_probs_KDE`), the tightened child rules (`update_rules`) and the
partitioned data/labels (`filter_data`) for the feature/threshold chosen
from `split_features` via `argmin`. -/
structure SplitResult where
  left_priors : List ℚ
  right_priors : List ℚ
  left_branch_prob : ℚ
  right_branch_prob : ℚ
  left_rules : List (Nat × ℚ × ℚ)
  right_rules : List (Nat × ℚ × ℚ)
  left_dat : NPArray
  right_dat : NPArray
  left_labels : List ℤ
  right_labels : List ℤ
deriving Repr, DecidableEq

/-- The split collaborator (spec §6), opaque to the core. -/
abbrev Splitter := Node → SplitResult

/-- A freshly created child node as built inside `fit_full_tree`. -/
def mkChildNode (parentId : Nat) (labs : List ℤ) (rp : ℚ) (priors : List ℚ)
    (rls : List (Nat × ℚ × ℚ)) (dt : NPArray) : Node :=
  { left := none, right := none, parent := some parentId, rules := rls, dat := dt,
    labels := labs, is_stopped := numUnique labs == 1, reach_prob := rp,
    class_prob := priors }

/-- One outer pass of `fit_full_tree`: walk the current `leaf_inds`, split
every unstopped leaf, and accumulate `inds_to_remove` / `inds_to_add`
exactly as the source does (the dict is written during the walk, the leaf
list only afterwards). -/
def splitLeaves (sp : Splitter) :
    List Nat → List (Nat × Node) → Nat → List Nat → List Nat →
    Except PErr (List (Nat × Node) × Nat × List Nat × List Nat)
  | [], d, mk, rem, add => .ok (d, mk, rem, add)
  | i :: rest, d, mk, rem, add => do
    let leaf ← match dictGet d i with
      | some nd => Except.ok nd
      | none => Except.error (PErr.keyError (toString i))
    if leaf.is_stopped then
      splitLeaves sp rest d mk rem add
    else
      let r := sp leaf
      let left_child := mkChildNode i r.left_labels (r.left_branch_prob * leaf.reach_prob)
        r.left_priors r.left_rules r.left_dat
      let right_child := mkChildNode i r.right_labels (r.right_branch_prob * leaf.reach_prob)
        r.right_priors r.right_rules r.right_dat
      let d1 := dictSet d (mk + 1) left_child
      let d2 := dictSet d1 (mk + 2) right_child
      let d3 := dictSet d2 i { leaf with left := some (mk + 1), right := some (mk + 2) }
      splitLeaves sp rest d3 (mk + 2) (rem ++ [i]) (add ++ [mk + 1, mk + 2])

/-- Leaf-list update closing one pass: `for j in inds_to_remove:
leaf_inds.remove(j)` then `leaf_inds += inds_to_add`. -/
def updateLeafList (lv rem add : List Nat) : List Nat :=
  rem.foldl (fun l j => l.erase j) lv ++ add

/-- The `while not check_full_stopped()` loop of `fit_full_tree` with fuel;
the returned number counts the splits performed (an instrument of the
embedding used to state the termination bound). -/
def fitAux (sp : Splitter) : Nat → Tree → Nat → Except PErr (Tree × Nat)
  | 0, _, _ => .error .fuel
  | fuel + 1, t, mk => do
    let stopped ← t.check_full_stopped
    if stopped then .ok (t, 0)
    else do
      let (d, mk2, rem, add) ← splitLeaves sp t.leaf_inds t.node_dict mk [] []
      let (t2, k) ← fitAux sp fuel
        { t with node_dict := d, leaf_inds := updateLeafList t.leaf_inds rem add } mk2
      .ok (t2, rem.length + k)

/-- `max(map(int, node_dict.keys()))`; Python `max` raises on empty input. -/
def maxKeyE (d : List (Nat × Node)) : Except PErr Nat :=
  match dictKeys d with
  | [] => .error (.valueError "max() arg is an empty sequence")
  | k :: ks => .ok (ks.foldl max k)

/-- `Tree.fit_full_tree`, with fuel bounding the number of outer passes. -/
def Tree.fit_full_tree (sp : Splitter) (fuel : Nat) (t : Tree) : Except PErr (Tree × Nat) := do
  let mk ← maxKeyE t.node_dict
  fitAux sp fuel t mk

/-- A single iteration of the growth loop (the stop check followed by one
pass), used to expose the intermediate states the loop passes through. -/
def fitStep (sp : Splitter) (t : Tree) (mk : Nat) : Except PErr (Tree × Nat) := do
  let stopped ← t.check_full_stopped
  if stopped then .ok (t, mk)
  else do
    let (d, mk2, rem, add) ← splitLeaves sp t.leaf_inds t.node_dict mk [] []
    .ok ({ t with node_dict := d, leaf_inds := updateLeafList t.leaf_inds rem add }, mk2)

/-- `n` iterations of the growth loop; `fitSteps n` is the tree state after
the `n`-th pass of `fit_full_tree`. -/
def fitSteps (sp : Splitter) : Nat → Tree → Nat → Except PErr (Tree × Nat)
  | 0, t, mk => .ok (t, mk)
  | n + 1, t, mk => do
    let (t2, mk2) ← fitStep sp t mk
    fitSteps sp n t2 mk2

/-- A leaf's contribution `reach_prob * compute_error_rate()` to a risk sum. -/
def errContrib (nd : Node) : ℚ := nd.reach_prob * nd.compute_error_rate

/-- One level of the `subtree_props` descent: visit the current `rem_nodes`,
descend at nodes with a (truthy) left child, and accumulate risk and leaf
identifiers at the others. -/
def spLevel (t : Tree) : List (Option Nat) → ℚ → List Nat →
    Except PErr (List (Option Nat) × ℚ × List Nat)
  | [], acc, lv => .ok ([], acc, lv)
  | k? :: rest, acc, lv => do
    let nd ← lookupO t k?
    if truthyId nd.left then do
      let (nf, acc2, lv2) ← spLevel t rest acc lv
      pure (nd.left :: nd.right :: nf, acc2, lv2)
    else
      spLevel t rest (acc + errContrib nd) (lv ++ [k?.getD 0])

/-- The `while len(rem_nodes) > 0` loop of `subtree_props` with fuel (one
unit per level). -/
def spGo (t : Tree) : Nat → List (Option Nat) → ℚ → List Nat →
    Except PErr (ℚ × List Nat)
  | _, [], acc, lv => .ok (acc, lv)
  | 0, _ :: _, _, _ => .error .fuel
  | fuel + 1, rem, acc, lv => do
    let (nf, acc2, lv2) ← spLevel t rem acc lv
    spGo t fuel nf acc2 lv2

/-- `Tree.subtree_props`: `(subtree risk, leaf list)` of the subtree rooted
at `node_index`.  A missing identifier makes the source print a notice and
`return` (Python `None`), embedded as `ok none`. -/
def Tree.subtree_props (t : Tree) (node_index : Nat) : Except PErr (Option (ℚ × List Nat)) :=
  match dictGet t.node_dict node_index with
  | none => .ok none
  | some sub_root =>
    if node_index ∈ t.leaf_inds then
      .ok (some (sub_root.reach_prob * sub_root.compute_error_rate, [node_index]))
    else do
      let (r, lv) ← spGo t t.node_dict.length [sub_root.left, sub_root.right] 0 []
      .ok (some (r, lv))

/-- The three ways `remove_subtree` can return: a genuine removal, the
printed nothing-to-prune notice for a leaf, and the printed not-found
notice for a missing identifier. -/
inductive RemoveOutcome where
  | removed
  | leafNoop
  | notFound
deriving Repr, DecidableEq

/-- One level of the `remove_subtree` descent, collecting every visited
identifier into `node_list`. -/
def rsLevel (t : Tree) : List (Option Nat) → List Nat →
    Except PErr (List (Option Nat) × List Nat)
  | [], acc => .ok ([], acc)
  | k? :: rest, acc => do
    let nd ← lookupO t k?
    let acc2 := acc ++ [k?.getD 0]
    if truthyId nd.left then do
      let (nf, acc3) ← rsLevel t rest acc2
      pure (nd.left :: nd.right :: nf, acc3)
    else
      rsLevel t rest acc2

/-- The descent loop of `remove_subtree` with fuel. -/
def rsGo (t : Tree) : Nat → List (Option Nat) → List Nat → Except PErr (List Nat)
  | _, [], acc => .ok acc
  | 0, _ :: _, _ => .error .fuel
  | fuel + 1, rem, acc => do
    let (nf, acc2) ← rsLevel t rem acc
    rsGo t fuel nf acc2

/-- The deletion loop of `remove_subtree`: `for node_ind in node_list:
del node_dict[str(node_ind)]; if node_ind in leaf_inds:
leaf_inds.remove(node_ind)`. -/
def delLoop : List Nat → List (Nat × Node) × List Nat →
    Except PErr (List (Nat × Node) × List Nat)
  | [], p => .ok p
  | k :: rest, p => do
    let d2 ← delOneE p.1 k
    delLoop rest (d2, if k ∈ p.2 then p.2.erase k else p.2)

/-- `Tree.remove_subtree`: delete every strict descendant of `node_index`
from the node collection and (when present) from `leaf_inds`, then clear the
target's child links and append its identifier to `leaf_inds`.  Missing
identifiers and leaves are the two printed no-op outcomes of the source. -/
def Tree.remove_subtree (t : Tree) (node_index : Nat) :
    Except PErr (Tree × RemoveOutcome) :=
  match dictGet t.node_dict node_index with
  | none => .ok (t, .notFound)
  | some root_node =>
    if node_index ∈ t.leaf_inds then .ok (t, .leafNoop)
    else do
      let node_list ← rsGo t t.node_dict.length [root_node.left, root_node.right] []
      let dlv ← delLoop node_list (t.node_dict, t.leaf_inds)
      .ok ({ t with
              node_dict := dictModify dlv.1 node_index
                (fun nd => { nd with left := none, right := none }),
              leaf_inds := dlv.2 ++ [node_index] }, .removed)

/-- The `while len(not_visited) > 0` loop of `leaf_siblings`.  The current
leaf's parent is dereferenced unconditionally (`node_dict[str(parent)]`), so
a parentless leaf raises `KeyError('None')`.  The sibling is paired exactly
when it is still unvisited. -/
def lsGo (t : Tree) : Nat → List Nat → List (Nat × Nat) → Except PErr (List (Nat × Nat))
  | _, [], acc => .ok acc
  | 0, _ :: _, _ => .error .fuel
  | fuel + 1, c :: rest, acc => do
    let cnode ← lookupE t c
    let parent ← lookupO t cnode.parent
    let other : Option Nat := if parent.left == some c then parent.right else parent.left
    match other with
    | none => lsGo t fuel rest acc
    | some o =>
      if o ∈ c :: rest then
        if o ∈ rest then lsGo t fuel (rest.erase o) (acc ++ [(c, o)])
        else .error (.valueError "list.remove(x): x not in list")
      else lsGo t fuel rest acc

/-- `Tree.leaf_siblings`: unordered pairs of current leaves sharing an
immediate parent.  The working set shrinks by at least one entry per
iteration, so fuel equal to its initial length never runs out. -/
def Tree.leaf_siblings (t : Tree) : Except PErr (List (Nat × Nat)) :=
  lsGo t t.leaf_inds.length t.leaf_inds []

/-- Descending insertion used to model `sorted(_, reverse=True)`. -/
def sortedInsertDesc (x : Nat) : List Nat → List Nat
  | [] => [x]
  | y :: ys => if x ≥ y then x :: y :: ys else y :: sortedInsertDesc x ys

/-- `sorted(l, reverse=True)`. -/
def sortDesc (l : List Nat) : List Nat := l.foldr sortedInsertDesc []

/-- The marking loop of `cut_useless_leaves`: append both members of every
sibling pair whose parent's error rate equals the half-sum of the two
reach-weighted child error rates. -/
def sibsLoop (t : Tree) : List (Nat × Nat) → List Nat → Except PErr (List Nat)
  | [], acc => .ok acc
  | pr :: rest, acc => do
    let c0 ← lookupE t pr.1
    let common_parent ← lookupO t c0.parent
    let c1 ← lookupE t pr.2
    let parent_rate := common_parent.compute_error_rate
    let own0 := c0.compute_error_rate * c0.reach_prob
    let own1 := c1.compute_error_rate * c1.reach_prob
    let av_rate := (own0 + own1) / 2
    sibsLoop t rest (if parent_rate == av_rate then acc ++ [pr.1, pr.2] else acc)

/-- The deletion loop of `cut_useless_leaves`:
`for i in sorted(sibs_to_remove, reverse=True): del node_dict[str(i)];
leaf_inds.remove(i)`. -/
def cutDelLoop : List Nat → List (Nat × Node) × List Nat →
    Except PErr (List (Nat × Node) × List Nat)
  | [], p => .ok p
  | k :: rest, p => do
    let d2 ← delOneE p.1 k
    let l2 ← removeOneE p.2 k
    cutDelLoop rest (d2, l2)

/-- `Tree.cut_useless_leaves`: for every sibling leaf pair whose parent's
own error rate equals the half-sum of the children's reach-weighted error
rates, delete both children from the node collection and the leaf list.
The returned number is the `%d` of the printed removal report. -/
def Tree.cut_useless_leaves (t : Tree) : Except PErr (Tree × Nat) := do
  let sibs ← t.leaf_siblings
  let sibs_to_remove ← sibsLoop t sibs []
  let dlv ← cutDelLoop (sortDesc sibs_to_remove) (t.node_dict, t.leaf_inds)
  .ok ({ t with node_dict := dlv.1, leaf_inds := dlv.2 }, sibs_to_remove.length)

/-- Strict order on link strengths, where `none` is the `np.inf` assigned to
leaves. -/
def oLT : Option ℚ → Option ℚ → Bool
  | some a, some b => a < b
  | some _, none => true
  | none, _ => false

/-- Tail of `np.argmin`: keep the first index realizing the minimum. -/
def argminGo : List (Option ℚ) → Nat → Nat → Option ℚ → Nat
  | [], _, best, _ => best
  | x :: rest, idx, best, bv =>
    if oLT x bv then argminGo rest (idx + 1) idx x else argminGo rest (idx + 1) best bv

/-- `np.argmin` over the link array (`none` = `np.inf`). -/
def argminO : List (Option ℚ) → Nat
  | [] => 0
  | x :: rest => argminGo rest 1 0 x

/-- The link strength the pruning loop computes for one key of the working
copy `T`: `np.inf` (`none`) for current leaves of `T`, otherwise
`(T-node error - subtree risk) / (leaf count - 1)` where risk and leaves
come from `self.subtree_props` — `self` being `base`, the tree on which
`cost_complexity_seq` was called (after `cut_useless_leaves`), not `T`.
Unpacking the `None` of a failed `subtree_props` is Python's `TypeError`,
and the two defensive checks of the source raise `ValueError`. -/
def linkFor (base T : Tree) (i : Nat) : Except PErr (Option ℚ) :=
  if i ∈ T.leaf_inds then .ok none
  else do
    let nd ← lookupE T i
    let node_error := nd.compute_error_rate
    let sub ← base.subtree_props i
    match sub with
    | none => .error (.typeError "cannot unpack non-sequence NoneType")
    | some (sub_error, sub_leaves) =>
      if sub_error > node_error then
        .error (.valueError
          "Something went wrong: error rate of a subtree cannot be larger than its root")
      else if sub_leaves.length == 1 then
        .error (.valueError
          "Somethin went wrong: number of leaves ofa subtree rooted at a non-leaf node cannot be 1")
      else
        .ok (some ((node_error - sub_error) / ((sub_leaves.length : ℚ) - 1)))

/-- The link array of one pruning iteration, in dictionary key order. -/
def linksLoop (base T : Tree) : List Nat → Except PErr (List (Option ℚ))
  | [] => .ok []
  | i :: rest => do
    let l ← linkFor base T i
    let ls ← linksLoop base T rest
    pure (l :: ls)

/-- The `while len(T.node_dict) > 1` loop of `cost_complexity_seq` with
fuel: compute the links of all current keys of `T`, collapse `T` at the
first minimum, and append the new copy to the sequence. -/
def ccsLoop (base : Tree) : Nat → Tree → List Tree → Except PErr (List Tree)
  | 0, T, acc => if T.node_dict.length > 1 then .error .fuel else .ok acc
  | fuel + 1, T, acc =>
    if T.node_dict.length > 1 then do
      let nodes := dictKeys T.node_dict
      let links ← linksLoop base T nodes
      let w := argminO links
      let (T2, _) ← T.remove_subtree (nodes.getD w 0)
      ccsLoop base fuel T2 (acc ++ [T2])
    else .ok acc

/-- `Tree.cost_complexity_seq`: clean the tree with `cut_useless_leaves`,
seed the sequence with a copy, then repeatedly collapse the weakest link of
an independent working copy until only one node is left. -/
def Tree.cost_complexity_seq (fuel : Nat) (t : Tree) : Except PErr (List Tree) := do
  let (t1, _) ← t.cut_useless_leaves
  ccsLoop t1 fuel t1 [t1]

/-! ## Tree shapes: the well-formedness device

A `Shape` records the parent/child structure a well-formed tree state is
expected to have; `Represents` ties a `Tree` value to a shape.  All
structural lemmas about the level-synchronous descents of the source are
proved by induction on shapes. -/

/-- A binary-tree skeleton of node identifiers. -/
inductive Shape where
  | leaf (i : Nat)
  | node (i : Nat) (l r : Shape)
deriving Repr, DecidableEq

/-- Identifier at the root of the shape. -/
def Shape.root : Shape → Nat
  | .leaf i => i
  | .node i _ _ => i

/-- All identifiers of the shape, root first. -/
def Shape.ids : Shape → List Nat
  | .leaf i => [i]
  | .node i l r => i :: (l.ids ++ r.ids)

/-- The leaf identifiers of the shape, left to right. -/
def Shape.leaves : Shape → List Nat
  | .leaf i => [i]
  | .node _ l r => l.leaves ++ r.leaves

/-- The subshape rooted at a given identifier, if any (first match). -/
def Shape.find? : Shape → Nat → Option Shape
  | .leaf i, k => if i = k then some (.leaf i) else none
  | .node i l r, k =>
    if i = k then some (.node i l r)
    else
      match l.find? k with
      | some s => some s
      | none => r.find? k

/-- No non-root identifier is 0 (so Python's truthiness test on a child
field is equivalent to its being present). -/
def Shape.kidsNZ : Shape → Bool
  | .leaf _ => true
  | .node _ l r => l.root != 0 && r.root != 0 && l.kidsNZ && r.kidsNZ

/-- The dictionary entries realize the shape below a given parent link. -/
def Shape.consistentB (t : Tree) : Option Nat → Shape → Bool
  | p, .leaf i =>
    match dictGet t.node_dict i with
    | some nd => nd.left == none && nd.right == none && nd.parent == p
    | none => false
  | p, .node i l r =>
    match dictGet t.node_dict i with
    | some nd => nd.left == some l.root && nd.right == some r.root && nd.parent == p &&
        Shape.consistentB t (some i) l && Shape.consistentB t (some i) r
    | none => false

/-- A tree state is well-formed with shape `s`: entries realize `s`, no
child identifier is 0, identifiers are unique, the dictionary keys are
exactly the identifiers of `s`, and `leaf_inds` is exactly the leaves. -/
def Represents (t : Tree) (s : Shape) : Prop :=
  Shape.consistentB t none s = true ∧ s.kidsNZ = true ∧ s.ids.Nodup ∧
  (dictKeys t.node_dict).Perm s.ids ∧ t.leaf_inds.Perm s.leaves

instance decidableRepresents (t : Tree) (s : Shape) : Decidable (Represents t s) := by
  unfold Represents
  infer_instance

/-- Collapsing the subtree rooted at `n`: what `remove_subtree n` does to
the shape. -/
def Shape.collapse : Shape → Nat → Shape
  | .leaf i, _ => .leaf i
  | .node i l r, n => if i = n then .leaf n else .node i (l.collapse n) (r.collapse n)

/-- The child shapes a frontier node contributes to the next level. -/
def Shape.childShapes : Shape → List Shape
  | .leaf _ => []
  | .node _ l r => [l, r]

/-- Roots of the leaf shapes of a frontier, in order: the identifiers one
level of the BFS appends to its leaf list. -/
def leafRootsOf : List Shape → List Nat
  | [] => []
  | .leaf i :: rest => i :: leafRootsOf rest
  | .node _ _ _ :: rest => leafRootsOf rest

/-- All leaves of a frontier of shapes. -/
def allLeaves (F : List Shape) : List Nat := (F.map Shape.leaves).flatten

/-- Total identifier count of a frontier (the BFS termination measure). -/
def sizesSum (F : List Shape) : Nat := (F.map (fun sh => sh.ids.length)).sum

/-- The risk contribution the source reads off a node identifier. -/
def contribAt (t : Tree) (i : Nat) : ℚ :=
  match dictGet t.node_dict i with
  | some nd => errContrib nd
  | none => 0

/-- The next BFS level of a frontier of shapes. -/
def childFrontier : List Shape → List Shape
  | [] => []
  | sh :: rest => sh.childShapes ++ childFrontier rest

/-- All identifiers of a frontier of shapes. -/
def allIds (F : List Shape) : List Nat := (F.map Shape.ids).flatten

/-- A frontier shape usable by the BFS lemmas: consistent below some parent
link and free of 0-identified children. -/
def goodShape (t : Tree) (sh : Shape) : Prop :=
  (∃ p, Shape.consistentB t p sh = true) ∧ sh.kidsNZ = true

/-! ## Spec-side definitions for the growth claims -/

/-- The collaborator hypothesis of C2: on any node with at least two
distinct labels it strictly partitions the label multiset into two nonempty
parts. -/
def PartitionHyp (sp : Splitter) : Prop :=
  ∀ nd : Node, 2 ≤ numUnique nd.labels →
    (sp nd).left_labels ≠ [] ∧ (sp nd).right_labels ≠ [] ∧
    ((sp nd).left_labels ++ (sp nd).right_labels).Perm nd.labels

/-- The collaborator hypothesis of C7: the two branch probabilities of every
split sum to 1. -/
def BranchHyp (sp : Splitter) : Prop :=
  ∀ nd : Node, (sp nd).left_branch_prob + (sp nd).right_branch_prob = 1

/-- The stored reach probability at an identifier (0 when absent). -/
def rpAt (d : List (Nat × Node)) (i : Nat) : ℚ :=
  match dictGet d i with
  | some nd => nd.reach_prob
  | none => 0

/-- The sum of `reach_prob` over the current leaves. -/
def leafRPSum (t : Tree) : ℚ := (t.leaf_inds.map (rpAt t.node_dict)).sum

/-- A leaf's contribution to the growth termination measure: a pure (or
absent) leaf counts 0, an impure leaf of `n` samples counts `n - 1`. -/
def leafWeight (d : List (Nat × Node)) (i : Nat) : Nat :=
  match dictGet d i with
  | some nd => if numUnique nd.labels == 1 then 0 else nd.labels.length - 1
  | none => 0

/-- The growth termination measure: each pass of `fit_full_tree` decreases
it by at least the number of splits the pass performs. -/
def phiMeasure (t : Tree) : Nat := (t.leaf_inds.map (leafWeight t.node_dict)).sum

/-- The claimed `leaf_inds` invariant (C3): the leaf list holds exactly the
stored identifiers whose child fields are both absent. -/
def leafInvariant (t : Tree) : Prop :=
  (∀ i ∈ t.leaf_inds, ∃ nd, dictGet t.node_dict i = some nd ∧
    nd.left = none ∧ nd.right = none) ∧
  (∀ k nd, dictGet t.node_dict k = some nd → nd.left = none → nd.right = none →
    k ∈ t.leaf_inds)

/-- The bookkeeping invariant growth maintains: unique keys bounded by the
running maximum, a duplicate-free leaf list, the C3 leaf invariant, and
correct purity flags on the leaves. -/
def GCore (t : Tree) (mk : Nat) : Prop :=
  (dictKeys t.node_dict).Nodup ∧ (∀ k ∈ dictKeys t.node_dict, k ≤ mk) ∧
  t.leaf_inds.Nodup ∧ leafInvariant t ∧
  (∀ i nd, i ∈ t.leaf_inds → dictGet t.node_dict i = some nd →
    nd.is_stopped = (numUnique nd.labels == 1))

/-- Every current leaf holds a nonempty label subset (maintained by growth
under `PartitionHyp`). -/
def GLab (t : Tree) : Prop :=
  ∀ i nd, i ∈ t.leaf_inds → dictGet t.node_dict i = some nd → nd.labels ≠ []

/-- A concrete splitter for witnesses: sends the samples labelled like the
first sample left and the rest right, with branch probabilities 1/2. -/
def demoSplit : Splitter := fun nd =>
  { left_priors := [1], right_priors := [1],
    left_branch_prob := 1/2, right_branch_prob := 1/2,
    left_rules := [], right_rules := [], left_dat := .d1 [], right_dat := .d1 [],
    left_labels := nd.labels.filter (fun x => x == nd.labels.headD 0),
    right_labels := nd.labels.filter (fun x => !(x == nd.labels.headD 0)) }

/-- A leaf identifier the growth pass will split: present and unstopped. -/
def isUnstopped (d : List (Nat × Node)) (i : Nat) : Bool :=
  match dictGet d i with
  | some nd => !nd.is_stopped
  | none => false

/-! ## Spec-side definitions for the sibling claims -/

/-- The parent identifier and sibling subshape of a leaf identifier. -/
def Shape.sibOf : Shape → Nat → Option (Nat × Shape)
  | .leaf _, _ => none
  | .node i l r, c =>
    if l = .leaf c then some (i, r)
    else if r = .leaf c then some (i, l)
    else
      match Shape.sibOf l c with
      | some pr => some pr
      | none => Shape.sibOf r c

/-- The sibling leaf pairs of a shape: the pairs of leaves sharing an
immediate parent (left component first). -/
def specSibPairs : Shape → List (Nat × Nat)
  | .leaf _ => []
  | .node _ (.leaf a) (.leaf b) => [(a, b)]
  | .node _ (.leaf _) (.node j rl rr) => specSibPairs (.node j rl rr)
  | .node _ (.node j ll lr) (.leaf _) => specSibPairs (.node j ll lr)
  | .node _ (.node jl ll lr) (.node jr rl rr) =>
      specSibPairs (.node jl ll lr) ++ specSibPairs (.node jr rl rr)

/-- Order-normalized form of an unordered pair. -/
def normPair (p : Nat × Nat) : Nat × Nat :=
  if p.1 ≤ p.2 then p else (p.2, p.1)

/-- The pairs whose two members are both in the working set. -/
def pairsWithin (nv : List Nat) (P : List (Nat × Nat)) : List (Nat × Nat) :=
  P.filter (fun p => decide (p.1 ∈ nv) && decide (p.2 ∈ nv))

/-- The flattened members of a pair list. -/
def flatPairs (P : List (Nat × Nat)) : List Nat :=
  (P.map (fun p => [p.1, p.2])).flatten

/-- The parents of one growth pass's split record. -/
def psParents (ps : List (Nat × Nat × Nat)) : List Nat := ps.map (fun x => x.1)

/-- The freshly created child identifiers of one growth pass's split record. -/
def psKids (ps : List (Nat × Nat × Nat)) : List Nat :=
  flatPairs (ps.map (fun x => x.2))

/-- The equality test of `cut_useless_leaves` on a sibling pair: the
parent's own error rate equals the half-sum of the two children's
reach-weighted error rates. -/
def uselessPair (t : Tree) (p : Nat × Nat) : Bool :=
  match dictGet t.node_dict p.1, dictGet t.node_dict p.2 with
  | some na, some nb =>
    match na.parent with
    | some q =>
      match dictGet t.node_dict q with
      | some pn => pn.compute_error_rate ==
          (na.compute_error_rate * na.reach_prob + nb.compute_error_rate * nb.reach_prob) / 2
      | none => false
    | none => false
  | _, _ => false

/-! ## Spec-side definitions for the pruning-sequence claim -/

/-- Weak order on link strengths (`none` is `np.inf`). -/
def oLE : Option ℚ → Option ℚ → Bool
  | none, none => true
  | none, some _ => false
  | some _, none => true
  | some a, some b => a ≤ b

/-- The link strength of the claim, as a value: `+∞` (`none`) on current
leaves of the working copy `T`, otherwise
`(error rate of the node in T - subtreeRisk) / (leafCount - 1)` with
`subtreeRisk, leafCount` coming from `subtree_props` evaluated on `base`.
With `base := T` this is the link of C1 as frozen (computed over `T`'s
current structure); the code realizes `base := ` the original cleaned tree. -/
def specLink (base T : Tree) (i : Nat) : Option ℚ :=
  if i ∈ T.leaf_inds then none
  else
    match dictGet T.node_dict i, base.subtree_props i with
    | some nd, .ok (some (r, L)) =>
        some ((nd.compute_error_rate - r) / ((L.length : ℚ) - 1))
    | _, _ => none

/-- One step of the pruning sequence as the amended claim states it: some
node minimizing the link strength (with risks read off `base`) is collapsed
to produce the successor tree. -/
def isMinLinkStep (base A B : Tree) : Prop :=
  ∃ n, n ∈ dictKeys A.node_dict ∧ (specLink base A n).isSome = true ∧
    (∀ m ∈ dictKeys A.node_dict, oLE (specLink base A n) (specLink base A m) = true) ∧
    A.remove_subtree n = .ok (B, .removed)

/-- Does collapsing `n` in `A` yield exactly `B`? -/
def removesTo (A : Tree) (n : Nat) (B : Tree) : Bool :=
  match A.remove_subtree n with
  | .ok (T, .removed) => T == B
  | _ => false

/-- The step relation of C1 as frozen, decidably: some node of `A` that
minimizes the link strength computed over `A`'s own current structure
(`base := A`) collapses `A` into `B`. -/
def claimStepOk (A B : Tree) : Bool :=
  (dictKeys A.node_dict).any fun n =>
    (specLink A A n).isSome &&
    (dictKeys A.node_dict).all (fun m => oLE (specLink A A n) (specLink A A m)) &&
    removesTo A n B

/-! ## Concrete trees used by witnesses and counterexamples -/

/-- The empty tree value, used only as a `getD` default. -/
def emptyTree : Tree := { node_dict := [], leaf_inds := [], symbols := [] }

/-- A hand-built single-node tree (a root that is a leaf). -/
def tSolo : Tree :=
  { node_dict := [(0, { dat := .d1 [1], labels := [5], is_stopped := true,
                        reach_prob := 1, class_prob := [1] })],
    leaf_inds := [0], symbols := [5] }

/-- The tree `Tree.__init__` builds from identical labels: a pure,
single-node tree whose root is a parentless leaf. -/
def tUniform : Tree := (Tree.init (.d1 [1, 2]) [5, 5]).toOption.getD emptyTree

/-- The tree `Tree.__init__` builds from the separable dataset used by the
growth witnesses. -/
def tDemo : Tree := (Tree.init (.d1 [1, 2, 3]) [0, 0, 1]).toOption.getD emptyTree

/-- A node literal for the hand-built pruning example. -/
def mkN (l r p : Option Nat) (rp : ℚ) (cp : List ℚ) : Node :=
  { left := l, right := r, parent := p, rules := [], dat := .d1 [], labels := [],
    is_stopped := true, reach_prob := rp, class_prob := cp }

/-- A 9-node tree on which the pruning sequence computed by the source
differs from the one C1 prescribes: after the first collapse (at node 3)
the code's links — whose risks are read off the original tree — select
node 1, while links computed over the working copy's current structure
select node 2. -/
def tStar : Tree :=
  { node_dict :=
      [(0, mkN (some 1) (some 2) none 1 [1/2, 1/2]),
       (1, mkN (some 3) (some 4) (some 0) (1/2) [31/40, 9/40]),
       (2, mkN (some 5) (some 6) (some 0) (1/2) [41/50, 9/50]),
       (3, mkN (some 7) (some 8) (some 1) (1/4) [9/10, 1/10]),
       (4, mkN none none (some 1) (1/4) [4/5, 1/5]),
       (5, mkN none none (some 2) (1/4) [4/5, 1/5]),
       (6, mkN none none (some 2) (1/4) [4/5, 1/5]),
       (7, mkN none none (some 3) (1/8) [4/5, 1/5]),
       (8, mkN none none (some 3) (1/8) [4/5, 1/5])],
    leaf_inds := [4, 5, 6, 7, 8], symbols := [0, 1] }

/-- The shape of `tStar`. -/
def sStar : Shape :=
  .node 0 (.node 1 (.node 3 (.leaf 7) (.leaf 8)) (.leaf 4))
          (.node 2 (.leaf 5) (.leaf 6))

/-- A three-node tree with one useless split: the parent error rate 1/4
equals the half-sum of the two children's reach-weighted error rates. -/
def tPair : Tree :=
  { node_dict :=
      [(0, mkN (some 1) (some 2) none 1 [3/4, 1/4]),
       (1, mkN none none (some 0) (1/2) [1/2, 1/2]),
       (2, mkN none none (some 0) (1/2) [1/2, 1/2])],
    leaf_inds := [1, 2], symbols := [0, 1] }

/-- The shape of `tPair`. -/
def sPair : Shape := .node 0 (.leaf 1) (.leaf 2)

/-- The pruning sequence the source computes on `tStar`. -/
def cexSeq : List Tree := (tStar.cost_complexity_seq 9).toOption.getD []

/-! ## Basic facts -/

@[simp] theorem exceptBind_ok {α β : Type} (a : α) (f : α → Except PErr β) :
    (Except.ok a >>= f) = f a := rfl

@[simp] theorem exceptBind_error {α β : Type} (e : PErr) (f : α → Except PErr β) :
    ((Except.error e : Except PErr α) >>= f) = .error e := rfl

@[simp] theorem exceptPure_eq {α : Type} (a : α) :
    (pure a : Except PErr α) = .ok a := rfl

/-! ### Dictionary lemmas -/

/-- Executable check of the C3 leaf-list invariant on a concrete tree. -/
def leafInvariantB (t : Tree) : Bool :=
  (t.leaf_inds.all fun i =>
    match dictGet t.node_dict i with
    | some nd => nd.left == none && nd.right == none
    | none => false) &&
  ((dictKeys t.node_dict).all fun k =>
    match dictGet t.node_dict k with
    | some nd => !(nd.left == none && nd.right == none) || decide (k ∈ t.leaf_inds)
    | none => true)

/-- Executable check that every current leaf's purity flag is correct. -/
def flagsOKB (t : Tree) : Bool :=
  t.leaf_inds.all fun i =>
    match dictGet t.node_dict i with
    | some nd => nd.is_stopped == (numUnique nd.labels == 1)
    | none => true

/-- The concrete result of one `remove_subtree` call on `tStar`. -/
def remDemo : Tree × RemoveOutcome :=
  (tStar.remove_subtree 3).toOption.getD (emptyTree, .notFound)

/-- The concrete result of `cut_useless_leaves` on `tPair`. -/
def cutDemo : Tree × Nat := (tPair.cut_useless_leaves).toOption.getD (emptyTree, 0)

/-- The concrete result of fitting `tDemo` with the demonstration splitter. -/
def fitDemo : Tree × Nat :=
  (tDemo.fit_full_tree demoSplit 4).toOption.getD (emptyTree, 0)

/-- Executable check that no stored subtree has risk above its root node's
own error rate (the quantity the source's defensive check compares). -/
def risksOKB (t : Tree) : Bool :=
  (dictKeys t.node_dict).all fun i =>
    match dictGet t.node_dict i, t.subtree_props i with
    | some nd, .ok (some (r, _)) => decide (r ≤ nd.compute_error_rate)
    | _, _ => true

/-- The chain property of the pruning sequence: every tree follows its
predecessor by a minimum-link collapse (links read off `base`), with
strictly fewer nodes. -/
def chainCCS (base : Tree) : Tree → List Tree → Prop
  | _, [] => True
  | A, B :: rest => isMinLinkStep base A B ∧
      B.node_dict.length < A.node_dict.length ∧ chainCCS base B rest

theorem dictGet_eq_none_iff (d : List (Nat × Node)) (k : Nat) :
    dictGet d k = none ↔ k ∉ dictKeys d := by
  induction d with
  | nil => simp [dictGet, dictKeys]
  | cons e rest ih =>
    obtain ⟨k2, v⟩ := e
    by_cases h : k2 = k
    · simp [dictGet, dictKeys, h]
    · simp [dictGet, dictKeys, h, ih]
      exact fun _ hk => h hk.symm

theorem mem_dictKeys_of_dictGet (d : List (Nat × Node)) (k : Nat) (nd : Node)
    (h : dictGet d k = some nd) : k ∈ dictKeys d := by
  by_contra hk
  rw [(dictGet_eq_none_iff d k).2 hk] at h
  exact Option.noConfusion h

theorem dictGet_some_of_mem (d : List (Nat × Node)) (k : Nat) (h : k ∈ dictKeys d) :
    ∃ nd, dictGet d k = some nd := by
  cases hg : dictGet d k with
  | none => exact absurd h ((dictGet_eq_none_iff d k).1 hg)
  | some nd => exact ⟨nd, rfl⟩

theorem dictKeys_dictDel (d : List (Nat × Node)) (k : Nat) :
    dictKeys (dictDel d k) = (dictKeys d).erase k := by
  induction d with
  | nil => rfl
  | cons e rest ih =>
    obtain ⟨k2, v⟩ := e
    by_cases h : k2 = k <;> simp [dictDel, dictKeys, h, ih, List.erase_cons]

theorem dictGet_dictDel_ne (d : List (Nat × Node)) (k k' : Nat) (h : k' ≠ k) :
    dictGet (dictDel d k) k' = dictGet d k' := by
  induction d with
  | nil => rfl
  | cons e rest ih =>
    obtain ⟨k2, v⟩ := e
    by_cases h2 : k2 = k
    · subst h2
      simp [dictDel, dictGet, Ne.symm h]
    · simp [dictDel, dictGet, h2, ih]

theorem dictGet_dictDel_self (d : List (Nat × Node)) (k : Nat)
    (hnd : (dictKeys d).Nodup) : dictGet (dictDel d k) k = none := by
  rw [dictGet_eq_none_iff, dictKeys_dictDel]
  intro hmem
  exact absurd ((hnd.mem_erase_iff).1 hmem).1 (by simp)

theorem dictKeys_dictModify (d : List (Nat × Node)) (k : Nat) (f : Node → Node) :
    dictKeys (dictModify d k f) = dictKeys d := by
  induction d with
  | nil => rfl
  | cons e rest ih =>
    obtain ⟨k2, v⟩ := e
    by_cases h : k2 = k <;> simp [dictModify, dictKeys, h, ih]

theorem dictGet_dictModify_self (d : List (Nat × Node)) (k : Nat) (f : Node → Node)
    (nd : Node) (h : dictGet d k = some nd) :
    dictGet (dictModify d k f) k = some (f nd) := by
  induction d with
  | nil => exact Option.noConfusion h
  | cons e rest ih =>
    obtain ⟨k2, v⟩ := e
    by_cases h2 : k2 = k
    · simp [dictGet, h2] at h
      simp [dictModify, dictGet, h2, h]
    · simp [dictGet, h2] at h
      simp [dictModify, dictGet, h2, ih h]

theorem dictGet_dictModify_ne (d : List (Nat × Node)) (k : Nat) (f : Node → Node)
    (k' : Nat) (h : k' ≠ k) :
    dictGet (dictModify d k f) k' = dictGet d k' := by
  induction d with
  | nil => rfl
  | cons e rest ih =>
    obtain ⟨k2, v⟩ := e
    by_cases h2 : k2 = k
    · subst h2
      simp [dictModify, dictGet, Ne.symm h]
    · simp [dictModify, dictGet, h2, ih]

/-! ### Shape lemmas -/

theorem Shape.leaves_subset_ids (s : Shape) : ∀ x ∈ s.leaves, x ∈ s.ids := by
  induction s with
  | leaf i => simp [Shape.leaves, Shape.ids]
  | node i l r ihl ihr =>
    intro x hx
    simp only [Shape.leaves, List.mem_append] at hx
    simp only [Shape.ids, List.mem_cons, List.mem_append]
    rcases hx with hx | hx
    · exact Or.inr (Or.inl (ihl x hx))
    · exact Or.inr (Or.inr (ihr x hx))

theorem Shape.leaves_length_pos (s : Shape) : 0 < s.leaves.length := by
  induction s with
  | leaf i => simp [Shape.leaves]
  | node i l r ihl ihr =>
    simp only [Shape.leaves, List.length_append]
    omega

theorem Shape.root_mem_ids (s : Shape) : s.root ∈ s.ids := by
  cases s <;> simp [Shape.root, Shape.ids]

theorem Shape.find?_self (s : Shape) : s.find? s.root = some s := by
  cases s <;> simp [Shape.root, Shape.find?]

theorem Shape.find?_root (s : Shape) : ∀ k si, s.find? k = some si → si.root = k := by
  induction s with
  | leaf i =>
    intro k si h
    by_cases hik : i = k <;> simp [Shape.find?, hik] at h
    rw [← h]
    simp [Shape.root, hik]
  | node i l r ihl ihr =>
    intro k si h
    by_cases hik : i = k
    · simp [Shape.find?, hik] at h
      rw [← h]
      simp [Shape.root, hik]
    · simp only [Shape.find?, if_neg hik] at h
      cases hl : l.find? k with
      | some s2 =>
        rw [hl] at h
        cases h
        exact ihl k _ hl
      | none =>
        rw [hl] at h
        exact ihr k si h

theorem Shape.find?_mem (s : Shape) : ∀ k si, s.find? k = some si → k ∈ s.ids := by
  induction s with
  | leaf i =>
    intro k si h
    by_cases hik : i = k <;> simp [Shape.find?, hik] at h
    simp [Shape.ids, hik]
  | node i l r ihl ihr =>
    intro k si h
    by_cases hik : i = k
    · simp [Shape.ids, hik]
    · simp only [Shape.find?, if_neg hik] at h
      simp only [Shape.ids, List.mem_cons, List.mem_append]
      cases hl : l.find? k with
      | some s2 =>
        rw [hl] at h
        exact Or.inr (Or.inl (ihl k s2 hl))
      | none =>
        rw [hl] at h
        exact Or.inr (Or.inr (ihr k si h))

theorem Shape.find?_isSome_of_mem (s : Shape) : ∀ k ∈ s.ids, (s.find? k).isSome := by
  induction s with
  | leaf i =>
    intro k hk
    simp [Shape.ids] at hk
    simp [Shape.find?, hk]
  | node i l r ihl ihr =>
    intro k hk
    simp only [Shape.ids, List.mem_cons, List.mem_append] at hk
    by_cases hik : i = k
    · simp [Shape.find?, hik]
    · simp only [Shape.find?, if_neg hik]
      rcases hk with hk | hk | hk
      · exact absurd hk.symm hik
      · have hsome := ihl k hk
        cases hl : l.find? k with
        | some s2 => simp
        | none =>
          rw [hl] at hsome
          simp at hsome
      · cases hl : l.find? k with
        | some s2 => simp
        | none => exact ihr k hk

theorem Shape.find?_ids_subset (s : Shape) :
    ∀ k si, s.find? k = some si → ∀ x ∈ si.ids, x ∈ s.ids := by
  induction s with
  | leaf i =>
    intro k si h
    by_cases hik : i = k
    · subst hik
      simp [Shape.find?] at h
      rw [← h]
      exact fun x hx => hx
    · simp [Shape.find?, hik] at h
  | node i l r ihl ihr =>
    intro k si h x hx
    by_cases hik : i = k
    · subst hik
      simp [Shape.find?] at h
      rw [← h] at hx
      exact hx
    · simp only [Shape.find?, if_neg hik] at h
      simp only [Shape.ids, List.mem_cons, List.mem_append]
      cases hl : l.find? k with
      | some s2 =>
        rw [hl] at h
        cases h
        exact Or.inr (Or.inl (ihl k _ hl x hx))
      | none =>
        rw [hl] at h
        exact Or.inr (Or.inr (ihr k si h x hx))

theorem Shape.find?_leaves_subset (s : Shape) :
    ∀ k si, s.find? k = some si → ∀ x ∈ si.leaves, x ∈ s.leaves := by
  induction s with
  | leaf i =>
    intro k si h
    by_cases hik : i = k
    · subst hik
      simp [Shape.find?] at h
      rw [← h]
      exact fun x hx => hx
    · simp [Shape.find?, hik] at h
  | node i l r ihl ihr =>
    intro k si h x hx
    by_cases hik : i = k
    · subst hik
      simp [Shape.find?] at h
      rw [← h] at hx
      exact hx
    · simp only [Shape.find?, if_neg hik] at h
      simp only [Shape.leaves, List.mem_append]
      cases hl : l.find? k with
      | some s2 =>
        rw [hl] at h
        cases h
        exact Or.inl (ihl k _ hl x hx)
      | none =>
        rw [hl] at h
        exact Or.inr (ihr k si h x hx)

theorem Shape.find?_nodup (s : Shape) (hnd : s.ids.Nodup) :
    ∀ k si, s.find? k = some si → si.ids.Nodup := by
  induction s with
  | leaf i =>
    intro k si h
    by_cases hik : i = k
    · subst hik
      simp [Shape.find?] at h
      rw [← h]
      exact hnd
    · simp [Shape.find?, hik] at h
  | node i l r ihl ihr =>
    intro k si h
    simp only [Shape.ids, List.nodup_cons, List.nodup_append] at hnd
    by_cases hik : i = k
    · subst hik
      simp [Shape.find?] at h
      rw [← h]
      simp only [Shape.ids, List.nodup_cons, List.nodup_append]
      exact hnd
    · simp only [Shape.find?, if_neg hik] at h
      cases hl : l.find? k with
      | some s2 =>
        rw [hl] at h
        cases h
        exact ihl hnd.2.1 k _ hl
      | none =>
        rw [hl] at h
        exact ihr hnd.2.2.1 k si h

theorem consistentB_leaf (t : Tree) (p : Option Nat) (i : Nat) :
    Shape.consistentB t p (.leaf i) = true ↔
      ∃ nd, dictGet t.node_dict i = some nd ∧
        nd.left = none ∧ nd.right = none ∧ nd.parent = p := by
  cases hg : dictGet t.node_dict i <;> simp [Shape.consistentB, hg, and_assoc]

theorem consistentB_node (t : Tree) (p : Option Nat) (i : Nat) (l r : Shape) :
    Shape.consistentB t p (.node i l r) = true ↔
      ∃ nd, dictGet t.node_dict i = some nd ∧
        nd.left = some l.root ∧ nd.right = some r.root ∧ nd.parent = p ∧
        Shape.consistentB t (some i) l = true ∧ Shape.consistentB t (some i) r = true := by
  cases hg : dictGet t.node_dict i <;> simp [Shape.consistentB, hg, and_assoc]

theorem consistentB_stable (t t' : Tree) (s : Shape) :
    ∀ p, (∀ k ∈ s.ids, dictGet t'.node_dict k = dictGet t.node_dict k) →
    Shape.consistentB t p s = true → Shape.consistentB t' p s = true := by
  induction s with
  | leaf i =>
    intro p hpres hc
    rw [consistentB_leaf] at hc ⊢
    obtain ⟨nd, hg, h1, h2, h3⟩ := hc
    exact ⟨nd, by rw [hpres i (by simp [Shape.ids])]; exact hg, h1, h2, h3⟩
  | node i l r ihl ihr =>
    intro p hpres hc
    rw [consistentB_node] at hc ⊢
    obtain ⟨nd, hg, h1, h2, h3, hcl, hcr⟩ := hc
    refine ⟨nd, ?_, h1, h2, h3, ihl _ ?_ hcl, ihr _ ?_ hcr⟩
    · rw [hpres i (by simp [Shape.ids])]
      exact hg
    · intro k hk
      exact hpres k (by simp [Shape.ids, hk])
    · intro k hk
      exact hpres k (by simp [Shape.ids, hk])

theorem kidsNZ_node (i : Nat) (l r : Shape) :
    (Shape.node i l r).kidsNZ = true ↔
      l.root ≠ 0 ∧ r.root ≠ 0 ∧ l.kidsNZ = true ∧ r.kidsNZ = true := by
  simp [Shape.kidsNZ, and_assoc]

theorem find?_kidsNZ (s : Shape) (hk : s.kidsNZ = true) :
    ∀ k si, s.find? k = some si → si.kidsNZ = true := by
  induction s with
  | leaf i =>
    intro k si h
    by_cases hik : i = k
    · subst hik
      simp [Shape.find?] at h
      rw [← h]
      rfl
    · simp [Shape.find?, hik] at h
  | node i l r ihl ihr =>
    intro k si h
    rw [kidsNZ_node] at hk
    by_cases hik : i = k
    · subst hik
      simp [Shape.find?] at h
      rw [← h]
      rw [kidsNZ_node]
      exact hk
    · simp only [Shape.find?, if_neg hik] at h
      cases hl : l.find? k with
      | some s2 =>
        rw [hl] at h
        cases h
        exact ihl hk.2.2.1 k _ hl
      | none =>
        rw [hl] at h
        exact ihr hk.2.2.2 k si h

theorem find?_consistent (t : Tree) (s : Shape) :
    ∀ p, Shape.consistentB t p s = true →
    ∀ k si, s.find? k = some si → ∃ q, Shape.consistentB t q si = true := by
  induction s with
  | leaf i =>
    intro p hc k si h
    by_cases hik : i = k
    · subst hik
      simp [Shape.find?] at h
      rw [← h]
      exact ⟨p, hc⟩
    · simp [Shape.find?, hik] at h
  | node i l r ihl ihr =>
    intro p hc k si h
    rw [consistentB_node] at hc
    obtain ⟨nd, hg, h1, h2, h3, hcl, hcr⟩ := hc
    by_cases hik : i = k
    · subst hik
      simp [Shape.find?] at h
      rw [← h]
      exact ⟨p, (consistentB_node t p i l r).2 ⟨nd, hg, h1, h2, h3, hcl, hcr⟩⟩
    · simp only [Shape.find?, if_neg hik] at h
      cases hl : l.find? k with
      | some s2 =>
        rw [hl] at h
        cases h
        exact ihl _ hcl k _ hl
      | none =>
        rw [hl] at h
        exact ihr _ hcr k si h

theorem Shape.root_collapse (s : Shape) (n : Nat) : (s.collapse n).root = s.root := by
  cases s with
  | leaf i => rfl
  | node i l r =>
    by_cases h : i = n <;> simp [Shape.collapse, h, Shape.root]

theorem Shape.collapse_of_notMem (s : Shape) (n : Nat) (h : n ∉ s.ids) :
    s.collapse n = s := by
  induction s with
  | leaf i => rfl
  | node i l r ihl ihr =>
    simp only [Shape.ids, List.mem_cons, List.mem_append] at h
    push_neg at h
    obtain ⟨h1, h2, h3⟩ := h
    have hin : i ≠ n := fun he => h1 he.symm
    simp [Shape.collapse, hin, ihl h2, ihr h3]

theorem Shape.ids_collapse_subset (s : Shape) (n : Nat) :
    ∀ x ∈ (s.collapse n).ids, x ∈ s.ids := by
  induction s with
  | leaf i => simp [Shape.collapse]
  | node i l r ihl ihr =>
    intro x hx
    by_cases h : i = n
    · simp [Shape.collapse, h, Shape.ids] at hx
      simp [Shape.ids, hx, h]
    · simp only [Shape.collapse, if_neg h, Shape.ids, List.mem_cons, List.mem_append] at hx
      simp only [Shape.ids, List.mem_cons, List.mem_append]
      rcases hx with hx | hx | hx
      · exact Or.inl hx
      · exact Or.inr (Or.inl (ihl x hx))
      · exact Or.inr (Or.inr (ihr x hx))

theorem Shape.collapse_nodup (s : Shape) (n : Nat) (h : s.ids.Nodup) :
    (s.collapse n).ids.Nodup := by
  induction s with
  | leaf i => exact h
  | node i l r ihl ihr =>
    by_cases hin : i = n
    · simp [Shape.collapse, hin, Shape.ids]
    · simp only [Shape.ids, List.nodup_cons, List.nodup_append, List.mem_append] at h
      obtain ⟨hi, hl, hr, hdis⟩ := h
      simp only [Shape.collapse, if_neg hin, Shape.ids, List.nodup_cons,
        List.nodup_append, List.mem_append]
      push_neg at hi
      refine ⟨?_, ihl hl, ihr hr, ?_⟩
      · intro hmem
        rcases hmem with hm | hm
        · exact hi.1 (Shape.ids_collapse_subset l n i hm)
        · exact hi.2 (Shape.ids_collapse_subset r n i hm)
      · intro a ha hb
        exact hdis (Shape.ids_collapse_subset l n a ha) (Shape.ids_collapse_subset r n a hb)

theorem Shape.kidsNZ_collapse (s : Shape) (n : Nat) (h : s.kidsNZ = true) :
    (s.collapse n).kidsNZ = true := by
  induction s with
  | leaf i => rfl
  | node i l r ihl ihr =>
    by_cases hin : i = n
    · simp [Shape.collapse, hin, Shape.kidsNZ]
    · rw [kidsNZ_node] at h
      simp only [Shape.collapse, if_neg hin]
      rw [kidsNZ_node, Shape.root_collapse, Shape.root_collapse]
      exact ⟨h.1, h.2.1, ihl h.2.2.1, ihr h.2.2.2⟩

theorem Shape.not_mem_leaves_of_find_node (s : Shape) (n : Nat) (sl sr : Shape)
    (hnd : s.ids.Nodup) (hf : s.find? n = some (.node n sl sr)) : n ∉ s.leaves := by
  induction s with
  | leaf i =>
    by_cases hik : i = n <;> simp [Shape.find?, hik] at hf
  | node i l r ihl ihr =>
    simp only [Shape.ids, List.nodup_cons, List.nodup_append, List.mem_append] at hnd
    obtain ⟨hi, hl, hr, hdis⟩ := hnd
    push_neg at hi
    intro hmem
    simp only [Shape.leaves, List.mem_append] at hmem
    by_cases hik : i = n
    · subst hik
      rcases hmem with hm | hm
      · exact hi.1 (Shape.leaves_subset_ids l i hm)
      · exact hi.2 (Shape.leaves_subset_ids r i hm)
    · simp only [Shape.find?, if_neg hik] at hf
      cases hfl : l.find? n with
      | some s2 =>
        rw [hfl] at hf
        cases hf
        rcases hmem with hm | hm
        · exact ihl hl hfl hm
        · exact hdis (Shape.find?_mem l n _ hfl) (Shape.leaves_subset_ids r n hm)
      | none =>
        rw [hfl] at hf
        rcases hmem with hm | hm
        · have := Shape.find?_isSome_of_mem l n (Shape.leaves_subset_ids l n hm)
          rw [hfl] at this
          simp at this
        · exact ihr hr hf hm

theorem Shape.mem_ids_collapse (s : Shape) (n : Nat) (sl sr : Shape)
    (hnd : s.ids.Nodup) (hf : s.find? n = some (.node n sl sr)) :
    ∀ x, x ∈ (s.collapse n).ids ↔ x ∈ s.ids ∧ x ∉ sl.ids ∧ x ∉ sr.ids := by
  induction s with
  | leaf i =>
    by_cases hik : i = n <;> simp [Shape.find?, hik] at hf
  | node i l r ihl ihr =>
    simp only [Shape.ids, List.nodup_cons, List.nodup_append, List.mem_append] at hnd
    obtain ⟨hi, hl, hr, hdis⟩ := hnd
    push_neg at hi
    by_cases hik : i = n
    · subst hik
      have hf2 : Shape.node i l r = Shape.node i sl sr := by
        have hself := Shape.find?_self (Shape.node i l r)
        simp only [Shape.root] at hself
        rw [hself] at hf
        exact Option.some_inj.1 hf
      injection hf2 with e1 e2 e3
      subst e2
      subst e3
      intro x
      rw [show (Shape.node i l r).collapse i = Shape.leaf i from by simp [Shape.collapse]]
      simp only [Shape.ids, List.mem_singleton, List.mem_cons, List.mem_append,
        List.not_mem_nil, or_false]
      constructor
      · intro hx
        subst hx
        exact ⟨Or.inl rfl, hi.1, hi.2⟩
      · rintro ⟨hx | hx | hx, hnl, hnr⟩
        · exact hx
        · exact absurd hx hnl
        · exact absurd hx hnr
    · simp only [Shape.find?, if_neg hik] at hf
      cases hfl : l.find? n with
      | some s2 =>
        rw [hfl] at hf
        cases hf
        have hsubD : ∀ x, x ∈ sl.ids ∨ x ∈ sr.ids → x ∈ l.ids := by
          intro x hx
          refine Shape.find?_ids_subset l n _ hfl x ?_
          simp only [Shape.ids, List.mem_cons, List.mem_append]
          exact Or.inr hx
        have hnotr : n ∉ r.ids := fun hm => hdis (Shape.find?_mem l n _ hfl) hm
        intro x
        simp only [Shape.collapse, if_neg hik, Shape.ids, List.mem_cons, List.mem_append,
          Shape.collapse_of_notMem r n hnotr, ihl hl hfl x]
        constructor
        · rintro (hx | ⟨hx, hnl, hnr⟩ | hx)
          · subst hx
            exact ⟨Or.inl rfl, fun hm => hi.1 (hsubD x (Or.inl hm)),
              fun hm => hi.1 (hsubD x (Or.inr hm))⟩
          · exact ⟨Or.inr (Or.inl hx), hnl, hnr⟩
          · exact ⟨Or.inr (Or.inr hx), fun hm => hdis (hsubD x (Or.inl hm)) hx,
              fun hm => hdis (hsubD x (Or.inr hm)) hx⟩
        · rintro ⟨hx | hx | hx, hnl, hnr⟩
          · exact Or.inl hx
          · exact Or.inr (Or.inl ⟨hx, hnl, hnr⟩)
          · exact Or.inr (Or.inr hx)
      | none =>
        rw [hfl] at hf
        have hsubD : ∀ x, x ∈ sl.ids ∨ x ∈ sr.ids → x ∈ r.ids := by
          intro x hx
          refine Shape.find?_ids_subset r n _ hf x ?_
          simp only [Shape.ids, List.mem_cons, List.mem_append]
          exact Or.inr hx
        have hnotl : n ∉ l.ids := by
          intro hm
          have := Shape.find?_isSome_of_mem l n hm
          rw [hfl] at this
          simp at this
        intro x
        simp only [Shape.collapse, if_neg hik, Shape.ids, List.mem_cons, List.mem_append,
          Shape.collapse_of_notMem l n hnotl, ihr hr hf x]
        constructor
        · rintro (hx | hx | ⟨hx, hnl, hnr⟩)
          · subst hx
            exact ⟨Or.inl rfl, fun hm => hi.2 (hsubD x (Or.inl hm)),
              fun hm => hi.2 (hsubD x (Or.inr hm))⟩
          · exact ⟨Or.inr (Or.inl hx), fun hm => hdis hx (hsubD x (Or.inl hm)),
              fun hm => hdis hx (hsubD x (Or.inr hm))⟩
          · exact ⟨Or.inr (Or.inr hx), hnl, hnr⟩
        · rintro ⟨hx | hx | hx, hnl, hnr⟩
          · exact Or.inl hx
          · exact Or.inr (Or.inl hx)
          · exact Or.inr (Or.inr ⟨hx, hnl, hnr⟩)

theorem Shape.mem_leaves_collapse (s : Shape) (n : Nat) (sl sr : Shape)
    (hnd : s.ids.Nodup) (hf : s.find? n = some (.node n sl sr)) :
    ∀ x, x ∈ (s.collapse n).leaves ↔
      (x ∈ s.leaves ∧ x ∉ sl.ids ∧ x ∉ sr.ids) ∨ x = n := by
  induction s with
  | leaf i =>
    by_cases hik : i = n <;> simp [Shape.find?, hik] at hf
  | node i l r ihl ihr =>
    simp only [Shape.ids, List.nodup_cons, List.nodup_append, List.mem_append] at hnd
    obtain ⟨hi, hl, hr, hdis⟩ := hnd
    push_neg at hi
    by_cases hik : i = n
    · subst hik
      have hf2 : Shape.node i l r = Shape.node i sl sr := by
        have hself := Shape.find?_self (Shape.node i l r)
        simp only [Shape.root] at hself
        rw [hself] at hf
        exact Option.some_inj.1 hf
      injection hf2 with e1 e2 e3
      subst e2
      subst e3
      intro x
      rw [show (Shape.node i l r).collapse i = Shape.leaf i from by simp [Shape.collapse]]
      simp only [Shape.leaves, List.mem_singleton, List.mem_append]
      constructor
      · intro hx
        exact Or.inr hx
      · rintro (⟨hx | hx, hnl, hnr⟩ | hx)
        · exact absurd (Shape.leaves_subset_ids l x hx) hnl
        · exact absurd (Shape.leaves_subset_ids r x hx) hnr
        · exact hx
    · simp only [Shape.find?, if_neg hik] at hf
      cases hfl : l.find? n with
      | some s2 =>
        rw [hfl] at hf
        cases hf
        have hsubD : ∀ x, x ∈ sl.ids ∨ x ∈ sr.ids → x ∈ l.ids := by
          intro x hx
          refine Shape.find?_ids_subset l n _ hfl x ?_
          simp only [Shape.ids, List.mem_cons, List.mem_append]
          exact Or.inr hx
        have hnotr : n ∉ r.ids := fun hm => hdis (Shape.find?_mem l n _ hfl) hm
        intro x
        simp only [Shape.collapse, if_neg hik, Shape.leaves, List.mem_append,
          Shape.collapse_of_notMem r n hnotr, ihl hl hfl x]
        constructor
        · rintro ((⟨hx, hnl, hnr⟩ | hx) | hx)
          · exact Or.inl ⟨Or.inl hx, hnl, hnr⟩
          · exact Or.inr hx
          · refine Or.inl ⟨Or.inr hx, fun hm => hdis (hsubD x (Or.inl hm)) ?_,
              fun hm => hdis (hsubD x (Or.inr hm)) ?_⟩
            · exact Shape.leaves_subset_ids r x hx
            · exact Shape.leaves_subset_ids r x hx
        · rintro (⟨hx | hx, hnl, hnr⟩ | hx)
          · exact Or.inl (Or.inl ⟨hx, hnl, hnr⟩)
          · exact Or.inr hx
          · exact Or.inl (Or.inr hx)
      | none =>
        rw [hfl] at hf
        have hsubD : ∀ x, x ∈ sl.ids ∨ x ∈ sr.ids → x ∈ r.ids := by
          intro x hx
          refine Shape.find?_ids_subset r n _ hf x ?_
          simp only [Shape.ids, List.mem_cons, List.mem_append]
          exact Or.inr hx
        have hnotl : n ∉ l.ids := by
          intro hm
          have := Shape.find?_isSome_of_mem l n hm
          rw [hfl] at this
          simp at this
        intro x
        simp only [Shape.collapse, if_neg hik, Shape.leaves, List.mem_append,
          Shape.collapse_of_notMem l n hnotl, ihr hr hf x]
        constructor
        · rintro (hx | (⟨hx, hnl, hnr⟩ | hx))
          · refine Or.inl ⟨Or.inl hx, fun hm => hdis ?_ (hsubD x (Or.inl hm)),
              fun hm => hdis ?_ (hsubD x (Or.inr hm))⟩
            · exact Shape.leaves_subset_ids l x hx
            · exact Shape.leaves_subset_ids l x hx
          · exact Or.inl ⟨Or.inr hx, hnl, hnr⟩
          · exact Or.inr hx
        · rintro (⟨hx | hx, hnl, hnr⟩ | hx)
          · exact Or.inl hx
          · exact Or.inr (Or.inl ⟨hx, hnl, hnr⟩)
          · exact Or.inr (Or.inr hx)

theorem consistentB_collapse (t t' : Tree) (s : Shape) (n : Nat) (sl sr : Shape)
    (hmod : ∀ nd, dictGet t.node_dict n = some nd →
      dictGet t'.node_dict n = some { nd with left := none, right := none }) :
    ∀ p, s.ids.Nodup → s.find? n = some (.node n sl sr) →
    (∀ k ∈ s.ids, k ≠ n → k ∉ sl.ids → k ∉ sr.ids →
      dictGet t'.node_dict k = dictGet t.node_dict k) →
    Shape.consistentB t p s = true → Shape.consistentB t' p (s.collapse n) = true := by
  induction s with
  | leaf i =>
    intro p hnd hf hpres hc
    by_cases hik : i = n <;> simp [Shape.find?, hik] at hf
  | node i l r ihl ihr =>
    intro p hnd hf hpres hc
    simp only [Shape.ids, List.nodup_cons, List.nodup_append, List.mem_append] at hnd
    obtain ⟨hi, hl, hr, hdis⟩ := hnd
    push_neg at hi
    rw [consistentB_node] at hc
    obtain ⟨nd, hg, h1, h2, h3, hcl, hcr⟩ := hc
    by_cases hik : i = n
    · subst hik
      rw [show (Shape.node i l r).collapse i = Shape.leaf i from by simp [Shape.collapse]]
      rw [consistentB_leaf]
      exact ⟨{ nd with left := none, right := none }, hmod nd hg, rfl, rfl, h3⟩
    · simp only [Shape.find?, if_neg hik] at hf
      have hiids : i ∈ (Shape.node i l r).ids := by simp [Shape.ids]
      cases hfl : l.find? n with
      | some s2 =>
        rw [hfl] at hf
        cases hf
        have hsubD : ∀ x, x ∈ sl.ids ∨ x ∈ sr.ids → x ∈ l.ids := by
          intro x hx
          refine Shape.find?_ids_subset l n _ hfl x ?_
          simp only [Shape.ids, List.mem_cons, List.mem_append]
          exact Or.inr hx
        have hnotr : n ∉ r.ids := fun hm => hdis (Shape.find?_mem l n _ hfl) hm
        simp only [Shape.collapse, if_neg hik]
        rw [consistentB_node]
        refine ⟨nd, ?_, ?_, ?_, h3, ?_, ?_⟩
        · rw [hpres i hiids hik (fun hm => hi.1 (hsubD i (Or.inl hm)))
            (fun hm => hi.1 (hsubD i (Or.inr hm)))]
          exact hg
        · rw [Shape.root_collapse]
          exact h1
        · rw [Shape.collapse_of_notMem r n hnotr]
          exact h2
        · refine ihl _ hl hfl ?_ hcl
          intro k hk hkn hksl hksr
          refine hpres k ?_ hkn hksl hksr
          simp only [Shape.ids, List.mem_cons, List.mem_append]
          exact Or.inr (Or.inl hk)
        · rw [Shape.collapse_of_notMem r n hnotr]
          refine consistentB_stable t t' r _ ?_ hcr
          intro k hk
          refine hpres k ?_ (fun he => hnotr (he ▸ hk))
            (fun hm => hdis (hsubD k (Or.inl hm)) hk)
            (fun hm => hdis (hsubD k (Or.inr hm)) hk)
          simp only [Shape.ids, List.mem_cons, List.mem_append]
          exact Or.inr (Or.inr hk)
      | none =>
        rw [hfl] at hf
        have hsubD : ∀ x, x ∈ sl.ids ∨ x ∈ sr.ids → x ∈ r.ids := by
          intro x hx
          refine Shape.find?_ids_subset r n _ hf x ?_
          simp only [Shape.ids, List.mem_cons, List.mem_append]
          exact Or.inr hx
        have hnotl : n ∉ l.ids := by
          intro hm
          have := Shape.find?_isSome_of_mem l n hm
          rw [hfl] at this
          simp at this
        simp only [Shape.collapse, if_neg hik]
        rw [consistentB_node]
        refine ⟨nd, ?_, ?_, ?_, h3, ?_, ?_⟩
        · rw [hpres i hiids hik (fun hm => hi.2 (hsubD i (Or.inl hm)))
            (fun hm => hi.2 (hsubD i (Or.inr hm)))]
          exact hg
        · rw [Shape.collapse_of_notMem l n hnotl]
          exact h1
        · rw [Shape.root_collapse]
          exact h2
        · rw [Shape.collapse_of_notMem l n hnotl]
          refine consistentB_stable t t' l _ ?_ hcl
          intro k hk
          refine hpres k ?_ (fun he => hnotl (he ▸ hk))
            (fun hm => hdis hk (hsubD k (Or.inl hm)))
            (fun hm => hdis hk (hsubD k (Or.inr hm)))
          simp only [Shape.ids, List.mem_cons, List.mem_append]
          exact Or.inr (Or.inl hk)
        · refine ihr _ hr hf ?_ hcr
          intro k hk hkn hksl hksr
          refine hpres k ?_ hkn hksl hksr
          simp only [Shape.ids, List.mem_cons, List.mem_append]
          exact Or.inr (Or.inr hk)

/-! ### BFS descent lemmas -/

theorem perm_middle_shuffle (A B C : List Nat) : (A ++ (B ++ C)).Perm (B ++ (A ++ C)) := by
  have h1 : A ++ (B ++ C) = (A ++ B) ++ C := (List.append_assoc A B C).symm
  have h2 : (B ++ A) ++ C = B ++ (A ++ C) := List.append_assoc B A C
  rw [h1, ← h2]
  exact List.perm_append_comm.append_right C

theorem allLeaves_level (F : List Shape) :
    (allLeaves F).Perm (leafRootsOf F ++ allLeaves (childFrontier F)) := by
  induction F with
  | nil => simp [allLeaves, leafRootsOf, childFrontier]
  | cons sh rest ih =>
    cases sh with
    | leaf i =>
      have hL : allLeaves (Shape.leaf i :: rest) = i :: allLeaves rest := by
        simp [allLeaves, Shape.leaves]
      have hR : leafRootsOf (Shape.leaf i :: rest) ++
          allLeaves (childFrontier (Shape.leaf i :: rest)) =
          i :: (leafRootsOf rest ++ allLeaves (childFrontier rest)) := by
        simp [leafRootsOf, childFrontier, Shape.childShapes]
      rw [hL, hR]
      exact ih.cons i
    | node i l r =>
      have hL : allLeaves (Shape.node i l r :: rest) =
          (l.leaves ++ r.leaves) ++ allLeaves rest := by
        simp [allLeaves, Shape.leaves, List.append_assoc]
      have hR : leafRootsOf (Shape.node i l r :: rest) ++
          allLeaves (childFrontier (Shape.node i l r :: rest)) =
          leafRootsOf rest ++ ((l.leaves ++ r.leaves) ++ allLeaves (childFrontier rest)) := by
        simp [leafRootsOf, childFrontier, Shape.childShapes, allLeaves,
          Shape.leaves, List.append_assoc]
      rw [hL, hR]
      exact (List.Perm.append_left _ ih).trans (perm_middle_shuffle _ _ _)

theorem allIds_level (F : List Shape) :
    (allIds F).Perm (F.map Shape.root ++ allIds (childFrontier F)) := by
  induction F with
  | nil => simp [allIds, childFrontier]
  | cons sh rest ih =>
    cases sh with
    | leaf i =>
      have hL : allIds (Shape.leaf i :: rest) = i :: allIds rest := by
        simp [allIds, Shape.ids]
      have hR : (Shape.leaf i :: rest).map Shape.root ++
          allIds (childFrontier (Shape.leaf i :: rest)) =
          i :: (rest.map Shape.root ++ allIds (childFrontier rest)) := by
        simp [childFrontier, Shape.childShapes, Shape.root]
      rw [hL, hR]
      exact ih.cons i
    | node i l r =>
      have hL : allIds (Shape.node i l r :: rest) =
          i :: ((l.ids ++ r.ids) ++ allIds rest) := by
        simp [allIds, Shape.ids, List.append_assoc]
      have hR : (Shape.node i l r :: rest).map Shape.root ++
          allIds (childFrontier (Shape.node i l r :: rest)) =
          i :: (rest.map Shape.root ++ ((l.ids ++ r.ids) ++ allIds (childFrontier rest))) := by
        simp [childFrontier, Shape.childShapes, Shape.root, allIds, Shape.ids,
          List.append_assoc]
      rw [hL, hR]
      exact ((List.Perm.append_left _ ih).trans (perm_middle_shuffle _ _ _)).cons i

theorem sizesSum_childFrontier (F : List Shape) :
    sizesSum (childFrontier F) + F.length = sizesSum F := by
  induction F with
  | nil => rfl
  | cons sh rest ih =>
    cases sh with
    | leaf i =>
      have h1 : sizesSum (childFrontier (Shape.leaf i :: rest)) =
          sizesSum (childFrontier rest) := by
        simp [childFrontier, Shape.childShapes]
      have h2 : sizesSum (Shape.leaf i :: rest) = 1 + sizesSum rest := by
        simp [sizesSum, Shape.ids]
      rw [h1, h2, List.length_cons]
      omega
    | node i l r =>
      have h1 : sizesSum (childFrontier (Shape.node i l r :: rest)) =
          l.ids.length + r.ids.length + sizesSum (childFrontier rest) := by
        simp only [childFrontier, Shape.childShapes, List.cons_append, List.nil_append]
        simp [sizesSum]
        omega
      have h2 : sizesSum (Shape.node i l r :: rest) =
          (1 + l.ids.length + r.ids.length) + sizesSum rest := by
        simp [sizesSum, Shape.ids]
        omega
      rw [h1, h2, List.length_cons]
      omega

theorem sizesSum_pos (sh : Shape) (rest : List Shape) : 0 < sizesSum (sh :: rest) := by
  have h : 0 < sh.ids.length := by cases sh <;> simp [Shape.ids]
  simp only [sizesSum, List.map_cons, List.sum_cons]
  omega

theorem goodShape_children (t : Tree) (sh : Shape) (h : goodShape t sh) :
    ∀ c ∈ sh.childShapes, goodShape t c := by
  obtain ⟨⟨p, hc⟩, hk⟩ := h
  cases sh with
  | leaf i => simp [Shape.childShapes]
  | node i l r =>
    rw [consistentB_node] at hc
    obtain ⟨nd, hg, h1, h2, h3, hcl, hcr⟩ := hc
    rw [kidsNZ_node] at hk
    intro c hcm
    simp only [Shape.childShapes, List.mem_cons, List.mem_singleton,
      List.not_mem_nil, or_false] at hcm
    rcases hcm with rfl | rfl
    · exact ⟨⟨some i, hcl⟩, hk.2.2.1⟩
    · exact ⟨⟨some i, hcr⟩, hk.2.2.2⟩

theorem goodShape_childFrontier (t : Tree) (F : List Shape)
    (h : ∀ sh ∈ F, goodShape t sh) : ∀ c ∈ childFrontier F, goodShape t c := by
  induction F with
  | nil => simp [childFrontier]
  | cons sh rest ih =>
    intro c hc
    simp only [childFrontier, List.mem_append] at hc
    rcases hc with hc | hc
    · exact goodShape_children t sh (h sh (List.mem_cons_self _ _)) c hc
    · exact ih (fun q hq => h q (List.mem_cons_of_mem _ hq)) c hc

theorem spLevel_spec (t : Tree) (F : List Shape) :
    ∀ (acc : ℚ) (lv : List Nat), (∀ sh ∈ F, goodShape t sh) →
    spLevel t (F.map (fun sh => some sh.root)) acc lv =
      .ok ((childFrontier F).map (fun sh => some sh.root),
           acc + ((leafRootsOf F).map (contribAt t)).sum,
           lv ++ leafRootsOf F) := by
  induction F with
  | nil =>
    intro acc lv h
    simp [spLevel, childFrontier, leafRootsOf]
  | cons sh rest ih =>
    intro acc lv h
    obtain ⟨⟨p, hc⟩, hk⟩ := h sh (List.mem_cons_self _ _)
    have hrest : ∀ q ∈ rest, goodShape t q :=
      fun q hq => h q (List.mem_cons_of_mem _ hq)
    cases sh with
    | leaf i =>
      rw [consistentB_leaf] at hc
      obtain ⟨nd, hg, h1, h2, h3⟩ := hc
      rw [show (Shape.leaf i :: rest).map (fun sh => some sh.root) =
        some i :: rest.map (fun sh => some sh.root) from rfl]
      simp only [spLevel, lookupO, lookupE, hg, exceptBind_ok,
        truthyId, h1, Option.getD_some, Bool.false_eq_true, if_false]
      rw [ih (acc + errContrib nd) (lv ++ [i]) hrest]
      have hctr : contribAt t i = errContrib nd := by simp [contribAt, hg]
      simp only [childFrontier, Shape.childShapes, List.nil_append, leafRootsOf,
        List.map_cons, List.sum_cons, hctr, List.append_assoc, List.singleton_append,
        add_assoc]
    | node i l r =>
      rw [consistentB_node] at hc
      obtain ⟨nd, hg, h1, h2, h3, hcl, hcr⟩ := hc
      rw [kidsNZ_node] at hk
      have htr : truthyId nd.left = true := by
        rw [h1]
        simpa [truthyId] using hk.1
      rw [show (Shape.node i l r :: rest).map (fun sh => some sh.root) =
        some i :: rest.map (fun sh => some sh.root) from rfl]
      simp only [spLevel, lookupO, lookupE, hg, exceptBind_ok, htr, if_true]
      rw [ih acc lv hrest]
      simp only [exceptBind_ok, childFrontier, Shape.childShapes, leafRootsOf,
        List.map_append, List.map_cons, List.cons_append, List.nil_append, h1, h2,
        exceptPure_eq]

theorem spGo_spec (t : Tree) : ∀ (n : Nat) (F : List Shape) (fuel : Nat) (acc : ℚ)
    (lv : List Nat), sizesSum F ≤ n → sizesSum F ≤ fuel →
    (∀ sh ∈ F, goodShape t sh) →
    ∃ L, L.Perm (allLeaves F) ∧
      spGo t fuel (F.map (fun sh => some sh.root)) acc lv =
        .ok (acc + (L.map (contribAt t)).sum, lv ++ L) := by
  intro n
  induction n with
  | zero =>
    intro F fuel acc lv hn hf hg
    match F with
    | [] => exact ⟨[], List.Perm.refl _, by simp [spGo, allLeaves]⟩
    | sh :: rest => exact absurd hn (by have := sizesSum_pos sh rest; omega)
  | succ n ih =>
    intro F fuel acc lv hn hf hg
    match F with
    | [] => exact ⟨[], List.Perm.refl _, by simp [spGo, allLeaves]⟩
    | sh :: rest =>
      have hpos := sizesSum_pos sh rest
      match fuel with
      | 0 => exact absurd hf (by omega)
      | fuel + 1 =>
        have hlev := spLevel_spec t (sh :: rest) acc lv hg
        have hnext : sizesSum (childFrontier (sh :: rest)) ≤ n := by
          have := sizesSum_childFrontier (sh :: rest)
          simp only [List.length_cons] at this
          omega
        have hfuel : sizesSum (childFrontier (sh :: rest)) ≤ fuel := by
          have := sizesSum_childFrontier (sh :: rest)
          simp only [List.length_cons] at this
          omega
        obtain ⟨L2, hLp, hLe⟩ := ih (childFrontier (sh :: rest)) fuel
          (acc + ((leafRootsOf (sh :: rest)).map (contribAt t)).sum)
          (lv ++ leafRootsOf (sh :: rest)) hnext hfuel
          (goodShape_childFrontier t _ hg)
        refine ⟨leafRootsOf (sh :: rest) ++ L2, ?_, ?_⟩
        · exact (List.Perm.append_left _ hLp).trans (allLeaves_level (sh :: rest)).symm
        · have hstep : spGo t (fuel + 1) ((sh :: rest).map (fun q => some q.root)) acc lv =
              (do
                let (nf, acc2, lv2) ← spLevel t ((sh :: rest).map (fun q => some q.root)) acc lv
                spGo t fuel nf acc2 lv2) := by
            simp [spGo]
          rw [hstep, hlev]
          simp only [exceptBind_ok]
          rw [hLe]
          simp [List.map_append, List.sum_append, List.append_assoc, add_assoc]

theorem rsLevel_spec (t : Tree) (F : List Shape) :
    ∀ (acc : List Nat), (∀ sh ∈ F, goodShape t sh) →
    rsLevel t (F.map (fun sh => some sh.root)) acc =
      .ok ((childFrontier F).map (fun sh => some sh.root),
           acc ++ F.map Shape.root) := by
  induction F with
  | nil =>
    intro acc h
    simp [rsLevel, childFrontier]
  | cons sh rest ih =>
    intro acc h
    obtain ⟨⟨p, hc⟩, hk⟩ := h sh (List.mem_cons_self _ _)
    have hrest : ∀ q ∈ rest, goodShape t q :=
      fun q hq => h q (List.mem_cons_of_mem _ hq)
    cases sh with
    | leaf i =>
      rw [consistentB_leaf] at hc
      obtain ⟨nd, hg, h1, h2, h3⟩ := hc
      rw [show (Shape.leaf i :: rest).map (fun sh => some sh.root) =
        some i :: rest.map (fun sh => some sh.root) from rfl]
      simp only [rsLevel, lookupO, lookupE, hg, exceptBind_ok,
        truthyId, h1, Option.getD_some, Bool.false_eq_true, if_false]
      rw [ih (acc ++ [i]) hrest]
      rw [show (Shape.leaf i :: rest).map Shape.root = i :: rest.map Shape.root from rfl]
      simp [childFrontier, Shape.childShapes, List.append_assoc]
    | node i l r =>
      rw [consistentB_node] at hc
      obtain ⟨nd, hg, h1, h2, h3, hcl, hcr⟩ := hc
      rw [kidsNZ_node] at hk
      have htr : truthyId nd.left = true := by
        rw [h1]
        simpa [truthyId] using hk.1
      rw [show (Shape.node i l r :: rest).map (fun sh => some sh.root) =
        some i :: rest.map (fun sh => some sh.root) from rfl]
      simp only [rsLevel, lookupO, lookupE, hg, exceptBind_ok, htr, if_true,
        Option.getD_some]
      rw [ih (acc ++ [i]) hrest]
      rw [show (Shape.node i l r :: rest).map Shape.root = i :: rest.map Shape.root from rfl]
      simp [childFrontier, Shape.childShapes, List.append_assoc, h1, h2]

theorem rsGo_spec (t : Tree) : ∀ (n : Nat) (F : List Shape) (fuel : Nat)
    (acc : List Nat), sizesSum F ≤ n → sizesSum F ≤ fuel →
    (∀ sh ∈ F, goodShape t sh) →
    ∃ D, D.Perm (allIds F) ∧
      rsGo t fuel (F.map (fun sh => some sh.root)) acc = .ok (acc ++ D) := by
  intro n
  induction n with
  | zero =>
    intro F fuel acc hn hf hg
    match F with
    | [] => exact ⟨[], List.Perm.refl _, by simp [rsGo, allIds]⟩
    | sh :: rest => exact absurd hn (by have := sizesSum_pos sh rest; omega)
  | succ n ih =>
    intro F fuel acc hn hf hg
    match F with
    | [] => exact ⟨[], List.Perm.refl _, by simp [rsGo, allIds]⟩
    | sh :: rest =>
      have hpos := sizesSum_pos sh rest
      match fuel with
      | 0 => exact absurd hf (by omega)
      | fuel + 1 =>
        have hlev := rsLevel_spec t (sh :: rest) acc hg
        have hnext : sizesSum (childFrontier (sh :: rest)) ≤ n := by
          have := sizesSum_childFrontier (sh :: rest)
          simp only [List.length_cons] at this
          omega
        have hfuel : sizesSum (childFrontier (sh :: rest)) ≤ fuel := by
          have := sizesSum_childFrontier (sh :: rest)
          simp only [List.length_cons] at this
          omega
        obtain ⟨D2, hDp, hDe⟩ := ih (childFrontier (sh :: rest)) fuel
          (acc ++ (sh :: rest).map Shape.root) hnext hfuel
          (goodShape_childFrontier t _ hg)
        refine ⟨(sh :: rest).map Shape.root ++ D2, ?_, ?_⟩
        · exact (List.Perm.append_left _ hDp).trans (allIds_level (sh :: rest)).symm
        · have hstep : rsGo t (fuel + 1) ((sh :: rest).map (fun q => some q.root)) acc =
              (do
                let (nf, acc2) ← rsLevel t ((sh :: rest).map (fun q => some q.root)) acc
                rsGo t fuel nf acc2) := by
            simp [rsGo]
          rw [hstep, hlev]
          simp only [exceptBind_ok]
          rw [hDe]
          simp [List.append_assoc]

/-! ### Further structural lemmas -/

theorem Shape.leaves_nodup (s : Shape) (h : s.ids.Nodup) : s.leaves.Nodup := by
  induction s with
  | leaf i => simp [Shape.leaves]
  | node i l r ihl ihr =>
    simp only [Shape.ids, List.nodup_cons, List.nodup_append] at h
    obtain ⟨hi, hl, hr, hdis⟩ := h
    refine List.Nodup.append (ihl hl) (ihr hr) ?_
    intro a ha hb
    exact hdis (Shape.leaves_subset_ids l a ha) (Shape.leaves_subset_ids r a hb)

theorem Shape.ids_length_collapse (s : Shape) (n : Nat) (sl sr : Shape) :
    s.ids.Nodup → s.find? n = some (.node n sl sr) →
    (s.collapse n).ids.length + (sl.ids.length + sr.ids.length) = s.ids.length := by
  induction s with
  | leaf i =>
    intro hnd hf
    by_cases hik : i = n <;> simp [Shape.find?, hik] at hf
  | node i l r ihl ihr =>
    intro hnd hf
    simp only [Shape.ids, List.nodup_cons, List.nodup_append, List.mem_append] at hnd
    obtain ⟨hi, hl, hr, hdis⟩ := hnd
    by_cases hik : i = n
    · subst hik
      have hf2 : Shape.node i l r = Shape.node i sl sr := by
        have hself := Shape.find?_self (Shape.node i l r)
        simp only [Shape.root] at hself
        rw [hself] at hf
        exact Option.some_inj.1 hf
      injection hf2 with e1 e2 e3
      subst e2
      subst e3
      rw [show (Shape.node i l r).collapse i = Shape.leaf i from by simp [Shape.collapse]]
      simp [Shape.ids]
      omega
    · simp only [Shape.find?, if_neg hik] at hf
      cases hfl : l.find? n with
      | some s2 =>
        rw [hfl] at hf
        cases hf
        have hnotr : n ∉ r.ids := fun hm => hdis (Shape.find?_mem l n _ hfl) hm
        have := ihl hl hfl
        simp only [Shape.collapse, if_neg hik, Shape.ids, List.length_cons,
          List.length_append, Shape.collapse_of_notMem r n hnotr]
        omega
      | none =>
        rw [hfl] at hf
        have hnotl : n ∉ l.ids := by
          intro hm
          have := Shape.find?_isSome_of_mem l n hm
          rw [hfl] at this
          simp at this
        have := ihr hr hf
        simp only [Shape.collapse, if_neg hik, Shape.ids, List.length_cons,
          List.length_append, Shape.collapse_of_notMem l n hnotl]
        omega

theorem dictKeys_length (d : List (Nat × Node)) : (dictKeys d).length = d.length := by
  induction d with
  | nil => rfl
  | cons e rest ih =>
    obtain ⟨k, v⟩ := e
    simp [dictKeys, ih]

theorem Represents.keys_mem {t : Tree} {s : Shape} (h : Represents t s) (k : Nat) :
    k ∈ dictKeys t.node_dict ↔ k ∈ s.ids := h.2.2.2.1.mem_iff

theorem Represents.leaf_mem {t : Tree} {s : Shape} (h : Represents t s) (i : Nat) :
    i ∈ t.leaf_inds ↔ i ∈ s.leaves := h.2.2.2.2.mem_iff

theorem Represents.dict_length {t : Tree} {s : Shape} (h : Represents t s) :
    t.node_dict.length = s.ids.length := by
  rw [← dictKeys_length]
  exact h.2.2.2.1.length_eq

theorem Represents.keys_nodup {t : Tree} {s : Shape} (h : Represents t s) :
    (dictKeys t.node_dict).Nodup := h.2.2.2.1.symm.nodup h.2.2.1

theorem Represents.leaf_nodup {t : Tree} {s : Shape} (h : Represents t s) :
    t.leaf_inds.Nodup := h.2.2.2.2.symm.nodup (Shape.leaves_nodup s h.2.2.1)

theorem delLoop_spec : ∀ (D : List Nat) (d : List (Nat × Node)) (lv : List Nat),
    (dictKeys d).Nodup → D.Nodup → (∀ k ∈ D, k ∈ dictKeys d) →
    ∃ d2, delLoop D (d, lv) = .ok (d2, lv.diff D) ∧
      (∀ j, dictGet d2 j = if j ∈ D then none else dictGet d j) ∧
      dictKeys d2 = (dictKeys d).diff D := by
  intro D
  induction D with
  | nil =>
    intro d lv h1 h2 h3
    exact ⟨d, by simp [delLoop], fun j => by simp, by simp⟩
  | cons k Drest ih =>
    intro d lv h1 h2 h3
    have hkmem : k ∈ dictKeys d := h3 k (List.mem_cons_self _ _)
    obtain ⟨nd, hg⟩ := dictGet_some_of_mem d k hkmem
    have hok : delOneE d k = .ok (dictDel d k) := by simp [delOneE, hg]
    rw [List.nodup_cons] at h2
    have hmemD : ∀ j ∈ Drest, j ∈ dictKeys (dictDel d k) := by
      intro j hj
      rw [dictKeys_dictDel]
      have hne : j ≠ k := fun he => h2.1 (by rw [← he]; exact hj)
      exact (List.mem_erase_of_ne hne).2 (h3 j (List.mem_cons_of_mem _ hj))
    obtain ⟨d2, he, hget, hkeys⟩ := ih (dictDel d k) (lv.erase k)
      (by rw [dictKeys_dictDel]; exact h1.erase k) h2.2 hmemD
    refine ⟨d2, ?_, ?_, ?_⟩
    · simp only [delLoop, hok, exceptBind_ok]
      rw [show (if k ∈ lv then lv.erase k else lv) = lv.erase k from by
        by_cases hm : k ∈ lv
        · simp [hm]
        · simp [hm, List.erase_of_not_mem hm]]
      rw [he, List.diff_cons]
    · intro j
      by_cases hjD : j ∈ k :: Drest
      · rcases List.mem_cons.1 hjD with rfl | hj
        · have hj2 : dictGet d2 j = dictGet (dictDel d j) j := by
            rw [hget]
            simp [h2.1]
          rw [hj2, dictGet_dictDel_self d j h1]
          simp [hjD]
        · have hj2 : dictGet d2 j = none := by
            rw [hget]
            simp [hj]
          rw [hj2]
          simp [hjD]
      · simp only [List.mem_cons, not_or] at hjD
        rw [hget]
        simp only [hjD.2, if_false, List.mem_cons]
        rw [dictGet_dictDel_ne d k j hjD.1]
        simp [hjD.1, hjD.2]
    · rw [hkeys, dictKeys_dictDel, List.diff_cons]

/-! ## C8: subtree_props computes the subtree risk and leaf list -/

/-- Full characterization of `subtree_props` on a well-formed tree. -/
theorem subtree_props_charact (t : Tree) (s : Shape) (i : Nat) (si : Shape)
    (hrep : Represents t s) (hf : s.find? i = some si) :
    (∃ L, L.Perm si.leaves ∧
      t.subtree_props i = .ok (some ((L.map (contribAt t)).sum, L))) ∧
    (∀ nd, i ∈ t.leaf_inds → dictGet t.node_dict i = some nd →
      t.subtree_props i = .ok (some (nd.reach_prob * nd.compute_error_rate, [i]))) := by
  obtain ⟨hcons, hkz, hnd, hkeysp, hleafp⟩ := hrep
  have hrep2 : Represents t s := ⟨hcons, hkz, hnd, hkeysp, hleafp⟩
  have hmem : i ∈ s.ids := Shape.find?_mem s i si hf
  have hkeymem : i ∈ dictKeys t.node_dict := (hrep2.keys_mem i).2 hmem
  obtain ⟨nd, hg⟩ := dictGet_some_of_mem _ _ hkeymem
  have hleafcase : ∀ nd2, i ∈ t.leaf_inds → dictGet t.node_dict i = some nd2 →
      t.subtree_props i = .ok (some (nd2.reach_prob * nd2.compute_error_rate, [i])) := by
    intro nd2 hi hg2
    simp [Tree.subtree_props, hg2, hi]
  refine ⟨?_, hleafcase⟩
  by_cases hi : i ∈ t.leaf_inds
  · have hsl : i ∈ s.leaves := (hrep2.leaf_mem i).1 hi
    have hsil : si = .leaf i := by
      cases hsi : si with
      | leaf j =>
        have := Shape.find?_root s i si hf
        rw [hsi] at this
        simp [Shape.root] at this
        rw [this]
      | node j l r =>
        have hroot := Shape.find?_root s i si hf
        rw [hsi] at hroot
        simp [Shape.root] at hroot
        rw [hsi, hroot] at hf
        exact absurd hsl (Shape.not_mem_leaves_of_find_node s i l r hnd hf)
    refine ⟨[i], by rw [hsil]; simp [Shape.leaves], ?_⟩
    rw [hleafcase nd hi hg]
    simp [contribAt, hg, errContrib]
  · have hsil : ∃ sl sr, si = Shape.node i sl sr := by
      cases hsi : si with
      | leaf j =>
        have hroot := Shape.find?_root s i si hf
        rw [hsi] at hroot
        simp [Shape.root] at hroot
        rw [hsi, hroot] at hf
        have hmem2 : i ∈ s.leaves :=
          Shape.find?_leaves_subset s i _ hf i (by simp [Shape.leaves])
        exact absurd ((hrep2.leaf_mem i).2 hmem2) hi
      | node j l r =>
        have hroot := Shape.find?_root s i si hf
        rw [hsi] at hroot
        simp [Shape.root] at hroot
        exact ⟨l, r, by rw [hroot]⟩
    obtain ⟨sl, sr, rfl⟩ := hsil
    obtain ⟨q, hcsi⟩ := find?_consistent t s none hcons i _ hf
    rw [consistentB_node] at hcsi
    obtain ⟨nd2, hg2, hc1, hc2, hc3, hcl, hcr⟩ := hcsi
    rw [hg] at hg2
    cases hg2
    have hkzsi := find?_kidsNZ s hkz i _ hf
    rw [kidsNZ_node] at hkzsi
    have hndsi := Shape.find?_nodup s hnd i _ hf
    simp only [Shape.ids, List.nodup_cons, List.nodup_append] at hndsi
    have hbound : sl.ids.length + sr.ids.length < t.node_dict.length := by
      have hsub : (Shape.node i sl sr).ids.Nodup := Shape.find?_nodup s hnd i _ hf
      have hsp := List.subperm_of_subset hsub (Shape.find?_ids_subset s i _ hf)
      have := hsp.length_le
      simp only [Shape.ids, List.length_cons, List.length_append] at this
      rw [hrep2.dict_length]
      omega
    have hsz : sizesSum [sl, sr] = sl.ids.length + sr.ids.length := by
      simp [sizesSum]
    obtain ⟨L, hLp, hLe⟩ := spGo_spec t (sizesSum [sl, sr]) [sl, sr]
      t.node_dict.length 0 [] le_rfl (by omega)
      (by
        intro sh hsh
        simp only [List.mem_cons, List.mem_singleton, List.not_mem_nil, or_false] at hsh
        rcases hsh with rfl | rfl
        · exact ⟨⟨some i, hcl⟩, hkzsi.2.2.1⟩
        · exact ⟨⟨some i, hcr⟩, hkzsi.2.2.2⟩)
    refine ⟨L, ?_, ?_⟩
    · refine hLp.trans ?_
      simp [allLeaves, Shape.leaves]
    · rw [show t.subtree_props i =
        (do
          let (r2, lv) ← spGo t t.node_dict.length [nd.left, nd.right] 0 []
          Except.ok (some (r2, lv))) from by simp [Tree.subtree_props, hg, hi]]
      rw [show ([nd.left, nd.right] : List (Option Nat)) =
        ([sl, sr].map (fun sh => some sh.root)) from by simp [hc1, hc2]]
      rw [hLe]
      simp

/-- C8: on a well-formed tree, `subtree_props` at any stored identifier
returns the pair of the subtree risk — the sum over the subtree's leaves of
`reach_prob * (1 - max class_prob)` — and (a permutation-order listing of)
exactly the subtree's leaf identifiers; at an identifier that is currently
a leaf it returns `(reach_prob * error rate, [nodeId])`. -/
theorem subtree_props_spec (t : Tree) (s : Shape) (i : Nat) (si : Shape)
    (hrep : Represents t s) (hf : s.find? i = some si) :
    (∃ L, L.Perm si.leaves ∧
      t.subtree_props i = .ok (some ((L.map (contribAt t)).sum, L))) ∧
    (∀ nd, i ∈ t.leaf_inds → dictGet t.node_dict i = some nd →
      t.subtree_props i = .ok (some (nd.reach_prob * nd.compute_error_rate, [i]))) :=
  subtree_props_charact t s i si hrep hf

/-- Witness for C8 at the concrete 9-node tree: the subtree rooted at the
internal node 1 and the leaf 4. -/
theorem subtree_props_spec_witness :
    ((∃ L, L.Perm (Shape.node 1 (Shape.node 3 (Shape.leaf 7) (Shape.leaf 8))
        (Shape.leaf 4)).leaves ∧
      tStar.subtree_props 1 = .ok (some ((L.map (contribAt tStar)).sum, L))) ∧
    (∀ nd, 1 ∈ tStar.leaf_inds → dictGet tStar.node_dict 1 = some nd →
      tStar.subtree_props 1 = .ok (some (nd.reach_prob * nd.compute_error_rate, [1])))) ∧
    ((∃ L, L.Perm (Shape.leaf 4).leaves ∧
      tStar.subtree_props 4 = .ok (some ((L.map (contribAt tStar)).sum, L))) ∧
    (∀ nd, 4 ∈ tStar.leaf_inds → dictGet tStar.node_dict 4 = some nd →
      tStar.subtree_props 4 = .ok (some (nd.reach_prob * nd.compute_error_rate, [4])))) :=
  ⟨subtree_props_spec tStar sStar 1 _ (by decide) (by decide),
   subtree_props_spec tStar sStar 4 _ (by decide) (by decide)⟩

/-! ## C6: remove_subtree removes exactly the strict descendants -/

/-- Full characterization of `remove_subtree` at an internal node. -/
theorem remove_subtree_charact (t : Tree) (s : Shape) (n : Nat) (sl sr : Shape)
    (hrep : Represents t s) (hf : s.find? n = some (.node n sl sr)) :
    ∃ t' nd, dictGet t.node_dict n = some nd ∧
      t.remove_subtree n = .ok (t', .removed) ∧
      Represents t' (s.collapse n) ∧
      dictGet t'.node_dict n = some { nd with left := none, right := none } ∧
      (∀ x, x ∈ sl.ids ∨ x ∈ sr.ids →
        dictGet t'.node_dict x = none ∧ x ∉ t'.leaf_inds) ∧
      (∀ k, k ≠ n → k ∉ sl.ids → k ∉ sr.ids →
        dictGet t'.node_dict k = dictGet t.node_dict k) ∧
      t'.leaf_inds.count n = 1 ∧
      t'.node_dict.length + (sl.ids.length + sr.ids.length) = t.node_dict.length ∧
      t'.symbols = t.symbols := by
  obtain ⟨hcons, hkz, hnd, hkeysp, hleafp⟩ := hrep
  have hrep2 : Represents t s := ⟨hcons, hkz, hnd, hkeysp, hleafp⟩
  have hmem : n ∈ s.ids := Shape.find?_mem s n _ hf
  have hkeymem : n ∈ dictKeys t.node_dict := (hrep2.keys_mem n).2 hmem
  obtain ⟨nd, hg⟩ := dictGet_some_of_mem _ _ hkeymem
  have hnleaf : n ∉ t.leaf_inds := by
    intro hmem2
    exact Shape.not_mem_leaves_of_find_node s n sl sr hnd hf ((hrep2.leaf_mem n).1 hmem2)
  obtain ⟨q, hcsi⟩ := find?_consistent t s none hcons n _ hf
  rw [consistentB_node] at hcsi
  obtain ⟨nd2, hg2, hc1, hc2, hc3, hcl, hcr⟩ := hcsi
  rw [hg] at hg2
  cases hg2
  have hkzsi := find?_kidsNZ s hkz n _ hf
  rw [kidsNZ_node] at hkzsi
  have hndsi := Shape.find?_nodup s hnd n _ hf
  simp only [Shape.ids, List.nodup_cons, List.nodup_append, List.mem_append] at hndsi
  obtain ⟨hnin, hslnd, hsrnd, hdissub⟩ := hndsi
  push_neg at hnin
  have hbound : sl.ids.length + sr.ids.length < t.node_dict.length := by
    have hsub : (Shape.node n sl sr).ids.Nodup := Shape.find?_nodup s hnd n _ hf
    have hsp := List.subperm_of_subset hsub (Shape.find?_ids_subset s n _ hf)
    have := hsp.length_le
    simp only [Shape.ids, List.length_cons, List.length_append] at this
    rw [hrep2.dict_length]
    omega
  obtain ⟨D, hDp, hDe⟩ := rsGo_spec t (sizesSum [sl, sr]) [sl, sr]
    t.node_dict.length [] le_rfl (by simp [sizesSum]; omega)
    (by
      intro sh hsh
      simp only [List.mem_cons, List.mem_singleton, List.not_mem_nil, or_false] at hsh
      rcases hsh with rfl | rfl
      · exact ⟨⟨some n, hcl⟩, hkzsi.2.2.1⟩
      · exact ⟨⟨some n, hcr⟩, hkzsi.2.2.2⟩)
  have hDall : ∀ x, x ∈ D ↔ x ∈ sl.ids ∨ x ∈ sr.ids := by
    intro x
    rw [hDp.mem_iff]
    simp [allIds]
  have hDnodup : D.Nodup := by
    refine hDp.symm.nodup ?_
    have hA : allIds [sl, sr] = sl.ids ++ sr.ids := by simp [allIds]
    rw [hA]
    exact List.Nodup.append hslnd hsrnd hdissub
  have hDkeys : ∀ k ∈ D, k ∈ dictKeys t.node_dict := by
    intro k hk
    refine (hrep2.keys_mem k).2 ?_
    rcases (hDall k).1 hk with hm | hm
    · exact Shape.find?_ids_subset s n _ hf k (by simp [Shape.ids, hm])
    · exact Shape.find?_ids_subset s n _ hf k (by simp [Shape.ids, hm])
  obtain ⟨d2, hdel, hget, hkeys⟩ := delLoop_spec D t.node_dict t.leaf_inds
    hrep2.keys_nodup hDnodup hDkeys
  have hnD : n ∉ D := by
    rw [hDall n]
    push_neg
    exact hnin
  have hgetn : dictGet d2 n = some nd := by
    rw [hget]
    simp [hnD, hg]
  have hperm : ((dictKeys t.node_dict).diff D).Perm (s.collapse n).ids := by
    refine (List.perm_ext_iff_of_nodup hrep2.keys_nodup.diff
      (Shape.collapse_nodup s n hnd)).2 ?_
    intro a
    rw [hrep2.keys_nodup.mem_diff_iff, Shape.mem_ids_collapse s n sl sr hnd hf a,
      hrep2.keys_mem a, hDall a]
    push_neg
    rfl
  have hlperm : (t.leaf_inds.diff D ++ [n]).Perm (s.collapse n).leaves := by
    refine (List.perm_ext_iff_of_nodup ?_
      (Shape.leaves_nodup _ (Shape.collapse_nodup s n hnd))).2 ?_
    · refine List.Nodup.append hrep2.leaf_nodup.diff (List.nodup_singleton n) ?_
      intro a ha hb
      rw [List.mem_singleton] at hb
      subst hb
      exact hnleaf (List.diff_subset _ _ ha)
    · intro a
      rw [List.mem_append, List.mem_singleton, hrep2.leaf_nodup.mem_diff_iff,
        Shape.mem_leaves_collapse s n sl sr hnd hf a, hrep2.leaf_mem a, hDall a]
      push_neg
      rfl
  have hpres : ∀ k, k ≠ n → k ∉ sl.ids → k ∉ sr.ids →
      dictGet (dictModify d2 n (fun nd0 => { nd0 with left := none, right := none })) k =
        dictGet t.node_dict k := by
    intro k hkn hksl hksr
    rw [dictGet_dictModify_ne _ _ _ _ hkn, hget]
    have hkD : k ∉ D := fun h => ((hDall k).1 h).elim hksl hksr
    simp [hkD]
  refine ⟨{ t with
      node_dict := dictModify d2 n (fun nd0 => { nd0 with left := none, right := none }),
      leaf_inds := t.leaf_inds.diff D ++ [n] }, nd, hg, ?_, ?_, ?_, ?_, ?_, ?_, ?_, rfl⟩
  · rw [show t.remove_subtree n =
      (do
        let node_list ← rsGo t t.node_dict.length [nd.left, nd.right] []
        let dlv ← delLoop node_list (t.node_dict, t.leaf_inds)
        Except.ok ({ t with
          node_dict := dictModify dlv.1 n (fun nd0 => { nd0 with left := none, right := none }),
          leaf_inds := dlv.2 ++ [n] }, RemoveOutcome.removed)) from by
        simp [Tree.remove_subtree, hg, hnleaf]]
    rw [show ([nd.left, nd.right] : List (Option Nat)) =
      ([sl, sr].map (fun sh => some sh.root)) from by simp [hc1, hc2]]
    rw [hDe]
    simp only [List.nil_append, exceptBind_ok]
    rw [hdel]
    rfl
  · refine ⟨?_, Shape.kidsNZ_collapse s n hkz, Shape.collapse_nodup s n hnd, ?_, ?_⟩
    · refine consistentB_collapse t _ s n sl sr ?_ none hnd hf ?_ hcons
      · intro nd0 hg0
        rw [hg] at hg0
        cases hg0
        exact dictGet_dictModify_self d2 n _ nd hgetn
      · intro k _ hkn hksl hksr
        exact hpres k hkn hksl hksr
    · show (dictKeys (dictModify d2 n
        (fun nd0 => { nd0 with left := none, right := none }))).Perm (s.collapse n).ids
      rw [dictKeys_dictModify, hkeys]
      exact hperm
    · exact hlperm
  · exact dictGet_dictModify_self d2 n _ nd hgetn
  · intro x hx
    have hxD : x ∈ D := (hDall x).2 hx
    have hxn : x ≠ n := by
      rintro rfl
      exact hnD hxD
    constructor
    · rw [dictGet_dictModify_ne _ _ _ _ hxn, hget]
      simp [hxD]
    · show x ∉ t.leaf_inds.diff D ++ [n]
      rw [List.mem_append, List.mem_singleton]
      push_neg
      refine ⟨?_, hxn⟩
      rw [hrep2.leaf_nodup.mem_diff_iff]
      push_neg
      intro _
      exact hxD
  · exact hpres
  · show (t.leaf_inds.diff D ++ [n]).count n = 1
    rw [List.count_append]
    have h0 : (t.leaf_inds.diff D).count n = 0 := by
      rw [List.count_eq_zero]
      intro hmem2
      exact hnleaf (List.diff_subset _ _ hmem2)
    rw [h0]
    simp
  · show (dictModify d2 n (fun nd0 => { nd0 with left := none, right := none })).length +
      (sl.ids.length + sr.ids.length) = t.node_dict.length
    have hlen1 : (dictModify d2 n
        (fun nd0 => { nd0 with left := none, right := none })).length =
        (s.collapse n).ids.length := by
      rw [← dictKeys_length, dictKeys_dictModify, hkeys, hperm.length_eq]
    rw [hlen1, hrep2.dict_length]
    exact Shape.ids_length_collapse s n sl sr hnd hf

/-- C6: on a well-formed tree, removing the subtree at an internal node `n`
succeeds; every strict descendant disappears from the node collection and
from `leaf_inds`, `n`'s child fields are cleared, `n` occurs in `leaf_inds`
exactly once, every other entry is untouched, and the result is again
well-formed with the collapsed shape. -/
theorem remove_subtree_spec (t : Tree) (s : Shape) (n : Nat) (sl sr : Shape)
    (hrep : Represents t s) (hf : s.find? n = some (.node n sl sr)) :
    ∃ t' nd, dictGet t.node_dict n = some nd ∧
      t.remove_subtree n = .ok (t', .removed) ∧
      Represents t' (s.collapse n) ∧
      dictGet t'.node_dict n = some { nd with left := none, right := none } ∧
      (∀ x, x ∈ sl.ids ∨ x ∈ sr.ids →
        dictGet t'.node_dict x = none ∧ x ∉ t'.leaf_inds) ∧
      (∀ k, k ≠ n → k ∉ sl.ids → k ∉ sr.ids →
        dictGet t'.node_dict k = dictGet t.node_dict k) ∧
      t'.leaf_inds.count n = 1 ∧
      t'.node_dict.length + (sl.ids.length + sr.ids.length) = t.node_dict.length ∧
      t'.symbols = t.symbols :=
  remove_subtree_charact t s n sl sr hrep hf

/-- Witness for C6 at the concrete 9-node tree: removing the subtree rooted
at the internal node 3 deletes its two leaf children 7 and 8. -/
theorem remove_subtree_spec_witness :
    ∃ t' nd, dictGet tStar.node_dict 3 = some nd ∧
      tStar.remove_subtree 3 = .ok (t', .removed) ∧
      Represents t' (sStar.collapse 3) ∧
      dictGet t'.node_dict 3 = some { nd with left := none, right := none } ∧
      (∀ x, x ∈ (Shape.leaf 7).ids ∨ x ∈ (Shape.leaf 8).ids →
        dictGet t'.node_dict x = none ∧ x ∉ t'.leaf_inds) ∧
      (∀ k, k ≠ 3 → k ∉ (Shape.leaf 7).ids → k ∉ (Shape.leaf 8).ids →
        dictGet t'.node_dict k = dictGet tStar.node_dict k) ∧
      t'.leaf_inds.count 3 = 1 ∧
      t'.node_dict.length + ((Shape.leaf 7).ids.length + (Shape.leaf 8).ids.length) =
        tStar.node_dict.length ∧
      t'.symbols = tStar.symbols :=
  remove_subtree_spec tStar sStar 3 (.leaf 7) (.leaf 8) (by decide) (by decide)

/-! ## Sibling-pair infrastructure -/

theorem normPair_comm (a b : Nat) : normPair (a, b) = normPair (b, a) := by
  simp only [normPair]
  split_ifs with h1 h2 h2
  · exact Prod.ext (Nat.le_antisymm h1 h2) (Nat.le_antisymm h2 h1)
  · rfl
  · rfl
  · omega

theorem flatPairs_nil : flatPairs [] = [] := rfl

theorem flatPairs_cons (p : Nat × Nat) (P : List (Nat × Nat)) :
    flatPairs (p :: P) = p.1 :: p.2 :: flatPairs P := rfl

theorem flatPairs_append (P Q : List (Nat × Nat)) :
    flatPairs (P ++ Q) = flatPairs P ++ flatPairs Q := by
  simp [flatPairs]

theorem mem_flatPairs (P : List (Nat × Nat)) (x : Nat) :
    x ∈ flatPairs P ↔ ∃ p ∈ P, x = p.1 ∨ x = p.2 := by
  induction P with
  | nil => simp [flatPairs]
  | cons q Q ih =>
    rw [flatPairs_cons]
    simp only [List.mem_cons, ih]
    constructor
    · rintro (h | h | ⟨p, hp, h⟩)
      · exact ⟨q, Or.inl rfl, Or.inl h⟩
      · exact ⟨q, Or.inl rfl, Or.inr h⟩
      · exact ⟨p, Or.inr hp, h⟩
    · rintro ⟨p, hp | hp, h⟩
      · subst hp
        rcases h with h | h
        · exact Or.inl h
        · exact Or.inr (Or.inl h)
      · exact Or.inr (Or.inr ⟨p, hp, h⟩)

theorem flatPairs_nodup_ne (P : List (Nat × Nat)) (h : (flatPairs P).Nodup) :
    ∀ p ∈ P, p.1 ≠ p.2 := by
  induction P with
  | nil => simp
  | cons q Q ih =>
    rw [flatPairs_cons] at h
    intro p hp
    rcases List.mem_cons.mp hp with rfl | hp
    · intro he
      exact (List.nodup_cons.mp h).1 (he ▸ List.mem_cons_self _ _)
    · exact ih (List.nodup_cons.mp (List.nodup_cons.mp h).2).2 p hp

theorem flatPairs_nodup_pairs_nodup (P : List (Nat × Nat))
    (h : (flatPairs P).Nodup) : P.Nodup := by
  induction P with
  | nil => exact List.nodup_nil
  | cons q Q ih =>
    rw [flatPairs_cons] at h
    have h1 := List.nodup_cons.mp h
    have h2 := List.nodup_cons.mp h1.2
    refine List.nodup_cons.mpr ⟨fun hq => ?_, ih h2.2⟩
    exact h1.1 (List.mem_cons.mpr (Or.inr ((mem_flatPairs Q q.1).mpr ⟨q, hq, Or.inl rfl⟩)))

theorem flatPairs_nodup_unique (P : List (Nat × Nat)) (h : (flatPairs P).Nodup) :
    ∀ p ∈ P, ∀ q ∈ P, ∀ x, (x = p.1 ∨ x = p.2) → (x = q.1 ∨ x = q.2) → p = q := by
  induction P with
  | nil => simp
  | cons r Q ih =>
    rw [flatPairs_cons] at h
    have h1 := List.nodup_cons.mp h
    have h2 := List.nodup_cons.mp h1.2
    intro p hp q hq x hxp hxq
    have hmem : ∀ u ∈ Q, ∀ y, (y = u.1 ∨ y = u.2) → y ∈ flatPairs Q := by
      intro u hu y hy
      exact (mem_flatPairs Q y).mpr ⟨u, hu, hy⟩
    rcases List.mem_cons.mp hp with hpr | hp2 <;> rcases List.mem_cons.mp hq with hqr | hq2
    · rw [hpr, hqr]
    · exfalso
      have hx : x ∈ flatPairs Q := hmem q hq2 x hxq
      rw [hpr] at hxp
      rcases hxp with rfl | rfl
      · exact h1.1 (List.mem_cons.mpr (Or.inr hx))
      · exact h2.1 hx
    · exfalso
      have hx : x ∈ flatPairs Q := hmem p hp2 x hxp
      rw [hqr] at hxq
      rcases hxq with rfl | rfl
      · exact h1.1 (List.mem_cons.mpr (Or.inr hx))
      · exact h2.1 hx
    · exact ih h2.2 p hp2 q hq2 x hxp hxq

theorem specSibPairs_mem_leaves (s : Shape) :
    ∀ p ∈ specSibPairs s, p.1 ∈ s.leaves ∧ p.2 ∈ s.leaves := by
  induction s with
  | leaf i => intro p hp; simp [specSibPairs] at hp
  | node i l r ihl ihr =>
    intro p hp
    cases l with
    | leaf a =>
      cases r with
      | leaf b =>
        simp only [specSibPairs, List.mem_singleton] at hp
        subst hp
        simp [Shape.leaves]
      | node jr rl rr =>
        simp only [specSibPairs] at hp
        have h := ihr p hp
        exact ⟨List.mem_append.mpr (Or.inr h.1), List.mem_append.mpr (Or.inr h.2)⟩
    | node jl ll lr =>
      cases r with
      | leaf b =>
        simp only [specSibPairs] at hp
        have h := ihl p hp
        exact ⟨List.mem_append.mpr (Or.inl h.1), List.mem_append.mpr (Or.inl h.2)⟩
      | node jr rl rr =>
        simp only [specSibPairs, List.mem_append] at hp
        rcases hp with hp | hp
        · have h := ihl p hp
          exact ⟨List.mem_append.mpr (Or.inl h.1), List.mem_append.mpr (Or.inl h.2)⟩
        · have h := ihr p hp
          exact ⟨List.mem_append.mpr (Or.inr h.1), List.mem_append.mpr (Or.inr h.2)⟩

theorem flatPairs_specSibPairs_sub (s : Shape) :
    ∀ x ∈ flatPairs (specSibPairs s), x ∈ s.leaves := by
  intro x hx
  rcases (mem_flatPairs _ x).mp hx with ⟨p, hp, hx⟩
  have h := specSibPairs_mem_leaves s p hp
  rcases hx with rfl | rfl
  · exact h.1
  · exact h.2

theorem flatPairs_specSibPairs_nodup (s : Shape) (hnd : s.ids.Nodup) :
    (flatPairs (specSibPairs s)).Nodup := by
  induction s with
  | leaf i => simp [specSibPairs, flatPairs]
  | node i l r ihl ihr =>
    simp only [Shape.ids, List.nodup_cons, List.nodup_append] at hnd
    obtain ⟨-, hl, hr, hdisj⟩ := hnd
    cases l with
    | leaf a =>
      cases r with
      | leaf b =>
        have hab : a ≠ b := by
          intro he
          exact hdisj (show a ∈ (Shape.leaf a).ids by simp [Shape.ids])
            (show a ∈ (Shape.leaf b).ids by simp [Shape.ids, he])
        simp [specSibPairs, flatPairs, hab]
      | node jr rl rr =>
        simp only [specSibPairs]
        exact ihr hr
    | node jl ll lr =>
      cases r with
      | leaf b =>
        simp only [specSibPairs]
        exact ihl hl
      | node jr rl rr =>
        simp only [specSibPairs]
        rw [flatPairs_append]
        refine List.Nodup.append (ihl hl) (ihr hr) ?_
        intro x hxl hxr
        have h1 := flatPairs_specSibPairs_sub _ x hxl
        have h2 := flatPairs_specSibPairs_sub _ x hxr
        exact hdisj (Shape.leaves_subset_ids _ x h1) (Shape.leaves_subset_ids _ x h2)

theorem sibOf_mem (s : Shape) :
    ∀ c par sib, Shape.sibOf s c = some (par, sib) →
      c ∈ s.ids ∧ par ∈ s.ids ∧ sib.root ∈ s.ids := by
  induction s with
  | leaf i => intro c par sib h; simp [Shape.sibOf] at h
  | node i l r ihl ihr =>
    intro c par sib h
    have hmem : ∀ x, x ∈ l.ids → x ∈ (Shape.node i l r).ids := by
      intro x hx
      exact List.mem_cons.mpr (Or.inr (List.mem_append.mpr (Or.inl hx)))
    have hmem2 : ∀ x, x ∈ r.ids → x ∈ (Shape.node i l r).ids := by
      intro x hx
      exact List.mem_cons.mpr (Or.inr (List.mem_append.mpr (Or.inr hx)))
    simp only [Shape.sibOf] at h
    split_ifs at h with h1 h2
    · rw [Option.some.injEq, Prod.mk.injEq] at h
      obtain ⟨e1, e2⟩ := h
      subst e1
      subst e2
      refine ⟨?_, List.mem_cons_self _ _, hmem2 _ (Shape.root_mem_ids r)⟩
      exact hmem c (by rw [h1]; simp [Shape.ids])
    · rw [Option.some.injEq, Prod.mk.injEq] at h
      obtain ⟨e1, e2⟩ := h
      subst e1
      subst e2
      refine ⟨?_, List.mem_cons_self _ _, hmem _ (Shape.root_mem_ids l)⟩
      exact hmem2 c (by rw [h2]; simp [Shape.ids])
    · cases hml : Shape.sibOf l c with
      | some pr =>
        obtain ⟨pa, pb⟩ := pr
        rw [hml] at h
        simp only [Option.some.injEq, Prod.mk.injEq] at h
        obtain ⟨e1, e2⟩ := h
        subst e1
        subst e2
        obtain ⟨a1, a2, a3⟩ := ihl c pa pb hml
        exact ⟨hmem _ a1, hmem _ a2, hmem _ a3⟩
      | none =>
        rw [hml] at h
        obtain ⟨a1, a2, a3⟩ := ihr c par sib h
        exact ⟨hmem2 _ a1, hmem2 _ a2, hmem2 _ a3⟩

theorem sibOf_isSome (s : Shape) :
    ∀ c ∈ s.leaves, (∀ j, s ≠ Shape.leaf j) → (Shape.sibOf s c).isSome = true := by
  induction s with
  | leaf i => intro c _ hne; exact absurd rfl (hne i)
  | node i l r ihl ihr =>
    intro c hc _
    simp only [Shape.sibOf]
    split_ifs with h1 h2
    · simp
    · simp
    · rcases List.mem_append.mp hc with hcl | hcr
      · cases l with
        | leaf a =>
          exfalso
          have hca : c = a := by simpa [Shape.leaves] using hcl
          exact h1 (by rw [hca])
        | node jl ll lr =>
          have hs := ihl c hcl (fun j h => Shape.noConfusion h)
          obtain ⟨pr, hpr⟩ := Option.isSome_iff_exists.mp hs
          rw [hpr]
          rfl
      · cases hml : Shape.sibOf l c with
        | some pr => rfl
        | none =>
          show (Shape.sibOf r c).isSome = true
          cases r with
          | leaf b =>
            exfalso
            have hcb : c = b := by simpa [Shape.leaves] using hcr
            exact h2 (by rw [hcb])
          | node jr rl rr => exact ihr c hcr (fun j h => Shape.noConfusion h)

theorem sibOf_consistent (t : Tree) (s : Shape) :
    ∀ p, Shape.consistentB t p s = true → s.ids.Nodup →
    ∀ c par sib, Shape.sibOf s c = some (par, sib) →
      ∃ nd pn, dictGet t.node_dict c = some nd ∧
        nd.left = none ∧ nd.right = none ∧ nd.parent = some par ∧
        dictGet t.node_dict par = some pn ∧
        (if pn.left == some c then pn.right else pn.left) = some sib.root ∧
        Shape.consistentB t (some par) sib = true := by
  induction s with
  | leaf i => intro p _ _ c par sib h; simp [Shape.sibOf] at h
  | node i l r ihl ihr =>
    intro p hcons hnd c par sib h
    rw [consistentB_node] at hcons
    obtain ⟨pn, hgp, hpl, hpr, hpp, hcl, hcr⟩ := hcons
    simp only [Shape.ids, List.nodup_cons, List.nodup_append] at hnd
    obtain ⟨-, hndl, hndr, hdisj⟩ := hnd
    simp only [Shape.sibOf] at h
    split_ifs at h with h1 h2
    · rw [Option.some.injEq, Prod.mk.injEq] at h
      obtain ⟨e1, e2⟩ := h
      subst e1
      subst e2
      subst h1
      rw [consistentB_leaf] at hcl
      obtain ⟨nd, hgc, hl1, hl2, hl3⟩ := hcl
      refine ⟨nd, pn, hgc, hl1, hl2, hl3, hgp, ?_, hcr⟩
      have : pn.left == some c := by
        rw [hpl]
        simp [Shape.root]
      rw [if_pos this, hpr]
    · rw [Option.some.injEq, Prod.mk.injEq] at h
      obtain ⟨e1, e2⟩ := h
      subst e1
      subst e2
      subst h2
      rw [consistentB_leaf] at hcr
      obtain ⟨nd, hgc, hl1, hl2, hl3⟩ := hcr
      refine ⟨nd, pn, hgc, hl1, hl2, hl3, hgp, ?_, hcl⟩
      have hlr : l.root ≠ c := by
        intro he
        exact hdisj (Shape.root_mem_ids l) (by simp [Shape.ids, he])
      have hfalse : (pn.left == some c) = false := by
        rw [hpl]
        simp [hlr]
      rw [hfalse]
      simp only [Bool.false_eq_true, if_false]
      exact hpl
    · cases hml : Shape.sibOf l c with
      | some pr =>
        obtain ⟨pa, pb⟩ := pr
        rw [hml] at h
        simp only [Option.some.injEq, Prod.mk.injEq] at h
        obtain ⟨e1, e2⟩ := h
        subst e1
        subst e2
        exact ihl _ hcl hndl c pa pb hml
      | none =>
        rw [hml] at h
        exact ihr _ hcr hndr c par sib h

theorem sibOf_node_root_not_leaf (s : Shape) (hnd : s.ids.Nodup) :
    ∀ c par j a b, Shape.sibOf s c = some (par, Shape.node j a b) → j ∉ s.leaves := by
  induction s with
  | leaf i => intro c par j a b h; simp [Shape.sibOf] at h
  | node i l r ihl ihr =>
    intro c par j a b h
    simp only [Shape.ids, List.nodup_cons, List.nodup_append] at hnd
    obtain ⟨-, hndl, hndr, hdisj⟩ := hnd
    simp only [Shape.sibOf] at h
    split_ifs at h with h1 h2
    · rw [Option.some.injEq, Prod.mk.injEq] at h
      obtain ⟨e1, e2⟩ := h
      intro hj
      rcases List.mem_append.mp hj with hjl | hjr
      · have hjr2 : j ∈ r.ids := by rw [e2]; simp [Shape.ids]
        exact hdisj (Shape.leaves_subset_ids l j hjl) hjr2
      · rw [e2] at hjr hndr
        simp only [Shape.leaves] at hjr
        simp only [Shape.ids, List.nodup_cons] at hndr
        refine hndr.1 ?_
        rcases List.mem_append.mp hjr with hm | hm
        · exact List.mem_append.mpr (Or.inl (Shape.leaves_subset_ids a j hm))
        · exact List.mem_append.mpr (Or.inr (Shape.leaves_subset_ids b j hm))
    · rw [Option.some.injEq, Prod.mk.injEq] at h
      obtain ⟨e1, e2⟩ := h
      intro hj
      rcases List.mem_append.mp hj with hjl | hjr
      · rw [e2] at hjl hndl
        simp only [Shape.leaves] at hjl
        simp only [Shape.ids, List.nodup_cons] at hndl
        refine hndl.1 ?_
        rcases List.mem_append.mp hjl with hm | hm
        · exact List.mem_append.mpr (Or.inl (Shape.leaves_subset_ids a j hm))
        · exact List.mem_append.mpr (Or.inr (Shape.leaves_subset_ids b j hm))
      · have hjl2 : j ∈ l.ids := by rw [e2]; simp [Shape.ids]
        exact hdisj hjl2 (Shape.leaves_subset_ids r j hjr)
    · cases hml : Shape.sibOf l c with
      | some pr =>
        obtain ⟨pa, pb⟩ := pr
        rw [hml] at h
        simp only [Option.some.injEq, Prod.mk.injEq] at h
        obtain ⟨e1, e2⟩ := h
        subst e1
        subst e2
        intro hj
        rcases List.mem_append.mp hj with hjl | hjr
        · exact ihl hndl c pa j a b hml hjl
        · have hjl2 : j ∈ l.ids := (sibOf_mem l c pa _ hml).2.2
          exact hdisj hjl2 (Shape.leaves_subset_ids r j hjr)
      | none =>
        rw [hml] at h
        intro hj
        rcases List.mem_append.mp hj with hjl | hjr
        · have hjr2 : j ∈ r.ids := (sibOf_mem r c par _ h).2.2
          exact hdisj (Shape.leaves_subset_ids l j hjl) hjr2
        · exact ihr hndr c par j a b h hjr

theorem sibOf_lift_left (i : Nat) (l r : Shape) (hdisj : l.ids.Disjoint r.ids)
    (c p : Nat) (sib : Shape) (h : Shape.sibOf l c = some (p, sib)) :
    Shape.sibOf (Shape.node i l r) c = some (p, sib) := by
  have hcl : c ∈ l.ids := (sibOf_mem l c p sib h).1
  have h1 : ¬(l = Shape.leaf c) := by
    intro he
    rw [he] at h
    simp [Shape.sibOf] at h
  have h2 : ¬(r = Shape.leaf c) := by
    intro he
    exact hdisj hcl (by rw [he]; simp [Shape.ids])
  simp only [Shape.sibOf, if_neg h1, if_neg h2]
  rw [h]

theorem sibOf_lift_right (i : Nat) (l r : Shape) (c p : Nat) (sib : Shape)
    (h : Shape.sibOf r c = some (p, sib)) (hcl : c ∉ l.ids) :
    Shape.sibOf (Shape.node i l r) c = some (p, sib) := by
  have h1 : ¬(l = Shape.leaf c) := by
    intro he
    exact hcl (by rw [he]; simp [Shape.ids])
  have h2 : ¬(r = Shape.leaf c) := by
    intro he
    rw [he] at h
    simp [Shape.sibOf] at h
  simp only [Shape.sibOf, if_neg h1, if_neg h2]
  cases hml : Shape.sibOf l c with
  | some pr => exact absurd (sibOf_mem l c pr.1 pr.2 hml).1 hcl
  | none => exact h

theorem sibOf_leaf_pair (s : Shape) :
    ∀ c par b, Shape.sibOf s c = some (par, Shape.leaf b) →
      (c, b) ∈ specSibPairs s ∨ (b, c) ∈ specSibPairs s := by
  induction s with
  | leaf i => intro c par b h; simp [Shape.sibOf] at h
  | node i l r ihl ihr =>
    intro c par b h
    simp only [Shape.sibOf] at h
    split_ifs at h with h1 h2
    · rw [Option.some.injEq, Prod.mk.injEq] at h
      obtain ⟨e1, e2⟩ := h
      subst h1
      subst e2
      left
      simp [specSibPairs]
    · rw [Option.some.injEq, Prod.mk.injEq] at h
      obtain ⟨e1, e2⟩ := h
      subst h2
      subst e2
      right
      simp [specSibPairs]
    · cases hml : Shape.sibOf l c with
      | some pr =>
        obtain ⟨pa, pb⟩ := pr
        rw [hml] at h
        simp only [Option.some.injEq, Prod.mk.injEq] at h
        obtain ⟨e1, e2⟩ := h
        subst e1
        subst e2
        have hin := ihl c pa b hml
        cases l with
        | leaf a => simp [Shape.sibOf] at hml
        | node jl ll lr =>
          cases r with
          | leaf bb => simpa [specSibPairs] using hin
          | node jr rl rr =>
            rcases hin with hm | hm
            · exact Or.inl (by simp only [specSibPairs, List.mem_append]; exact Or.inl hm)
            · exact Or.inr (by simp only [specSibPairs, List.mem_append]; exact Or.inl hm)
      | none =>
        rw [hml] at h
        have hin := ihr c par b h
        cases r with
        | leaf bb => simp [Shape.sibOf] at h
        | node jr rl rr =>
          cases l with
          | leaf a => simpa [specSibPairs] using hin
          | node jl ll lr =>
            rcases hin with hm | hm
            · exact Or.inl (by simp only [specSibPairs, List.mem_append]; exact Or.inr hm)
            · exact Or.inr (by simp only [specSibPairs, List.mem_append]; exact Or.inr hm)

theorem specSibPairs_sibOf (s : Shape) (hnd : s.ids.Nodup) :
    ∀ a b, (a, b) ∈ specSibPairs s →
      ∃ p, Shape.sibOf s a = some (p, Shape.leaf b) ∧
        Shape.sibOf s b = some (p, Shape.leaf a) := by
  induction s with
  | leaf i => intro a b hab; simp [specSibPairs] at hab
  | node i l r ihl ihr =>
    intro a b hab
    simp only [Shape.ids, List.nodup_cons, List.nodup_append] at hnd
    obtain ⟨-, hndl, hndr, hdisj⟩ := hnd
    cases l with
    | leaf x =>
      cases r with
      | leaf y =>
        simp only [specSibPairs, List.mem_singleton, Prod.mk.injEq] at hab
        obtain ⟨rfl, rfl⟩ := hab
        have hne : ¬(Shape.leaf a = Shape.leaf b) := by
          intro he
          injection he with he
          exact hdisj (show a ∈ (Shape.leaf a).ids by simp [Shape.ids])
            (show a ∈ (Shape.leaf b).ids by simp [Shape.ids, he])
        refine ⟨i, ?_, ?_⟩
        · simp [Shape.sibOf]
        · simp [Shape.sibOf, hne]
      | node jr rl rr =>
        simp only [specSibPairs] at hab
        obtain ⟨p, hA, hB⟩ := ihr hndr a b hab
        have hm := specSibPairs_mem_leaves _ (a, b) hab
        refine ⟨p, ?_, ?_⟩
        · exact sibOf_lift_right i _ _ a p _ hA
            (fun hx => hdisj hx (Shape.leaves_subset_ids _ a hm.1))
        · exact sibOf_lift_right i _ _ b p _ hB
            (fun hx => hdisj hx (Shape.leaves_subset_ids _ b hm.2))
    | node jl ll lr =>
      cases r with
      | leaf y =>
        simp only [specSibPairs] at hab
        obtain ⟨p, hA, hB⟩ := ihl hndl a b hab
        exact ⟨p, sibOf_lift_left i _ _ hdisj a p _ hA,
          sibOf_lift_left i _ _ hdisj b p _ hB⟩
      | node jr rl rr =>
        simp only [specSibPairs, List.mem_append] at hab
        rcases hab with hab | hab
        · obtain ⟨p, hA, hB⟩ := ihl hndl a b hab
          exact ⟨p, sibOf_lift_left i _ _ hdisj a p _ hA,
            sibOf_lift_left i _ _ hdisj b p _ hB⟩
        · obtain ⟨p, hA, hB⟩ := ihr hndr a b hab
          have hm := specSibPairs_mem_leaves _ (a, b) hab
          refine ⟨p, ?_, ?_⟩
          · exact sibOf_lift_right i _ _ a p _ hA
              (fun hx => hdisj hx (Shape.leaves_subset_ids _ a hm.1))
          · exact sibOf_lift_right i _ _ b p _ hB
              (fun hx => hdisj hx (Shape.leaves_subset_ids _ b hm.2))

theorem filter_extract {α : Type} [DecidableEq α] (P : List α) (q : α) (f g : α → Bool)
    (hnd : P.Nodup) (hq : q ∈ P) (hfq : f q = true) (hgq : g q = false)
    (hfg : ∀ p ∈ P, p ≠ q → f p = g p) : (P.filter f).Perm (q :: P.filter g) := by
  induction P with
  | nil => cases hq
  | cons x Q ih =>
    rw [List.nodup_cons] at hnd
    rcases List.mem_cons.mp hq with rfl | hq2
    · have hQfg : Q.filter f = Q.filter g :=
        List.filter_congr (fun p hp => hfg p (List.mem_cons_of_mem _ hp)
          (fun he => hnd.1 (he ▸ hp)))
      simp [List.filter_cons, hfq, hgq, hQfg]
    · have hx : f x = g x := hfg x (List.mem_cons_self _ _) (fun he => hnd.1 (he ▸ hq2))
      have hp2 := ih hnd.2 hq2 (fun p hp hne => hfg p (List.mem_cons_of_mem _ hp) hne)
      rw [List.filter_cons, List.filter_cons, hx]
      cases hgx : g x
      · simp only [hgx, Bool.false_eq_true, if_false]
        exact hp2
      · simp only [hgx, if_true]
        exact (hp2.cons x).trans (List.Perm.swap _ _ _)

theorem lsGo_spec (t : Tree) (s : Shape)
    (hcons : Shape.consistentB t none s = true) (hnd : s.ids.Nodup)
    (hs : ∀ j, s ≠ Shape.leaf j) :
    ∀ (N : Nat) (nv : List Nat), nv.length ≤ N → ∀ (fuel : Nat) (acc : List (Nat × Nat)),
      nv.Nodup → (∀ x ∈ nv, x ∈ s.leaves) → nv.length ≤ fuel →
      (∀ p ∈ specSibPairs s, (p.1 ∈ nv ↔ p.2 ∈ nv)) →
      ∃ rest, lsGo t fuel nv acc = .ok (acc ++ rest) ∧
        (rest.map normPair).Perm ((pairsWithin nv (specSibPairs s)).map normPair) ∧
        (∀ pr ∈ rest, pr ∈ specSibPairs s ∨ (pr.2, pr.1) ∈ specSibPairs s) := by
  have hflat := flatPairs_specSibPairs_nodup s hnd
  have hPnd := flatPairs_nodup_pairs_nodup _ hflat
  intro N
  induction N with
  | zero =>
    intro nv hlen fuel acc _ _ _ _
    have hnil : nv = [] := List.length_eq_zero.mp (Nat.le_zero.mp hlen)
    subst hnil
    refine ⟨[], by simp [lsGo], by simp [pairsWithin], by simp⟩
  | succ N ih =>
    intro nv hlen fuel acc hnvnd hnvsub hfuel hclosed
    cases nv with
    | nil => refine ⟨[], by simp [lsGo], by simp [pairsWithin], by simp⟩
    | cons c rest0 =>
      cases fuel with
      | zero => simp at hfuel
      | succ f =>
        obtain ⟨hcrest, hrestnd⟩ := List.nodup_cons.mp hnvnd
        have hcleaf : c ∈ s.leaves := hnvsub c (List.mem_cons_self _ _)
        obtain ⟨⟨par, sib⟩, hsib⟩ :=
          Option.isSome_iff_exists.mp (sibOf_isSome s c hcleaf hs)
        obtain ⟨nd, pn, hgc, hcl0, hcr0, hpar, hgp, hother, hsibcons⟩ :=
          sibOf_consistent t s none hcons hnd c par sib hsib
        simp only [List.length_cons] at hlen hfuel
        cases sib with
        | leaf b =>
          simp only [Shape.root] at hother
          have hpairmem := sibOf_leaf_pair s c par b hsib
          obtain ⟨q, hqP, hqor⟩ : ∃ q, q ∈ specSibPairs s ∧ (q = (c, b) ∨ q = (b, c)) := by
            rcases hpairmem with hm | hm
            · exact ⟨(c, b), hm, Or.inl rfl⟩
            · exact ⟨(b, c), hm, Or.inr rfl⟩
          have hq1 : (q.1 = c ∧ q.2 = b) ∨ (q.1 = b ∧ q.2 = c) := by
            rcases hqor with rfl | rfl
            · exact Or.inl ⟨rfl, rfl⟩
            · exact Or.inr ⟨rfl, rfl⟩
          have hqnorm : normPair q = normPair (c, b) := by
            rcases hqor with rfl | rfl
            · rfl
            · exact normPair_comm b c
          have hbc : b ≠ c := by
            rcases hqor with rfl | rfl
            · exact fun he => flatPairs_nodup_ne _ hflat (c, b) hqP he.symm
            · exact fun he => flatPairs_nodup_ne _ hflat (b, c) hqP he
          have hbnv : b ∈ c :: rest0 := by
            rcases hqor with rfl | rfl
            · exact (hclosed (c, b) hqP).mp (List.mem_cons_self _ _)
            · exact (hclosed (b, c) hqP).mpr (List.mem_cons_self _ _)
          have hbrest : b ∈ rest0 := by
            rcases List.mem_cons.mp hbnv with he | h
            · exact absurd he hbc
            · exact h
          have hcq : c = q.1 ∨ c = q.2 := by
            rcases hq1 with ⟨h1, h2⟩ | ⟨h1, h2⟩
            · exact Or.inl h1.symm
            · exact Or.inr h2.symm
          have hbq : b = q.1 ∨ b = q.2 := by
            rcases hq1 with ⟨h1, h2⟩ | ⟨h1, h2⟩
            · exact Or.inr h2.symm
            · exact Or.inl h1.symm
          have huniq : ∀ p ∈ specSibPairs s, p ≠ q →
              p.1 ≠ c ∧ p.2 ≠ c ∧ p.1 ≠ b ∧ p.2 ≠ b := by
            intro p hp hne
            refine ⟨?_, ?_, ?_, ?_⟩
            · exact fun he => hne (flatPairs_nodup_unique _ hflat p hp q hqP c (Or.inl he.symm) hcq)
            · exact fun he => hne (flatPairs_nodup_unique _ hflat p hp q hqP c (Or.inr he.symm) hcq)
            · exact fun he => hne (flatPairs_nodup_unique _ hflat p hp q hqP b (Or.inl he.symm) hbq)
            · exact fun he => hne (flatPairs_nodup_unique _ hflat p hp q hqP b (Or.inr he.symm) hbq)
          have hcnv2 : c ∉ rest0.erase b := fun h => hcrest (List.mem_of_mem_erase h)
          have hbnv2 : b ∉ rest0.erase b := by
            intro h
            exact ((hrestnd.mem_erase_iff).mp h).1 rfl
          have hlen2 : (rest0.erase b).length ≤ N := by
            have := List.length_erase_of_mem hbrest
            omega
          have hfuel2 : (rest0.erase b).length ≤ f := by
            have := List.length_erase_of_mem hbrest
            omega
          have hsub2 : ∀ x ∈ rest0.erase b, x ∈ s.leaves :=
            fun x hx => hnvsub x (List.mem_cons_of_mem _ (List.mem_of_mem_erase hx))
          have hclosed2 : ∀ p ∈ specSibPairs s, (p.1 ∈ rest0.erase b ↔ p.2 ∈ rest0.erase b) := by
            intro p hp
            by_cases hpq : p = q
            · subst hpq
              rcases hq1 with ⟨h1, h2⟩ | ⟨h1, h2⟩ <;> rw [h1, h2]
              · exact iff_of_false hcnv2 hbnv2
              · exact iff_of_false hbnv2 hcnv2
            · obtain ⟨n1, n2, n3, n4⟩ := huniq p hp hpq
              have m1 : p.1 ∈ rest0.erase b ↔ p.1 ∈ c :: rest0 := by
                rw [List.mem_erase_of_ne n3, List.mem_cons]
                exact (or_iff_right n1).symm
              have m2 : p.2 ∈ rest0.erase b ↔ p.2 ∈ c :: rest0 := by
                rw [List.mem_erase_of_ne n4, List.mem_cons]
                exact (or_iff_right n2).symm
              rw [m1, m2]
              exact hclosed p hp
          obtain ⟨rest2, heq, hperm, hsound⟩ := ih (rest0.erase b) hlen2 f (acc ++ [(c, b)])
            (hrestnd.erase b) hsub2 hfuel2 hclosed2
          have hfq : (fun p : Nat × Nat =>
              decide (p.1 ∈ c :: rest0) && decide (p.2 ∈ c :: rest0)) q = true := by
            rcases hq1 with ⟨h1, h2⟩ | ⟨h1, h2⟩ <;> simp only [h1, h2] <;>
              simp [hbnv]
          have hgq : (fun p : Nat × Nat =>
              decide (p.1 ∈ rest0.erase b) && decide (p.2 ∈ rest0.erase b)) q = false := by
            rcases hq1 with ⟨h1, h2⟩ | ⟨h1, h2⟩ <;> simp only [h1, h2] <;>
              simp [hcnv2, hbnv2]
          have hfg : ∀ p ∈ specSibPairs s, p ≠ q →
              (fun p : Nat × Nat =>
                decide (p.1 ∈ c :: rest0) && decide (p.2 ∈ c :: rest0)) p =
              (fun p : Nat × Nat =>
                decide (p.1 ∈ rest0.erase b) && decide (p.2 ∈ rest0.erase b)) p := by
            intro p hp hne
            obtain ⟨n1, n2, n3, n4⟩ := huniq p hp hne
            have m1 : (p.1 ∈ c :: rest0) ↔ (p.1 ∈ rest0.erase b) := by
              rw [List.mem_erase_of_ne n3, List.mem_cons]
              exact or_iff_right n1
            have m2 : (p.2 ∈ c :: rest0) ↔ (p.2 ∈ rest0.erase b) := by
              rw [List.mem_erase_of_ne n4, List.mem_cons]
              exact or_iff_right n2
            simp only [decide_eq_decide.mpr m1, decide_eq_decide.mpr m2]
          have hfe : (pairsWithin (c :: rest0) (specSibPairs s)).Perm
              (q :: pairsWithin (rest0.erase b) (specSibPairs s)) :=
            filter_extract _ q _ _ hPnd hqP hfq hgq hfg
          refine ⟨(c, b) :: rest2, ?_, ?_, ?_⟩
          · simp only [lsGo, lookupE, hgc, exceptBind_ok, lookupO, hpar, hgp, hother]
            simp only [hbnv, if_true, hbrest, if_pos]
            rw [heq]
            simp [List.append_assoc]
          · refine List.Perm.trans ?_ (List.Perm.symm (hfe.map normPair))
            rw [List.map_cons, List.map_cons, hqnorm]
            exact hperm.cons _
          · intro pr hpr
            rcases List.mem_cons.mp hpr with rfl | hpr
            · rcases hqor with rfl | rfl
              · exact Or.inl hqP
              · exact Or.inr hqP
            · exact hsound pr hpr
        | node j a bb =>
          simp only [Shape.root] at hother
          have hjleaf := sibOf_node_root_not_leaf s hnd c par j a bb hsib
          have hjnot : j ∉ c :: rest0 := fun hm => hjleaf (hnvsub j hm)
          have hcnotouch : ∀ p ∈ specSibPairs s, p.1 ≠ c ∧ p.2 ≠ c := by
            intro p hp
            obtain ⟨p1, p2⟩ := p
            constructor <;> intro he <;> subst he
            · obtain ⟨p', hA, hB⟩ := specSibPairs_sibOf s hnd _ p2 hp
              rw [hsib] at hA
              simp at hA
            · obtain ⟨p', hA, hB⟩ := specSibPairs_sibOf s hnd p1 _ hp
              rw [hsib] at hB
              simp at hB
          have hclosed2 : ∀ p ∈ specSibPairs s, (p.1 ∈ rest0 ↔ p.2 ∈ rest0) := by
            intro p hp
            obtain ⟨n1, n2⟩ := hcnotouch p hp
            have m1 : p.1 ∈ rest0 ↔ p.1 ∈ c :: rest0 := by
              rw [List.mem_cons]
              exact (or_iff_right n1).symm
            have m2 : p.2 ∈ rest0 ↔ p.2 ∈ c :: rest0 := by
              rw [List.mem_cons]
              exact (or_iff_right n2).symm
            rw [m1, m2]
            exact hclosed p hp
          have hpw : pairsWithin (c :: rest0) (specSibPairs s) =
              pairsWithin rest0 (specSibPairs s) := by
            refine List.filter_congr ?_
            intro p hp
            obtain ⟨n1, n2⟩ := hcnotouch p hp
            have m1 : (p.1 ∈ c :: rest0) ↔ (p.1 ∈ rest0) := by
              rw [List.mem_cons]
              exact or_iff_right n1
            have m2 : (p.2 ∈ c :: rest0) ↔ (p.2 ∈ rest0) := by
              rw [List.mem_cons]
              exact or_iff_right n2
            simp only [decide_eq_decide.mpr m1, decide_eq_decide.mpr m2]
          obtain ⟨rest2, heq, hperm, hsound⟩ := ih rest0 (by omega) f acc
            hrestnd (fun x hx => hnvsub x (List.mem_cons_of_mem _ hx)) (by omega) hclosed2
          refine ⟨rest2, ?_, ?_, hsound⟩
          · simp only [lsGo, lookupE, hgc, exceptBind_ok, lookupO, hpar, hgp, hother]
            simp only [hjnot, if_false]
            exact heq
          · rw [hpw]
            exact hperm

theorem flatPairs_perm {X Y : List (Nat × Nat)} (h : X.Perm Y) :
    (flatPairs X).Perm (flatPairs Y) := by
  unfold flatPairs
  exact (h.map (fun p => [p.1, p.2])).flatten

theorem flatPairs_map_normPair (X : List (Nat × Nat)) :
    (flatPairs (X.map normPair)).Perm (flatPairs X) := by
  induction X with
  | nil => exact List.Perm.refl _
  | cons p rest ih =>
    rw [List.map_cons, flatPairs_cons, flatPairs_cons]
    by_cases h : p.1 ≤ p.2
    · simp only [normPair, if_pos h]
      exact (ih.cons _).cons _
    · simp only [normPair, if_neg h]
      exact ((ih.cons _).cons _).trans (List.Perm.swap _ _ _)

theorem flatPairs_filter_sublist (u : Nat × Nat → Bool) (P : List (Nat × Nat)) :
    (flatPairs (P.filter u)).Sublist (flatPairs P) := by
  induction P with
  | nil => exact List.Sublist.refl _
  | cons p rest ih =>
    rw [List.filter_cons]
    cases hu : u p
    · simp only [hu, Bool.false_eq_true, if_false]
      rw [flatPairs_cons]
      exact ih.trans ((List.sublist_cons_self _ _).trans (List.sublist_cons_self _ _))
    · simp only [hu, if_true]
      rw [flatPairs_cons, flatPairs_cons]
      exact (ih.cons₂ _).cons₂ _

theorem sortedInsertDesc_perm (x : Nat) (l : List Nat) :
    (sortedInsertDesc x l).Perm (x :: l) := by
  induction l with
  | nil => exact List.Perm.refl _
  | cons y ys ih =>
    rw [sortedInsertDesc]
    split_ifs with h
    · exact List.Perm.refl _
    · exact (ih.cons y).trans (List.Perm.swap _ _ _)

theorem sortDesc_perm (l : List Nat) : (sortDesc l).Perm l := by
  induction l with
  | nil => exact List.Perm.refl _
  | cons a rest ih =>
    exact (sortedInsertDesc_perm a (sortDesc rest)).trans (ih.cons a)

theorem leaf_siblings_spec (t : Tree) (s : Shape) (hrep : Represents t s)
    (hs : ∀ j, s ≠ Shape.leaf j) :
    ∃ sibs, t.leaf_siblings = .ok sibs ∧
      (sibs.map normPair).Perm ((specSibPairs s).map normPair) ∧
      (∀ pr ∈ sibs, pr ∈ specSibPairs s ∨ (pr.2, pr.1) ∈ specSibPairs s) := by
  obtain ⟨hcons, hkz, hnd, hkeys, hleaf⟩ := hrep
  have hsub : ∀ x ∈ t.leaf_inds, x ∈ s.leaves := fun x hx => hleaf.mem_iff.mp hx
  have hclose : ∀ p ∈ specSibPairs s, (p.1 ∈ t.leaf_inds ↔ p.2 ∈ t.leaf_inds) := by
    intro p hp
    have hm := specSibPairs_mem_leaves s p hp
    exact iff_of_true (hleaf.mem_iff.mpr hm.1) (hleaf.mem_iff.mpr hm.2)
  have hndlv : t.leaf_inds.Nodup := hleaf.nodup_iff.mpr (Shape.leaves_nodup s hnd)
  obtain ⟨rest, heq, hperm, hsound⟩ := lsGo_spec t s hcons hnd hs
    t.leaf_inds.length t.leaf_inds le_rfl t.leaf_inds.length [] hndlv hsub le_rfl hclose
  have hall : pairsWithin t.leaf_inds (specSibPairs s) = specSibPairs s := by
    apply List.filter_eq_self.mpr
    intro p hp
    have hm := specSibPairs_mem_leaves s p hp
    simp [hleaf.mem_iff.mpr hm.1, hleaf.mem_iff.mpr hm.2]
  refine ⟨rest, ?_, ?_, hsound⟩
  · show lsGo t t.leaf_inds.length t.leaf_inds [] = _
    rw [heq]
    simp
  · rw [← hall]
    exact hperm

theorem sibsLoop_spec (t : Tree) :
    ∀ (prs : List (Nat × Nat)) (acc : List Nat),
      (∀ pr ∈ prs, ∃ na q pn nb, dictGet t.node_dict pr.1 = some na ∧
        na.parent = some q ∧ dictGet t.node_dict q = some pn ∧
        dictGet t.node_dict pr.2 = some nb) →
      sibsLoop t prs acc = .ok (acc ++ flatPairs (prs.filter (uselessPair t))) := by
  intro prs
  induction prs with
  | nil => intro acc _; simp [sibsLoop, flatPairs]
  | cons pr rest ih =>
    intro acc hok
    obtain ⟨na, q, pn, nb, hna, hq, hpn, hnb⟩ := hok pr (List.mem_cons_self _ _)
    have hrest : ∀ p ∈ rest, _ := fun p hp => hok p (List.mem_cons_of_mem _ hp)
    have hup : uselessPair t pr = (pn.compute_error_rate ==
        (na.compute_error_rate * na.reach_prob + nb.compute_error_rate * nb.reach_prob) / 2) := by
      obtain ⟨p1, p2⟩ := pr
      simp only at hna hnb
      simp [uselessPair, hna, hnb, hq, hpn]
    simp only [sibsLoop, lookupE, hna, exceptBind_ok, lookupO, hq, hpn, hnb]
    rw [List.filter_cons]
    cases hcond : (pn.compute_error_rate ==
        (na.compute_error_rate * na.reach_prob + nb.compute_error_rate * nb.reach_prob) / 2)
    · rw [hup, hcond]
      simp only [Bool.false_eq_true, if_false]
      exact ih acc hrest
    · rw [hup, hcond]
      simp only [if_true]
      rw [ih (acc ++ [pr.1, pr.2]) hrest, flatPairs_cons]
      simp [List.append_assoc]

theorem cutDelLoop_spec : ∀ (D : List Nat) (d : List (Nat × Node)) (lv : List Nat),
    (dictKeys d).Nodup → D.Nodup → (∀ k ∈ D, k ∈ dictKeys d) → (∀ k ∈ D, k ∈ lv) →
    ∃ d2, cutDelLoop D (d, lv) = .ok (d2, lv.diff D) ∧
      (∀ j, dictGet d2 j = if j ∈ D then none else dictGet d j) ∧
      dictKeys d2 = (dictKeys d).diff D := by
  intro D
  induction D with
  | nil =>
    intro d lv _ _ _ _
    exact ⟨d, by simp [cutDelLoop], fun j => by simp, by simp⟩
  | cons k Drest ih =>
    intro d lv h1 h2 h3 h4
    have hkmem : k ∈ dictKeys d := h3 k (List.mem_cons_self _ _)
    have hklv : k ∈ lv := h4 k (List.mem_cons_self _ _)
    obtain ⟨nd, hg⟩ := dictGet_some_of_mem d k hkmem
    have hok : delOneE d k = .ok (dictDel d k) := by simp [delOneE, hg]
    have hok2 : removeOneE lv k = .ok (lv.erase k) := by simp [removeOneE, hklv]
    rw [List.nodup_cons] at h2
    have hmemD : ∀ j ∈ Drest, j ∈ dictKeys (dictDel d k) := by
      intro j hj
      rw [dictKeys_dictDel]
      have hne : j ≠ k := fun he => h2.1 (by rw [← he]; exact hj)
      exact (List.mem_erase_of_ne hne).2 (h3 j (List.mem_cons_of_mem _ hj))
    have hmemL : ∀ j ∈ Drest, j ∈ lv.erase k := by
      intro j hj
      have hne : j ≠ k := fun he => h2.1 (by rw [← he]; exact hj)
      exact (List.mem_erase_of_ne hne).2 (h4 j (List.mem_cons_of_mem _ hj))
    obtain ⟨d2, he, hget, hkeys⟩ := ih (dictDel d k) (lv.erase k)
      (by rw [dictKeys_dictDel]; exact h1.erase k) h2.2 hmemD hmemL
    refine ⟨d2, ?_, ?_, ?_⟩
    · simp only [cutDelLoop, hok, hok2, exceptBind_ok]
      rw [he, List.diff_cons]
    · intro j
      by_cases hjD : j ∈ k :: Drest
      · rcases List.mem_cons.1 hjD with rfl | hj
        · have hj2 : dictGet d2 j = dictGet (dictDel d j) j := by
            rw [hget]
            simp [h2.1]
          rw [hj2, dictGet_dictDel_self d j h1]
          simp [hjD]
        · have hj2 : dictGet d2 j = none := by
            rw [hget]
            simp [hj]
          rw [hj2]
          simp [hjD]
      · simp only [List.mem_cons, not_or] at hjD
        rw [hget]
        simp only [hjD.2, if_false, List.mem_cons]
        rw [dictGet_dictDel_ne d k j hjD.1]
        simp [hjD.1, hjD.2]
    · rw [hkeys, dictKeys_dictDel, List.diff_cons]

theorem cut_charact (t : Tree) (s : Shape) (hrep : Represents t s)
    (hs : ∀ j, s ≠ Shape.leaf j) :
    ∃ t' R, t.cut_useless_leaves = .ok (t', R.length) ∧
      R.Perm (flatPairs ((specSibPairs s).filter (uselessPair t))) ∧
      (∀ j, dictGet t'.node_dict j = if j ∈ R then none else dictGet t.node_dict j) ∧
      t'.leaf_inds = t.leaf_inds.diff R ∧
      dictKeys t'.node_dict = (dictKeys t.node_dict).diff R ∧
      t'.symbols = t.symbols := by
  obtain ⟨sibs, heq1, hperm, hsound⟩ := leaf_siblings_spec t s hrep hs
  obtain ⟨hcons, hkz, hnd, hkeys, hleafp⟩ := hrep
  have hpairOK : ∀ a b, (a, b) ∈ specSibPairs s →
      ∃ q na nb pn, dictGet t.node_dict a = some na ∧ na.parent = some q ∧
        dictGet t.node_dict b = some nb ∧ nb.parent = some q ∧
        dictGet t.node_dict q = some pn := by
    intro a b hab
    obtain ⟨p, hA, hB⟩ := specSibPairs_sibOf s hnd a b hab
    obtain ⟨na, pn, hga, -, -, hpara, hgp, -, -⟩ :=
      sibOf_consistent t s none hcons hnd a p _ hA
    obtain ⟨nb, pn2, hgb, -, -, hparb, hgp2, -, -⟩ :=
      sibOf_consistent t s none hcons hnd b p _ hB
    exact ⟨p, na, nb, pn, hga, hpara, hgb, hparb, hgp⟩
  have hswap : ∀ a b, (a, b) ∈ specSibPairs s →
      uselessPair t (b, a) = uselessPair t (a, b) := by
    intro a b hab
    obtain ⟨q, na, nb, pn, hga, hpara, hgb, hparb, hgp⟩ := hpairOK a b hab
    have hcomm : nb.compute_error_rate * nb.reach_prob +
        na.compute_error_rate * na.reach_prob =
        na.compute_error_rate * na.reach_prob +
        nb.compute_error_rate * nb.reach_prob := add_comm _ _
    simp [uselessPair, hga, hgb, hpara, hparb, hgp, hcomm]
  have hOK : ∀ pr ∈ sibs, ∃ na q pn nb, dictGet t.node_dict pr.1 = some na ∧
      na.parent = some q ∧ dictGet t.node_dict q = some pn ∧
      dictGet t.node_dict pr.2 = some nb := by
    intro pr hpr
    obtain ⟨p1, p2⟩ := pr
    rcases hsound (p1, p2) hpr with hm | hm
    · obtain ⟨q, na, nb, pn, hga, hpara, hgb, hparb, hgp⟩ := hpairOK p1 p2 hm
      exact ⟨na, q, pn, nb, hga, hpara, hgp, hgb⟩
    · obtain ⟨q, na, nb, pn, hga, hpara, hgb, hparb, hgp⟩ := hpairOK p2 p1 hm
      exact ⟨nb, q, pn, na, hgb, hparb, hgp, hga⟩
  have hloop := sibsLoop_spec t sibs [] hOK
  rw [List.nil_append] at hloop
  have hinvS : ∀ pr ∈ sibs, uselessPair t (normPair pr) = uselessPair t pr := by
    intro pr hpr
    obtain ⟨p1, p2⟩ := pr
    by_cases h12 : p1 ≤ p2
    · simp [normPair, h12]
    · simp only [normPair, if_neg h12]
      rcases hsound (p1, p2) hpr with hm | hm
      · exact hswap p1 p2 hm
      · exact (hswap p2 p1 hm).symm
  have hinvP : ∀ p ∈ specSibPairs s, uselessPair t (normPair p) = uselessPair t p := by
    intro p hp
    obtain ⟨p1, p2⟩ := p
    by_cases h12 : p1 ≤ p2
    · simp [normPair, h12]
    · simp only [normPair, if_neg h12]
      exact hswap p1 p2 hp
  have hmf1 : (sibs.map normPair).filter (uselessPair t)
      = (sibs.filter (uselessPair t)).map normPair := by
    rw [List.filter_map]
    congr 1
    exact List.filter_congr (fun p hp => hinvS p hp)
  have hmf2 : ((specSibPairs s).map normPair).filter (uselessPair t)
      = ((specSibPairs s).filter (uselessPair t)).map normPair := by
    rw [List.filter_map]
    congr 1
    exact List.filter_congr (fun p hp => hinvP p hp)
  have hfperm : ((sibs.filter (uselessPair t)).map normPair).Perm
      (((specSibPairs s).filter (uselessPair t)).map normPair) := by
    rw [← hmf1, ← hmf2]
    exact hperm.filter _
  have hRperm : (flatPairs (sibs.filter (uselessPair t))).Perm
      (flatPairs ((specSibPairs s).filter (uselessPair t))) :=
    ((flatPairs_map_normPair _).symm.trans (flatPairs_perm hfperm)).trans
      (flatPairs_map_normPair _)
  have hRnd : (flatPairs (sibs.filter (uselessPair t))).Nodup :=
    hRperm.nodup_iff.mpr (List.Nodup.sublist (flatPairs_filter_sublist _ _)
      (flatPairs_specSibPairs_nodup s hnd))
  have hRmemP : ∀ k ∈ flatPairs (sibs.filter (uselessPair t)), k ∈ s.leaves := by
    intro k hk
    have hk2 := hRperm.mem_iff.mp hk
    obtain ⟨p, hp, hor⟩ := (mem_flatPairs _ k).mp hk2
    have hpP := List.mem_of_mem_filter hp
    have hm := specSibPairs_mem_leaves s p hpP
    rcases hor with rfl | rfl
    · exact hm.1
    · exact hm.2
  have hRkeys : ∀ k ∈ flatPairs (sibs.filter (uselessPair t)), k ∈ dictKeys t.node_dict :=
    fun k hk => hkeys.mem_iff.mpr (Shape.leaves_subset_ids s k (hRmemP k hk))
  have hRlv : ∀ k ∈ flatPairs (sibs.filter (uselessPair t)), k ∈ t.leaf_inds :=
    fun k hk => hleafp.mem_iff.mpr (hRmemP k hk)
  have hsort := sortDesc_perm (flatPairs (sibs.filter (uselessPair t)))
  obtain ⟨d2, hdel, hget, hdkeys⟩ :=
    cutDelLoop_spec (sortDesc (flatPairs (sibs.filter (uselessPair t))))
      t.node_dict t.leaf_inds (hkeys.nodup_iff.mpr hnd) (hsort.nodup_iff.mpr hRnd)
      (fun k hk => hRkeys k (hsort.mem_iff.mp hk))
      (fun k hk => hRlv k (hsort.mem_iff.mp hk))
  refine ⟨Tree.mk d2
      (t.leaf_inds.diff (sortDesc (flatPairs (sibs.filter (uselessPair t))))) t.symbols,
    flatPairs (sibs.filter (uselessPair t)), ?_, hRperm, ?_, ?_, ?_, rfl⟩
  · simp only [Tree.cut_useless_leaves, heq1, exceptBind_ok, hloop, hdel]
  · intro j
    show dictGet d2 j = _
    rw [hget j]
    by_cases hj : j ∈ flatPairs (sibs.filter (uselessPair t))
    · simp [hj, hsort.mem_iff.mpr hj]
    · have hj2 : j ∉ sortDesc (flatPairs (sibs.filter (uselessPair t))) :=
        fun h => hj (hsort.mem_iff.mp h)
      simp [hj, hj2]
  · exact List.Perm.diff_left t.leaf_inds hsort
  · show dictKeys d2 = _
    rw [hdkeys]
    exact List.Perm.diff_left (dictKeys t.node_dict) hsort

/-! ## C4: cut_useless_leaves removes exactly the zero-gain sibling pairs -/

/-- C4: on a well-formed tree whose root is internal, `cut_useless_leaves`
succeeds and removes from the node collection and from `leaf_inds` exactly
the members of the sibling leaf pairs whose common parent's own error rate
equals the reach-probability-weighted average of the two children's error
rates (the test `uselessPair`); both children of each such pair are removed,
entries of other identifiers are untouched, and the reported number is the
count of leaves removed. -/
theorem cut_useless_leaves_spec (t : Tree) (s : Shape) (hrep : Represents t s)
    (hs : ∀ j, s ≠ Shape.leaf j) :
    ∃ (t' : Tree) (R : List Nat), t.cut_useless_leaves = .ok (t', R.length) ∧
      R.Perm (flatPairs ((specSibPairs s).filter (uselessPair t))) ∧
      (∀ j, j ∈ dictKeys t'.node_dict ↔ j ∈ dictKeys t.node_dict ∧ j ∉ R) ∧
      (∀ j, j ∈ t'.leaf_inds ↔ j ∈ t.leaf_inds ∧ j ∉ R) ∧
      (∀ j, j ∉ R → dictGet t'.node_dict j = dictGet t.node_dict j) := by
  obtain ⟨t', R, heq, hperm, hget, hlv, hkeys, hsym⟩ := cut_charact t s hrep hs
  obtain ⟨-, -, hnd, hkeysperm, hleafperm⟩ := hrep
  have hndk : (dictKeys t.node_dict).Nodup := hkeysperm.nodup_iff.mpr hnd
  have hndl : t.leaf_inds.Nodup := hleafperm.nodup_iff.mpr (Shape.leaves_nodup s hnd)
  refine ⟨t', R, heq, hperm, ?_, ?_, ?_⟩
  · intro j
    rw [hkeys]
    exact List.Nodup.mem_diff_iff hndk
  · intro j
    rw [hlv]
    exact List.Nodup.mem_diff_iff hndl
  · intro j hj
    rw [hget j, if_neg hj]

/-- Witness for C4 at the concrete tree `tPair`, whose single sibling pair
passes the equality test: the two children are removed and the reported
count is 2. -/
theorem cut_useless_leaves_spec_witness :
    Represents tPair sPair ∧
    (∃ (t' : Tree) (R : List Nat), tPair.cut_useless_leaves = .ok (t', R.length) ∧
      R.Perm (flatPairs ((specSibPairs sPair).filter (uselessPair tPair))) ∧
      (∀ j, j ∈ dictKeys t'.node_dict ↔ j ∈ dictKeys tPair.node_dict ∧ j ∉ R) ∧
      (∀ j, j ∈ t'.leaf_inds ↔ j ∈ tPair.leaf_inds ∧ j ∉ R) ∧
      (∀ j, j ∉ R → dictGet t'.node_dict j = dictGet tPair.node_dict j)) ∧
    tPair.cut_useless_leaves =
      .ok (Tree.mk [(0, mkN (some 1) (some 2) none 1 [3/4, 1/4])] [] tPair.symbols, 2) :=
  ⟨by decide, cut_useless_leaves_spec tPair sPair (by decide)
    (fun j h => Shape.noConfusion h), by with_unfolding_all rfl⟩

/-! ## The leaf-list invariant under Represents -/

theorem entry_none_of_mem_leaves (t : Tree) (s : Shape) :
    ∀ p, Shape.consistentB t p s = true → ∀ i ∈ s.leaves,
      ∃ nd, dictGet t.node_dict i = some nd ∧ nd.left = none ∧ nd.right = none := by
  induction s with
  | leaf j =>
    intro p hc i hi
    rw [consistentB_leaf] at hc
    obtain ⟨nd, hg, h1, h2, h3⟩ := hc
    have : i = j := by simpa [Shape.leaves] using hi
    subst this
    exact ⟨nd, hg, h1, h2⟩
  | node j l r ihl ihr =>
    intro p hc i hi
    rw [consistentB_node] at hc
    obtain ⟨nd, hg, h1, h2, h3, hcl, hcr⟩ := hc
    rcases List.mem_append.mp hi with hm | hm
    · exact ihl _ hcl i hm
    · exact ihr _ hcr i hm

theorem mem_leaves_of_entry_none (t : Tree) (s : Shape) :
    ∀ p, Shape.consistentB t p s = true → ∀ k ∈ s.ids, ∀ nd,
      dictGet t.node_dict k = some nd → nd.left = none → k ∈ s.leaves := by
  induction s with
  | leaf j =>
    intro p hc k hk nd hg hnone
    have : k = j := by simpa [Shape.ids] using hk
    subst this
    simp [Shape.leaves]
  | node j l r ihl ihr =>
    intro p hc k hk nd hg hnone
    rw [consistentB_node] at hc
    obtain ⟨nd2, hg2, h1, h2, h3, hcl, hcr⟩ := hc
    rcases List.mem_cons.mp hk with rfl | hk2
    · rw [hg] at hg2
      injection hg2 with he
      rw [← he] at h1
      rw [hnone] at h1
      exact absurd h1 (by simp)
    · rcases List.mem_append.mp hk2 with hm | hm
      · exact List.mem_append.mpr (Or.inl (ihl _ hcl k hm nd hg hnone))
      · exact List.mem_append.mpr (Or.inr (ihr _ hcr k hm nd hg hnone))

/-- A tree realizing a shape satisfies the C3 leaf-list invariant. -/
theorem Represents.leafInvariant {t : Tree} {s : Shape} (hrep : Represents t s) :
    leafInvariant t := by
  obtain ⟨hcons, hkz, hnd, hkeys, hleafp⟩ := hrep
  constructor
  · intro i hi
    exact entry_none_of_mem_leaves t s none hcons i (hleafp.mem_iff.mp hi)
  · intro k nd hg hl hr
    have hk : k ∈ s.ids := hkeys.mem_iff.mp (mem_dictKeys_of_dictGet _ _ _ hg)
    exact hleafp.mem_iff.mpr (mem_leaves_of_entry_none t s none hcons k hk nd hg hl)

/-- `cut_useless_leaves` preserves the C3 leaf-list invariant: the removed
identifiers are current leaves, survivors keep their entries, and the
parents of a removed pair keep their (now dangling) child links, so neither
direction of the invariant is disturbed. -/
theorem cut_preserves_leafInvariant (t : Tree) (s : Shape) (hrep : Represents t s)
    (hs : ∀ j, s ≠ Shape.leaf j) :
    ∀ t' k, t.cut_useless_leaves = .ok (t', k) → leafInvariant t' := by
  obtain ⟨t2, R, heq, hperm, hget, hlv, hkeys, hsym⟩ := cut_charact t s hrep hs
  have hinv : leafInvariant t := hrep.leafInvariant
  have hndk : (dictKeys t.node_dict).Nodup :=
    hrep.2.2.2.1.nodup_iff.mpr hrep.2.2.1
  have hndl : t.leaf_inds.Nodup :=
    hrep.2.2.2.2.nodup_iff.mpr (Shape.leaves_nodup s hrep.2.2.1)
  intro t' k hok
  rw [heq] at hok
  injection hok with hok
  injection hok with hok1 hok2
  subst hok1
  constructor
  · intro i hi
    rw [hlv] at hi
    have hi2 := (List.Nodup.mem_diff_iff hndl).mp hi
    obtain ⟨nd, hg, h1, h2⟩ := hinv.1 i hi2.1
    refine ⟨nd, ?_, h1, h2⟩
    rw [hget i, if_neg hi2.2]
    exact hg
  · intro j nd hg hl hr
    have hjR : j ∉ R := by
      intro hj
      rw [hget j, if_pos hj] at hg
      cases hg
    rw [hget j, if_neg hjR] at hg
    have := hinv.2 j nd hg hl hr
    rw [hlv]
    exact (List.Nodup.mem_diff_iff hndl).mpr ⟨this, hjR⟩

/-! ## Growth-pass infrastructure -/

theorem dictGet_dictSet_self (d : List (Nat × Node)) (k : Nat) (v : Node) :
    dictGet (dictSet d k v) k = some v := by
  induction d with
  | nil => simp [dictSet, dictGet]
  | cons p rest ih =>
    obtain ⟨k2, v2⟩ := p
    by_cases hk : k2 = k
    · subst hk
      simp [dictSet, dictGet]
    · simp [dictSet, dictGet, hk, ih]

theorem dictGet_dictSet_ne (d : List (Nat × Node)) (k j : Nat) (v : Node) (h : j ≠ k) :
    dictGet (dictSet d k v) j = dictGet d j := by
  induction d with
  | nil => simp [dictSet, dictGet, Ne.symm h]
  | cons p rest ih =>
    obtain ⟨k2, v2⟩ := p
    by_cases hk : k2 = k
    · subst hk
      simp [dictSet, dictGet, Ne.symm h]
    · by_cases hj : k2 = j
      · subst hj
        simp [dictSet, dictGet, hk]
      · simp [dictSet, dictGet, hk, hj, ih]

theorem dictKeys_dictSet_fresh (d : List (Nat × Node)) (k : Nat) (v : Node)
    (h : k ∉ dictKeys d) : dictKeys (dictSet d k v) = dictKeys d ++ [k] := by
  induction d with
  | nil => simp [dictSet, dictKeys]
  | cons p rest ih =>
    obtain ⟨k2, v2⟩ := p
    simp only [dictKeys, List.mem_cons, not_or] at h
    simp [dictSet, dictKeys, Ne.symm h.1, ih h.2]

theorem dictKeys_dictSet_mem (d : List (Nat × Node)) (k : Nat) (v : Node)
    (h : k ∈ dictKeys d) : dictKeys (dictSet d k v) = dictKeys d := by
  induction d with
  | nil => cases h
  | cons p rest ih =>
    obtain ⟨k2, v2⟩ := p
    by_cases hk : k2 = k
    · subst hk
      simp [dictSet, dictKeys]
    · simp only [dictKeys, List.mem_cons] at h
      rcases h with rfl | h
    -- k = k2 contradicts hk
      · exact absurd rfl hk
      · simp [dictSet, dictKeys, hk, ih h]

theorem psParents_cons (x : Nat × Nat × Nat) (ps : List (Nat × Nat × Nat)) :
    psParents (x :: ps) = x.1 :: psParents ps := rfl

theorem psKids_cons (x : Nat × Nat × Nat) (ps : List (Nat × Nat × Nat)) :
    psKids (x :: ps) = x.2.1 :: x.2.2 :: psKids ps := rfl

theorem splitLeaves_spec (sp : Splitter) :
    ∀ (L : List Nat) (d : List (Nat × Node)) (mk : Nat) (rem add : List Nat),
      L.Nodup → (∀ i ∈ L, i ∈ dictKeys d) → (∀ k ∈ dictKeys d, k ≤ mk) →
      ∃ d2 mk2 ps, splitLeaves sp L d mk rem add =
          .ok (d2, mk2, rem ++ psParents ps, add ++ psKids ps) ∧
        psParents ps = L.filter (isUnstopped d) ∧
        mk2 = mk + 2 * ps.length ∧
        dictKeys d2 = dictKeys d ++ psKids ps ∧
        (∀ x ∈ psKids ps, mk < x ∧ x ≤ mk2) ∧
        (psKids ps).Nodup ∧
        (∀ x ∈ ps, ∃ nd, dictGet d x.1 = some nd ∧ nd.is_stopped = false ∧
          dictGet d2 x.1 = some { nd with left := some x.2.1, right := some x.2.2 } ∧
          dictGet d2 x.2.1 = some (mkChildNode x.1 (sp nd).left_labels
            ((sp nd).left_branch_prob * nd.reach_prob) (sp nd).left_priors
            (sp nd).left_rules (sp nd).left_dat) ∧
          dictGet d2 x.2.2 = some (mkChildNode x.1 (sp nd).right_labels
            ((sp nd).right_branch_prob * nd.reach_prob) (sp nd).right_priors
            (sp nd).right_rules (sp nd).right_dat)) ∧
        (∀ j, j ∉ psParents ps → j ∉ psKids ps → dictGet d2 j = dictGet d j) := by
  intro L
  induction L with
  | nil =>
    intro d mk rem add _ _ _
    exact ⟨d, mk, [], by simp [splitLeaves, psParents, psKids, flatPairs],
      by simp [psParents], by simp, by simp [psKids, flatPairs],
      by simp [psKids, flatPairs], by simp [psKids, flatPairs],
      by simp, fun j _ _ => rfl⟩
  | cons i rest ih =>
    intro d mk rem add hnd hmem hkb
    obtain ⟨hirest, hndrest⟩ := List.nodup_cons.mp hnd
    obtain ⟨nd, hg⟩ := dictGet_some_of_mem d i (hmem i (List.mem_cons_self _ _))
    have hilemk : i ≤ mk := hkb i (hmem i (List.mem_cons_self _ _))
    cases hstop : nd.is_stopped
    case true =>
      obtain ⟨d2, mk2, ps, heq, hfilt, hmk, hkeys, hbounds, hknd, htrip, hpres⟩ :=
        ih d mk rem add hndrest (fun j hj => hmem j (List.mem_cons_of_mem _ hj)) hkb
      refine ⟨d2, mk2, ps, ?_, ?_, hmk, hkeys, hbounds, hknd, htrip, hpres⟩
      · simp only [splitLeaves, hg, exceptBind_ok, hstop, if_true]
        exact heq
      · rw [List.filter_cons]
        have : isUnstopped d i = false := by simp [isUnstopped, hg, hstop]
        simp only [this, Bool.false_eq_true, if_false]
        exact hfilt
    case false =>
      have hfresh1 : (mk + 1) ∉ dictKeys d := fun h => by have := hkb _ h; omega
      have hfresh2 : (mk + 2) ∉ dictKeys d := fun h => by have := hkb _ h; omega
      set lc := mkChildNode i (sp nd).left_labels ((sp nd).left_branch_prob * nd.reach_prob)
        (sp nd).left_priors (sp nd).left_rules (sp nd).left_dat with hlc
      set rc := mkChildNode i (sp nd).right_labels ((sp nd).right_branch_prob * nd.reach_prob)
        (sp nd).right_priors (sp nd).right_rules (sp nd).right_dat with hrc
      set d1 := dictSet d (mk + 1) lc with hd1
      set d2m := dictSet d1 (mk + 2) rc with hd2m
      set d3 := dictSet d2m i { nd with left := some (mk + 1), right := some (mk + 2) } with hd3
      have hk1 : dictKeys d1 = dictKeys d ++ [mk + 1] := dictKeys_dictSet_fresh d _ lc hfresh1
      have hfresh2b : (mk + 2) ∉ dictKeys d1 := by
        rw [hk1]
        intro h
        rcases List.mem_append.mp h with h | h
        · exact hfresh2 h
        · simp at h
      have hk2 : dictKeys d2m = dictKeys d ++ [mk + 1, mk + 2] := by
        rw [hd2m, dictKeys_dictSet_fresh d1 _ rc hfresh2b, hk1, List.append_assoc]
        rfl
      have himem2 : i ∈ dictKeys d2m := by
        rw [hk2]
        exact List.mem_append.mpr (Or.inl (hmem i (List.mem_cons_self _ _)))
      have hk3 : dictKeys d3 = dictKeys d ++ [mk + 1, mk + 2] := by
        rw [hd3, dictKeys_dictSet_mem d2m i _ himem2, hk2]
      -- entries of d3
      have hd3i : dictGet d3 i = some { nd with left := some (mk + 1), right := some (mk + 2) } :=
        dictGet_dictSet_self d2m i _
      have hd3k1 : dictGet d3 (mk + 1) = some lc := by
        rw [hd3, dictGet_dictSet_ne d2m i (mk + 1) _ (by omega), hd2m,
          dictGet_dictSet_ne d1 (mk + 2) (mk + 1) rc (by omega), hd1]
        exact dictGet_dictSet_self d (mk + 1) lc
      have hd3k2 : dictGet d3 (mk + 2) = some rc := by
        rw [hd3, dictGet_dictSet_ne d2m i (mk + 2) _ (by omega), hd2m]
        exact dictGet_dictSet_self d1 (mk + 2) rc
      have hd3old : ∀ j, j ≤ mk → j ≠ i → dictGet d3 j = dictGet d j := by
        intro j hj hji
        rw [hd3, dictGet_dictSet_ne d2m i j _ hji, hd2m,
          dictGet_dictSet_ne d1 (mk + 2) j rc (by omega), hd1,
          dictGet_dictSet_ne d (mk + 1) j lc (by omega)]
      have hrestle : ∀ j ∈ rest, j ≤ mk := fun j hj => hkb j (hmem j (List.mem_cons_of_mem _ hj))
      have hrestd3 : ∀ j ∈ rest, dictGet d3 j = dictGet d j := by
        intro j hj
        exact hd3old j (hrestle j hj) (fun he => hirest (he ▸ hj))
      obtain ⟨d4, mk2, ps2, heq, hfilt, hmk, hkeys, hbounds, hknd, htrip, hpres⟩ :=
        ih d3 (mk + 2) (rem ++ [i]) (add ++ [mk + 1, mk + 2]) hndrest
          (fun j hj => by
            rw [hk3]
            exact List.mem_append.mpr (Or.inl (hmem j (List.mem_cons_of_mem _ hj))))
          (fun k hk => by
            rw [hk3] at hk
            rcases List.mem_append.mp hk with h | h
            · have := hkb k h
              omega
            · simp at h
              omega)
      have hfilt2 : psParents ps2 = rest.filter (isUnstopped d) := by
        rw [hfilt]
        exact List.filter_congr (fun j hj => by simp [isUnstopped, hrestd3 j hj])
      have hparsub : ∀ j ∈ psParents ps2, j ∈ rest := by
        intro j hj
        rw [hfilt2] at hj
        exact List.mem_of_mem_filter hj
      have hkids2 : ∀ x ∈ psKids ps2, mk + 2 < x ∧ x ≤ mk2 := hbounds
      have hcond : ¬(nd.is_stopped = true) := by simp [hstop]
      refine ⟨d4, mk2, (i, mk + 1, mk + 2) :: ps2, ?_, ?_, ?_, ?_, ?_, ?_, ?_, ?_⟩
      · show splitLeaves sp (i :: rest) d mk rem add = _
        simp only [splitLeaves, hg, exceptBind_ok, if_neg hcond]
        rw [← hlc, ← hrc, ← hd1, ← hd2m, ← hd3]
        rw [heq]
        rw [show psParents ((i, mk + 1, mk + 2) :: ps2) = i :: psParents ps2 from rfl]
        rw [show psKids ((i, mk + 1, mk + 2) :: ps2) = (mk + 1) :: (mk + 2) :: psKids ps2 from rfl]
        simp [List.append_assoc]
      · rw [show psParents ((i, mk + 1, mk + 2) :: ps2) = i :: psParents ps2 from rfl,
          List.filter_cons]
        have : isUnstopped d i = true := by simp [isUnstopped, hg, hstop]
        simp only [this, if_true]
        rw [hfilt2]
      · rw [hmk]
        simp [List.length_cons]
        omega
      · rw [hkeys, hk3,
          show psKids ((i, mk + 1, mk + 2) :: ps2) = (mk + 1) :: (mk + 2) :: psKids ps2 from rfl,
          List.append_assoc]
        rfl
      · intro x hx
        rw [show psKids ((i, mk + 1, mk + 2) :: ps2) = (mk + 1) :: (mk + 2) :: psKids ps2 from rfl]
          at hx
        rcases List.mem_cons.mp hx with rfl | hx
        · constructor
          · omega
          · rw [hmk]; omega
        rcases List.mem_cons.mp hx with rfl | hx
        · constructor
          · omega
          · rw [hmk]; omega
        · have := hkids2 x hx
          omega
      · rw [show psKids ((i, mk + 1, mk + 2) :: ps2) = (mk + 1) :: (mk + 2) :: psKids ps2 from rfl]
        refine List.nodup_cons.mpr ⟨?_, List.nodup_cons.mpr ⟨?_, hknd⟩⟩
        · intro h
          rcases List.mem_cons.mp h with h | h
          · omega
          · have := hkids2 _ h
            omega
        · intro h
          have := hkids2 _ h
          omega
      · intro x hx
        rcases List.mem_cons.mp hx with rfl | hx
        · dsimp only
          refine ⟨nd, hg, hstop, ?_, ?_, ?_⟩
          · have h1 : (i : Nat) ∉ psParents ps2 :=
              fun h => hirest (hparsub i h)
            have h2 : (i : Nat) ∉ psKids ps2 := by
              intro h
              have := hkids2 i h
              omega
            rw [hpres i h1 h2]
            exact hd3i
          · have h1 : (mk + 1) ∉ psParents ps2 := by
              intro h
              have := hrestle _ (hparsub _ h)
              omega
            have h2 : (mk + 1) ∉ psKids ps2 := by
              intro h
              have := hkids2 _ h
              omega
            rw [hpres _ h1 h2]
            exact hd3k1
          · have h1 : (mk + 2) ∉ psParents ps2 := by
              intro h
              have := hrestle _ (hparsub _ h)
              omega
            have h2 : (mk + 2) ∉ psKids ps2 := by
              intro h
              have := hkids2 _ h
              omega
            rw [hpres _ h1 h2]
            exact hd3k2
        · obtain ⟨nd2, hg2, hs2, ha, hb, hc⟩ := htrip x hx
          have hxrest : x.1 ∈ rest := hparsub x.1 (List.mem_map_of_mem _ hx)
          refine ⟨nd2, ?_, hs2, ha, hb, hc⟩
          rw [← hrestd3 x.1 hxrest]
          exact hg2
      · intro j hjp hjk
        rw [show psParents ((i, mk + 1, mk + 2) :: ps2) = i :: psParents ps2 from rfl] at hjp
        rw [show psKids ((i, mk + 1, mk + 2) :: ps2) = (mk + 1) :: (mk + 2) :: psKids ps2 from rfl]
          at hjk
        have hji : j ≠ i := fun he => hjp (he ▸ List.mem_cons_self _ _)
        have hjp2 : j ∉ psParents ps2 := fun h => hjp (List.mem_cons_of_mem _ h)
        have hjk1 : j ≠ mk + 1 := fun he => hjk (he ▸ List.mem_cons_self _ _)
        have hjk2 : j ≠ mk + 2 := fun he => hjk (he ▸ List.mem_cons_of_mem _ (List.mem_cons_self _ _))
        have hjk3 : j ∉ psKids ps2 :=
          fun h => hjk (List.mem_cons_of_mem _ (List.mem_cons_of_mem _ h))
        rw [hpres j hjp2 hjk3, hd3, dictGet_dictSet_ne d2m i j _ hji, hd2m,
          dictGet_dictSet_ne d1 (mk + 2) j rc hjk2, hd1,
          dictGet_dictSet_ne d (mk + 1) j lc hjk1]

theorem sum_diff_split {M : Type} [AddCommMonoid M] (f : Nat → M) :
    ∀ (R L : List Nat), R.Nodup → (∀ x ∈ R, x ∈ L) →
      ((L.diff R).map f).sum + (R.map f).sum = (L.map f).sum := by
  intro R
  induction R with
  | nil => intro L _ _; simp
  | cons r R2 ih =>
    intro L hnd hsub
    rw [List.diff_cons]
    obtain ⟨hrR, hndR⟩ := List.nodup_cons.mp hnd
    have hrL : r ∈ L := hsub r (List.mem_cons_self _ _)
    have hsub2 : ∀ x ∈ R2, x ∈ L.erase r := by
      intro x hx
      refine (List.mem_erase_of_ne (fun he => hrR ?_)).2
        (hsub x (List.mem_cons_of_mem _ hx))
      rw [← he]
      exact hx
    have hIH := ih (L.erase r) hndR hsub2
    have hperm := List.perm_cons_erase hrL
    have hsum : (L.map f).sum = f r + ((L.erase r).map f).sum := by
      rw [List.Perm.sum_eq (hperm.map f)]
      simp
    rw [hsum, ← hIH, List.map_cons, List.sum_cons, add_left_comm]

theorem updateLeafList_eq (lv rem add : List Nat) :
    updateLeafList lv rem add = lv.diff rem ++ add := by
  unfold updateLeafList
  rw [List.diff_eq_foldl]

theorem mem_psKids (ps : List (Nat × Nat × Nat)) (x : Nat) :
    x ∈ psKids ps ↔ ∃ tr ∈ ps, x = tr.2.1 ∨ x = tr.2.2 := by
  rw [psKids, mem_flatPairs]
  constructor
  · rintro ⟨p, hp, h⟩
    obtain ⟨tr, htr, rfl⟩ := List.mem_map.mp hp
    exact ⟨tr, htr, h⟩
  · rintro ⟨tr, htr, h⟩
    exact ⟨tr.2, List.mem_map_of_mem _ htr, h⟩

theorem mem_psParents (ps : List (Nat × Nat × Nat)) (x : Nat) :
    x ∈ psParents ps ↔ ∃ tr ∈ ps, x = tr.1 := by
  rw [psParents]
  constructor
  · intro h
    obtain ⟨tr, htr, he⟩ := List.mem_map.mp h
    exact ⟨tr, htr, he.symm⟩
  · rintro ⟨tr, htr, rfl⟩
    exact List.mem_map_of_mem _ htr

theorem psKids_map_sum {M : Type} [AddCommMonoid M] (f : Nat → M) :
    ∀ ps : List (Nat × Nat × Nat),
      ((psKids ps).map f).sum = (ps.map (fun x => f x.2.1 + f x.2.2)).sum := by
  intro ps
  induction ps with
  | nil => rfl
  | cons x ps2 ih =>
    rw [psKids_cons, List.map_cons, List.map_cons, List.sum_cons, List.sum_cons,
      List.map_cons, List.sum_cons, ih, add_assoc]

theorem psParents_map_sum {M : Type} [AddCommMonoid M] (f : Nat → M)
    (ps : List (Nat × Nat × Nat)) :
    ((psParents ps).map f).sum = (ps.map (fun x => f x.1)).sum := by
  rw [psParents, List.map_map]
  rfl

theorem ps_weight_bound (f f2 : Nat → ℕ) :
    ∀ ps : List (Nat × Nat × Nat),
      (∀ x ∈ ps, f2 x.2.1 + f2 x.2.2 + 1 ≤ f x.1) →
      ((psKids ps).map f2).sum + ps.length ≤ ((psParents ps).map f).sum := by
  intro ps
  induction ps with
  | nil => intro _; simp [psKids, psParents, flatPairs]
  | cons x ps2 ih =>
    intro h
    have hx := h x (List.mem_cons_self _ _)
    have hih := ih (fun y hy => h y (List.mem_cons_of_mem _ hy))
    rw [psKids_cons, psParents_cons, List.map_cons, List.map_cons, List.sum_cons,
      List.map_cons, List.sum_cons, List.sum_cons, List.length_cons]
    omega

theorem ps_rp_sum (f f2 : Nat → ℚ) :
    ∀ ps : List (Nat × Nat × Nat),
      (∀ x ∈ ps, f2 x.2.1 + f2 x.2.2 = f x.1) →
      ((psKids ps).map f2).sum = ((psParents ps).map f).sum := by
  intro ps
  induction ps with
  | nil => intro _; rfl
  | cons x ps2 ih =>
    intro h
    have hx := h x (List.mem_cons_self _ _)
    have hih := ih (fun y hy => h y (List.mem_cons_of_mem _ hy))
    rw [psKids_cons, psParents_cons, List.map_cons, List.map_cons, List.sum_cons,
      List.map_cons, List.sum_cons, List.sum_cons, hih, ← hx, add_assoc]

theorem numUnique_eq_zero (l : List ℤ) : numUnique l = 0 ↔ l = [] := by
  simp [numUnique, List.length_eq_zero]

theorem numUnique_le_length (l : List ℤ) : numUnique l ≤ l.length :=
  (List.dedup_sublist l).length_le

theorem foldl_max_bound : ∀ (ks : List Nat) (k : Nat),
    k ≤ ks.foldl max k ∧ ∀ j ∈ ks, j ≤ ks.foldl max k := by
  intro ks
  induction ks with
  | nil => intro k; exact ⟨le_rfl, by simp⟩
  | cons a rest ih =>
    intro k
    have h1 := ih (max k a)
    refine ⟨le_trans (le_max_left k a) h1.1, ?_⟩
    intro j hj
    rcases List.mem_cons.mp hj with rfl | hj
    · exact le_trans (le_max_right k j) h1.1
    · exact h1.2 j hj

theorem maxKeyE_spec (d : List (Nat × Node)) (k0 : Nat) (ks : List Nat)
    (h : dictKeys d = k0 :: ks) :
    ∃ m, maxKeyE d = .ok m ∧ ∀ j ∈ dictKeys d, j ≤ m := by
  refine ⟨(ks.foldl max k0), by simp [maxKeyE, h], ?_⟩
  intro j hj
  rw [h] at hj
  rcases List.mem_cons.mp hj with rfl | hj
  · exact (foldl_max_bound ks j).1
  · exact (foldl_max_bound ks k0).2 j hj

theorem checkStopGo_spec (t : Tree) :
    ∀ lv, (∀ i ∈ lv, i ∈ dictKeys t.node_dict) →
    ∃ b, checkStopGo t lv = .ok b ∧
      (b = true ↔ ∀ i ∈ lv, ∀ nd, dictGet t.node_dict i = some nd →
        nd.is_stopped = true) := by
  intro lv
  induction lv with
  | nil => exact fun _ => ⟨true, rfl, by simp⟩
  | cons i rest ih =>
    intro hmem
    obtain ⟨nd, hg⟩ := dictGet_some_of_mem _ i (hmem i (List.mem_cons_self _ _))
    obtain ⟨b, hb, hiff⟩ := ih (fun j hj => hmem j (List.mem_cons_of_mem _ hj))
    cases hstop : nd.is_stopped
    · refine ⟨false, ?_, ?_⟩
      · simp [checkStopGo, lookupE, hg, hstop]
      · refine iff_of_false (by simp) ?_
        intro h
        have := h i (List.mem_cons_self _ _) nd hg
        rw [hstop] at this
        cases this
    · refine ⟨b, ?_, ?_⟩
      · simp only [checkStopGo, lookupE, hg, exceptBind_ok, hstop, if_true]
        exact hb
      · rw [hiff]
        constructor
        · intro h j hj nd2 hg2
          rcases List.mem_cons.mp hj with rfl | hj
          · rw [hg] at hg2
            injection hg2 with he
            rw [← he]
            exact hstop
          · exact h j hj nd2 hg2
        · intro h j hj nd2 hg2
          exact h j (List.mem_cons_of_mem _ hj) nd2 hg2

theorem map_congr_mem {α β : Type} (l : List α) (f g : α → β)
    (h : ∀ a ∈ l, f a = g a) : l.map f = l.map g := by
  induction l with
  | nil => rfl
  | cons a rest ih =>
    rw [List.map_cons, List.map_cons, h a (List.mem_cons_self _ _),
      ih (fun b hb => h b (List.mem_cons_of_mem _ hb))]

theorem pass_full (sp : Splitter) (t : Tree) (mk : Nat) (hcore : GCore t mk) :
    ∃ d2 mk2 ps,
      splitLeaves sp t.leaf_inds t.node_dict mk [] [] =
        .ok (d2, mk2, psParents ps, psKids ps) ∧
      psParents ps = t.leaf_inds.filter (isUnstopped t.node_dict) ∧
      mk2 = mk + 2 * ps.length ∧
      GCore (Tree.mk d2 (updateLeafList t.leaf_inds (psParents ps) (psKids ps)) t.symbols)
        mk2 ∧
      (GLab t → PartitionHyp sp →
        GLab (Tree.mk d2 (updateLeafList t.leaf_inds (psParents ps) (psKids ps)) t.symbols) ∧
        phiMeasure (Tree.mk d2 (updateLeafList t.leaf_inds (psParents ps) (psKids ps))
          t.symbols) + ps.length ≤ phiMeasure t) ∧
      (BranchHyp sp →
        leafRPSum (Tree.mk d2 (updateLeafList t.leaf_inds (psParents ps) (psKids ps))
          t.symbols) = leafRPSum t) := by
  obtain ⟨hknd, hkb, hlnd, hinv, hflag⟩ := hcore
  have hLk : ∀ i ∈ t.leaf_inds, i ∈ dictKeys t.node_dict := by
    intro i hi
    obtain ⟨nd, hg, -, -⟩ := hinv.1 i hi
    exact mem_dictKeys_of_dictGet _ _ _ hg
  obtain ⟨d2, mk2, ps, heq, hfilt, hmk, hkeys, hbounds, hkid_nd, htrip, hpres⟩ :=
    splitLeaves_spec sp t.leaf_inds t.node_dict mk [] [] hlnd hLk hkb
  rw [List.nil_append, List.nil_append] at heq
  have hLle : ∀ i ∈ t.leaf_inds, i ≤ mk := fun i hi => hkb i (hLk i hi)
  have hPsub : ∀ x ∈ psParents ps, x ∈ t.leaf_inds := by
    intro x hx
    rw [hfilt] at hx
    exact List.mem_of_mem_filter hx
  have hPnd : (psParents ps).Nodup := by
    rw [hfilt]
    exact hlnd.filter _
  have hmk2ge : mk ≤ mk2 := by omega
  -- per-triple parent/child data in convenient form
  have hKid : ∀ x ∈ psKids ps, mk < x ∧ x ≤ mk2 := hbounds
  have hdiffiff : ∀ j, j ∈ t.leaf_inds.diff (psParents ps) ↔
      j ∈ t.leaf_inds ∧ j ∉ psParents ps := fun j => List.Nodup.mem_diff_iff hlnd
  have hdiffpres : ∀ j ∈ t.leaf_inds.diff (psParents ps),
      dictGet d2 j = dictGet t.node_dict j := by
    intro j hj
    obtain ⟨hjL, hjP⟩ := (hdiffiff j).mp hj
    refine hpres j hjP ?_
    intro hk
    have := (hKid j hk).1
    have := hLle j hjL
    omega
  have hnewleaf : updateLeafList t.leaf_inds (psParents ps) (psKids ps) =
      t.leaf_inds.diff (psParents ps) ++ psKids ps := updateLeafList_eq _ _ _
  refine ⟨d2, mk2, ps, heq, hfilt, hmk, ⟨?_, ?_, ?_, ⟨?_, ?_⟩, ?_⟩, ?_, ?_⟩
  · -- keys nodup
    show (dictKeys d2).Nodup
    rw [hkeys]
    refine List.Nodup.append hknd hkid_nd ?_
    intro x hx1 hx2
    have h1 := hkb x hx1
    have h2 := (hKid x hx2).1
    omega
  · -- keys bound
    show ∀ k ∈ dictKeys d2, k ≤ mk2
    intro k hk
    rw [hkeys] at hk
    rcases List.mem_append.mp hk with h | h
    · have := hkb k h
      omega
    · exact (hKid k h).2
  · -- leaf list nodup
    show (updateLeafList t.leaf_inds (psParents ps) (psKids ps)).Nodup
    rw [hnewleaf]
    refine List.Nodup.append (hlnd.diff) hkid_nd ?_
    intro x hx1 hx2
    have h1 := hLle x ((hdiffiff x).mp hx1).1
    have h2 := (hKid x hx2).1
    omega
  · -- leafInvariant dir1
    intro i hi
    show ∃ nd, dictGet d2 i = some nd ∧ nd.left = none ∧ nd.right = none
    rw [hnewleaf] at hi
    rcases List.mem_append.mp hi with hi | hi
    · obtain ⟨nd, hg, h1, h2⟩ := hinv.1 i ((hdiffiff i).mp hi).1
      exact ⟨nd, by rw [hdiffpres i hi]; exact hg, h1, h2⟩
    · obtain ⟨tr, htr, hor⟩ := (mem_psKids ps i).mp hi
      obtain ⟨nd, hgp, hstop, hp1, hp2, hp3⟩ := htrip tr htr
      rcases hor with rfl | rfl
      · exact ⟨_, hp2, rfl, rfl⟩
      · exact ⟨_, hp3, rfl, rfl⟩
  · -- leafInvariant dir2
    intro j nd0 hg0 hl0 hr0
    show j ∈ updateLeafList t.leaf_inds (psParents ps) (psKids ps)
    rw [hnewleaf]
    by_cases hjP : j ∈ psParents ps
    · exfalso
      obtain ⟨tr, htr, rfl⟩ := (mem_psParents ps j).mp hjP
      obtain ⟨nd, hgp, hstop, hp1, hp2, hp3⟩ := htrip tr htr
      rw [hp1] at hg0
      injection hg0 with he
      rw [← he] at hl0
      cases hl0
    · by_cases hjK : j ∈ psKids ps
      · exact List.mem_append.mpr (Or.inr hjK)
      · rw [hpres j hjP hjK] at hg0
        have hjL := hinv.2 j nd0 hg0 hl0 hr0
        exact List.mem_append.mpr (Or.inl ((hdiffiff j).mpr ⟨hjL, hjP⟩))
  · -- stopped flags
    intro i nd0 hi hg0
    show nd0.is_stopped = (numUnique nd0.labels == 1)
    rw [hnewleaf] at hi
    rcases List.mem_append.mp hi with hi | hi
    · rw [hdiffpres i hi] at hg0
      exact hflag i nd0 ((hdiffiff i).mp hi).1 hg0
    · obtain ⟨tr, htr, hor⟩ := (mem_psKids ps i).mp hi
      obtain ⟨nd, hgp, hstop, hp1, hp2, hp3⟩ := htrip tr htr
      rcases hor with rfl | rfl
      · rw [hp2] at hg0
        injection hg0 with he
        rw [← he]
        rfl
      · rw [hp3] at hg0
        injection hg0 with he
        rw [← he]
        rfl
  · -- GLab and phi decrease
    intro hgl hsp
    have hparfact : ∀ tr ∈ ps, ∃ nd, dictGet t.node_dict tr.1 = some nd ∧
        nd.is_stopped = false ∧ nd.labels ≠ [] ∧ 2 ≤ numUnique nd.labels := by
      intro tr htr
      obtain ⟨nd, hgp, hstop, -, -, -⟩ := htrip tr htr
      have htrL : tr.1 ∈ t.leaf_inds := hPsub tr.1 ((mem_psParents ps tr.1).mpr ⟨tr, htr, rfl⟩)
      have hlab := hgl tr.1 nd htrL hgp
      have hfl := hflag tr.1 nd htrL hgp
      rw [hstop] at hfl
      have hne1 : numUnique nd.labels ≠ 1 := by
        intro he
        rw [he] at hfl
        simp at hfl
      have hne0 : numUnique nd.labels ≠ 0 := fun he => hlab ((numUnique_eq_zero _).mp he)
      exact ⟨nd, hgp, hstop, hlab, by omega⟩
    constructor
    · -- GLab t2
      intro i nd0 hi hg0
      show nd0.labels ≠ []
      rw [hnewleaf] at hi
      rcases List.mem_append.mp hi with hi | hi
      · rw [hdiffpres i hi] at hg0
        exact hgl i nd0 ((hdiffiff i).mp hi).1 hg0
      · obtain ⟨tr, htr, hor⟩ := (mem_psKids ps i).mp hi
        obtain ⟨nd, hgp, hstop, hp1, hp2, hp3⟩ := htrip tr htr
        obtain ⟨nd9, hgp9, -, -, h2u⟩ := hparfact tr htr
        rw [hgp] at hgp9
        injection hgp9 with he9
        rw [← he9] at h2u
        obtain ⟨hlne, hrne, -⟩ := hsp nd h2u
        rcases hor with rfl | rfl
        · rw [hp2] at hg0
          injection hg0 with he
          rw [← he]
          exact hlne
        · rw [hp3] at hg0
          injection hg0 with he
          rw [← he]
          exact hrne
    · -- phi decrease
      have hsplitL := sum_diff_split (leafWeight t.node_dict) (psParents ps)
        t.leaf_inds hPnd hPsub
      have hdiffsame : (t.leaf_inds.diff (psParents ps)).map (leafWeight d2) =
          (t.leaf_inds.diff (psParents ps)).map (leafWeight t.node_dict) := by
        refine map_congr_mem _ _ _ ?_
        intro j hj
        unfold leafWeight
        rw [hdiffpres j hj]
      have hbound := ps_weight_bound (leafWeight t.node_dict) (leafWeight d2) ps ?_
      · have hphi2 : phiMeasure (Tree.mk d2
            (updateLeafList t.leaf_inds (psParents ps) (psKids ps)) t.symbols) =
            ((t.leaf_inds.diff (psParents ps)).map (leafWeight t.node_dict)).sum +
            ((psKids ps).map (leafWeight d2)).sum := by
          show ((updateLeafList t.leaf_inds (psParents ps) (psKids ps)).map
            (leafWeight d2)).sum = _
          rw [hnewleaf, List.map_append, List.sum_append, hdiffsame]
        rw [hphi2]
        have hphi1 : phiMeasure t = (t.leaf_inds.map (leafWeight t.node_dict)).sum := rfl
        rw [hphi1, ← hsplitL]
        omega
      · intro tr htr
        obtain ⟨nd, hgp, hstop, hp1, hp2, hp3⟩ := htrip tr htr
        obtain ⟨nd9, hgp9, -, hlab9, h2u⟩ := hparfact tr htr
        rw [hgp] at hgp9
        injection hgp9 with he9
        subst he9
        obtain ⟨hlne, hrne, hpperm⟩ := hsp nd h2u
        have hlen : (sp nd).left_labels.length + (sp nd).right_labels.length =
            nd.labels.length := by
          have := hpperm.length_eq
          rw [List.length_append] at this
          exact this
        have hl1 : 1 ≤ (sp nd).left_labels.length := List.length_pos.mpr hlne
        have hr1 : 1 ≤ (sp nd).right_labels.length := List.length_pos.mpr hrne
        have hn2 : 2 ≤ nd.labels.length :=
          le_trans h2u (numUnique_le_length nd.labels)
        have hwp : leafWeight t.node_dict tr.1 = nd.labels.length - 1 := by
          unfold leafWeight
          rw [hgp]
          show (if (numUnique nd.labels == 1) = true then 0
            else nd.labels.length - 1) = _
          have hfa : (numUnique nd.labels == 1) = false := by
            simp
            omega
          rw [hfa]
          simp
        have hwa : leafWeight d2 tr.2.1 ≤ (sp nd).left_labels.length - 1 := by
          unfold leafWeight
          rw [hp2]
          show (if (numUnique (sp nd).left_labels == 1) = true then 0
            else (sp nd).left_labels.length - 1) ≤ _
          split_ifs
          · omega
          · exact le_rfl
        have hwb : leafWeight d2 tr.2.2 ≤ (sp nd).right_labels.length - 1 := by
          unfold leafWeight
          rw [hp3]
          show (if (numUnique (sp nd).right_labels == 1) = true then 0
            else (sp nd).right_labels.length - 1) ≤ _
          split_ifs
          · omega
          · exact le_rfl
        rw [hwp]
        omega
  · -- reach probability sum
    intro hbr
    have hsplitL := sum_diff_split (rpAt t.node_dict) (psParents ps) t.leaf_inds hPnd hPsub
    have hdiffsame : (t.leaf_inds.diff (psParents ps)).map (rpAt d2) =
        (t.leaf_inds.diff (psParents ps)).map (rpAt t.node_dict) := by
      refine map_congr_mem _ _ _ ?_
      intro j hj
      unfold rpAt
      rw [hdiffpres j hj]
    have hkid_eq : ((psKids ps).map (rpAt d2)).sum =
        ((psParents ps).map (rpAt t.node_dict)).sum := by
      refine ps_rp_sum (rpAt t.node_dict) (rpAt d2) ps ?_
      intro tr htr
      obtain ⟨nd, hgp, hstop, hp1, hp2, hp3⟩ := htrip tr htr
      have ha : rpAt d2 tr.2.1 = (sp nd).left_branch_prob * nd.reach_prob := by
        unfold rpAt
        rw [hp2]
        rfl
      have hb : rpAt d2 tr.2.2 = (sp nd).right_branch_prob * nd.reach_prob := by
        unfold rpAt
        rw [hp3]
        rfl
      have hc : rpAt t.node_dict tr.1 = nd.reach_prob := by
        unfold rpAt
        rw [hgp]
      rw [ha, hb, hc, ← add_mul, hbr nd, one_mul]
    show ((updateLeafList t.leaf_inds (psParents ps) (psKids ps)).map (rpAt d2)).sum = _
    rw [hnewleaf, List.map_append, List.sum_append, hdiffsame, hkid_eq]
    exact hsplitL

theorem fitAux_spec (sp : Splitter) (hsp : PartitionHyp sp) :
    ∀ (fuel : Nat) (t : Tree) (mk : Nat), GCore t mk → GLab t → phiMeasure t < fuel →
    ∃ t2 k, fitAux sp fuel t mk = .ok (t2, k) ∧ k ≤ phiMeasure t ∧
      GCore t2 (mk + 2 * k) ∧
      (∀ i ∈ t2.leaf_inds, ∀ nd, dictGet t2.node_dict i = some nd →
        nd.is_stopped = true) := by
  intro fuel
  induction fuel with
  | zero => intro t mk _ _ h; omega
  | succ fuel ih =>
    intro t mk hcore hglab hphi
    have hLk : ∀ i ∈ t.leaf_inds, i ∈ dictKeys t.node_dict := by
      intro i hi
      obtain ⟨nd, hg, -, -⟩ := hcore.2.2.2.1.1 i hi
      exact mem_dictKeys_of_dictGet _ _ _ hg
    obtain ⟨b, hb, hiff⟩ := checkStopGo_spec t t.leaf_inds hLk
    cases b with
    | true =>
      refine ⟨t, 0, ?_, Nat.zero_le _, by simpa using hcore, hiff.mp rfl⟩
      simp only [fitAux, Tree.check_full_stopped, hb, exceptBind_ok, if_true]
    | false =>
      have hex : ∃ i ∈ t.leaf_inds, isUnstopped t.node_dict i = true := by
        by_contra hall
        push_neg at hall
        have hstopall : ∀ i ∈ t.leaf_inds, ∀ nd, dictGet t.node_dict i = some nd →
            nd.is_stopped = true := by
          intro i hi nd hg
          have h2 := hall i hi
          simp [isUnstopped, hg] at h2
          exact h2
        cases hiff.mpr hstopall
      obtain ⟨d2, mk2, ps, heq, hfilt, hmk, hcore2, hcond, hrp⟩ := pass_full sp t mk hcore
      obtain ⟨hglab2, hphi2⟩ := hcond hglab hsp
      have hpsne : 1 ≤ ps.length := by
        obtain ⟨i, hi, hiu⟩ := hex
        cases hps : ps with
        | nil =>
          exfalso
          rw [hps] at hfilt
          have hmem : i ∈ List.filter (isUnstopped t.node_dict) t.leaf_inds :=
            List.mem_filter.mpr ⟨hi, hiu⟩
          rw [← hfilt] at hmem
          simp [psParents] at hmem
        | cons _ _ => simp
      have hphi3 : phiMeasure (Tree.mk d2
          (updateLeafList t.leaf_inds (psParents ps) (psKids ps)) t.symbols) < fuel := by
        omega
      obtain ⟨t3, k3, heq3, hk3, hcore3, hstopped3⟩ :=
        ih (Tree.mk d2 (updateLeafList t.leaf_inds (psParents ps) (psKids ps)) t.symbols)
          mk2 hcore2 hglab2 hphi3
      refine ⟨t3, ps.length + k3, ?_, by omega, ?_, hstopped3⟩
      · simp only [fitAux, Tree.check_full_stopped, hb, exceptBind_ok,
          Bool.false_eq_true, if_false, heq, heq3]
        simp [psParents]
      · have harith : mk + 2 * (ps.length + k3) = mk2 + 2 * k3 := by omega
        rw [harith]
        exact hcore3

theorem fitAux_preserves (sp : Splitter) :
    ∀ (fuel : Nat) (t : Tree) (mk : Nat), GCore t mk →
    ∀ t2 k, fitAux sp fuel t mk = .ok (t2, k) →
      GCore t2 (mk + 2 * k) ∧ (BranchHyp sp → leafRPSum t2 = leafRPSum t) := by
  intro fuel
  induction fuel with
  | zero => intro t mk _ t2 k h; cases h
  | succ fuel ih =>
    intro t mk hcore t2 k hok
    have hLk : ∀ i ∈ t.leaf_inds, i ∈ dictKeys t.node_dict := by
      intro i hi
      obtain ⟨nd, hg, -, -⟩ := hcore.2.2.2.1.1 i hi
      exact mem_dictKeys_of_dictGet _ _ _ hg
    obtain ⟨b, hb, hiff⟩ := checkStopGo_spec t t.leaf_inds hLk
    cases b with
    | true =>
      simp only [fitAux, Tree.check_full_stopped, hb, exceptBind_ok, if_true] at hok
      injection hok with hok
      injection hok with h1 h2
      subst h1
      subst h2
      exact ⟨by simpa using hcore, fun _ => rfl⟩
    | false =>
      obtain ⟨d2, mk2, ps, heq, hfilt, hmk, hcore2, hcond, hrp⟩ := pass_full sp t mk hcore
      simp only [fitAux, Tree.check_full_stopped, hb, exceptBind_ok,
        Bool.false_eq_true, if_false, heq] at hok
      cases hrec : fitAux sp fuel
          (Tree.mk d2 (updateLeafList t.leaf_inds (psParents ps) (psKids ps)) t.symbols)
          mk2 with
      | error e => rw [hrec] at hok; cases hok
      | ok pr =>
        obtain ⟨t3, k3⟩ := pr
        rw [hrec] at hok
        simp only [exceptBind_ok] at hok
        injection hok with hok
        injection hok with h1 h2
        subst h1
        obtain ⟨hcore3, hrp3⟩ := ih _ mk2 hcore2 t3 k3 hrec
        constructor
        · have harith : mk + 2 * k = mk2 + 2 * k3 := by
            rw [← h2]
            simp [psParents]
            omega
          rw [harith]
          exact hcore3
        · intro hbr
          rw [hrp3 hbr, hrp hbr]

theorem fitSteps_preserves (sp : Splitter) :
    ∀ (n : Nat) (t : Tree) (mk : Nat), GCore t mk →
    ∀ t2 mk2, fitSteps sp n t mk = .ok (t2, mk2) →
      (∃ mk3, GCore t2 mk3) ∧ (BranchHyp sp → leafRPSum t2 = leafRPSum t) := by
  intro n
  induction n with
  | zero =>
    intro t mk hcore t2 mk2 h
    injection h with h
    injection h with h1 h2
    subst h1
    exact ⟨⟨mk, hcore⟩, fun _ => rfl⟩
  | succ n ih =>
    intro t mk hcore t2 mk2 hok
    have hLk : ∀ i ∈ t.leaf_inds, i ∈ dictKeys t.node_dict := by
      intro i hi
      obtain ⟨nd, hg, -, -⟩ := hcore.2.2.2.1.1 i hi
      exact mem_dictKeys_of_dictGet _ _ _ hg
    obtain ⟨b, hb, hiff⟩ := checkStopGo_spec t t.leaf_inds hLk
    cases b with
    | true =>
      simp only [fitSteps, fitStep, Tree.check_full_stopped, hb, exceptBind_ok,
        if_true] at hok
      exact ih t mk hcore t2 mk2 hok
    | false =>
      obtain ⟨d2, mk2p, ps, heq, hfilt, hmk, hcore2, hcond, hrp⟩ := pass_full sp t mk hcore
      simp only [fitSteps, fitStep, Tree.check_full_stopped, hb, exceptBind_ok,
        Bool.false_eq_true, if_false, heq] at hok
      obtain ⟨hc3, hrp3⟩ := ih _ mk2p hcore2 t2 mk2 hok
      refine ⟨hc3, fun hbr => ?_⟩
      rw [hrp3 hbr, hrp hbr]

theorem init_spec (dat : NPArray) (labels : List ℤ) (t : Tree)
    (h : Tree.init dat labels = .ok t) :
    ∃ rules, rulesOf dat = .ok rules ∧
      t = Tree.mk [(0, Node.mk none none none rules dat labels
        (numUnique labels == 1) 1
        ((uniqueSorted labels).map (fun s =>
          ((labels.count s : ℚ)) / (labels.length : ℚ))))] [0] (uniqueSorted labels) := by
  unfold Tree.init at h
  cases hr : rulesOf dat with
  | error e => rw [hr] at h; cases h
  | ok rules =>
    rw [hr] at h
    injection h with h
    exact ⟨rules, rfl, h.symm⟩

theorem leafInvariant_of_B (t : Tree) (h : leafInvariantB t = true) : leafInvariant t := by
  unfold leafInvariantB at h
  rw [Bool.and_eq_true, List.all_eq_true, List.all_eq_true] at h
  constructor
  · intro i hi
    have h1 := h.1 i hi
    cases hg : dictGet t.node_dict i with
    | none => rw [hg] at h1; cases h1
    | some nd =>
      rw [hg] at h1
      simp only [Bool.and_eq_true, beq_iff_eq] at h1
      exact ⟨nd, rfl, h1.1, h1.2⟩
  · intro k nd hg hl hr
    have hk : k ∈ dictKeys t.node_dict := mem_dictKeys_of_dictGet _ _ _ hg
    have h2 := h.2 k hk
    rw [hg] at h2
    simp only [hl, hr] at h2
    simp at h2
    exact h2

theorem flagsOK_of_B (t : Tree) (h : flagsOKB t = true) :
    ∀ i nd, i ∈ t.leaf_inds → dictGet t.node_dict i = some nd →
      nd.is_stopped = (numUnique nd.labels == 1) := by
  unfold flagsOKB at h
  rw [List.all_eq_true] at h
  intro i nd hi hg
  have h1 := h i hi
  rw [hg] at h1
  exact beq_iff_eq.mp h1

theorem demoSplit_partition : PartitionHyp demoSplit := by
  intro nd h2
  have hne : nd.labels ≠ [] := by
    intro he
    rw [he] at h2
    simp [numUnique] at h2
  have hdl : 2 ≤ nd.labels.dedup.length := h2
  refine ⟨?_, ?_, ?_⟩
  · show nd.labels.filter (fun x => x == nd.labels.headD 0) ≠ []
    cases hl : nd.labels with
    | nil => exact absurd hl hne
    | cons a rest =>
      simp [List.filter_cons]
  · show nd.labels.filter (fun x => !(x == nd.labels.headD 0)) ≠ []
    cases hd : nd.labels.dedup with
    | nil => rw [hd] at hdl; simp at hdl
    | cons d0 ds =>
      cases ds with
      | nil => rw [hd] at hdl; simp at hdl
      | cons d1 ds2 =>
        have hnodup := nd.labels.nodup_dedup
        rw [hd] at hnodup
        have hne01 : d0 ≠ d1 := by
          intro he
          exact (List.nodup_cons.mp hnodup).1 (he ▸ List.mem_cons_self _ _)
        have hm0 : d0 ∈ nd.labels := by
          rw [← List.mem_dedup, hd]
          simp
        have hm1 : d1 ∈ nd.labels := by
          rw [← List.mem_dedup, hd]
          simp
        by_cases he0 : d0 = nd.labels.headD 0
        · intro hemp
          have hin : d1 ∈ nd.labels.filter (fun x => !(x == nd.labels.headD 0)) := by
            refine List.mem_filter.mpr ⟨hm1, ?_⟩
            have hb : (d1 == nd.labels.headD 0) = false :=
              beq_eq_false_iff_ne.mpr (fun he => hne01 (he0.trans he.symm))
            show (!(d1 == nd.labels.headD 0)) = true
            rw [hb]
            rfl
          rw [hemp] at hin
          cases hin
        · intro hemp
          have hin : d0 ∈ nd.labels.filter (fun x => !(x == nd.labels.headD 0)) := by
            refine List.mem_filter.mpr ⟨hm0, ?_⟩
            have hb : (d0 == nd.labels.headD 0) = false := beq_eq_false_iff_ne.mpr he0
            show (!(d0 == nd.labels.headD 0)) = true
            rw [hb]
            rfl
          rw [hemp] at hin
          cases hin
  · exact List.filter_append_perm _ nd.labels

theorem demoSplit_branch : BranchHyp demoSplit := by
  intro nd
  show (1 : ℚ)/2 + 1/2 = 1
  norm_num

theorem init_facts (dat : NPArray) (labels : List ℤ) (t : Tree)
    (h : Tree.init dat labels = .ok t) :
    (∀ mk, GCore t mk) ∧ (labels ≠ [] → GLab t) ∧ phiMeasure t ≤ labels.length ∧
    leafRPSum t = 1 ∧ dictKeys t.node_dict = [0] ∧
    (∃ nd, dictGet t.node_dict 0 = some nd ∧ nd.reach_prob = 1) := by
  obtain ⟨rules, hr, ht⟩ := init_spec dat labels t h
  subst ht
  have hget0 : ∀ (j : Nat) (v nd0 : Node), dictGet [(0, v)] j = some nd0 →
      j = 0 ∧ nd0 = v := by
    intro j v nd0 hg
    by_cases hj : j = 0
    · subst hj
      simp [dictGet] at hg
      exact ⟨rfl, hg.symm⟩
    · exfalso
      simp [dictGet, Ne.symm hj] at hg
  refine ⟨?_, ?_, ?_, ?_, rfl, ⟨_, rfl, rfl⟩⟩
  · intro mk
    refine ⟨by simp [dictKeys], ?_, by simp, ⟨?_, ?_⟩, ?_⟩
    · intro k hk
      simp [dictKeys] at hk
      omega
    · intro i hi
      simp at hi
      subst hi
      exact ⟨_, rfl, rfl, rfl⟩
    · intro k nd hg _ _
      have := (hget0 k _ nd hg).1
      simp [this]
    · intro i nd hi hg
      simp at hi
      subst hi
      have he := (hget0 0 _ nd hg).2
      rw [he]
  · intro hlab i nd hi hg
    simp at hi
    subst hi
    have he := (hget0 0 _ nd hg).2
    rw [he]
    exact hlab
  · show ([0].map (leafWeight _)).sum ≤ labels.length
    simp only [List.map_cons, List.map_nil, List.sum_cons, List.sum_nil, add_zero]
    show (if (numUnique labels == 1) = true then 0 else labels.length - 1) ≤ labels.length
    split_ifs
    · omega
    · omega
  · show ([0].map (rpAt _)).sum = 1
    simp only [List.map_cons, List.map_nil, List.sum_cons, List.sum_nil, add_zero]
    rfl

/-! ## C2: growth terminates within sample-count splits, all leaves pure -/

/-- C2: for a tree built from a nonempty dataset, if the split collaborator
strictly partitions every impure leaf's label multiset into two nonempty
parts, then `fit_full_tree` (with enough passes allowed) terminates, the
number of splits performed is at most the sample count, and afterwards every
leaf holds exactly one distinct label and is flagged stopped. -/
theorem fit_full_tree_terminates (sp : Splitter) (dat : NPArray) (labels : List ℤ)
    (t : Tree) (fuel : Nat) (hinit : Tree.init dat labels = .ok t)
    (hlab : labels ≠ []) (hsp : PartitionHyp sp) (hfuel : labels.length < fuel) :
    ∃ t2 k, t.fit_full_tree sp fuel = .ok (t2, k) ∧ k ≤ labels.length ∧
      (∀ i ∈ t2.leaf_inds, ∀ nd, dictGet t2.node_dict i = some nd →
        nd.is_stopped = true ∧ numUnique nd.labels = 1) := by
  obtain ⟨hGC, hGL, hphi, hrp1, hkeys0, hroot⟩ := init_facts dat labels t hinit
  have hmax : maxKeyE t.node_dict = .ok 0 := by simp [maxKeyE, hkeys0]
  obtain ⟨t2, k, heq, hk, hcore2, hstop2⟩ :=
    fitAux_spec sp hsp fuel t 0 (hGC 0) (hGL hlab) (by omega)
  refine ⟨t2, k, ?_, by omega, ?_⟩
  · simp only [Tree.fit_full_tree, hmax, exceptBind_ok, heq]
  · intro i hi nd hg
    have h1 := hstop2 i hi nd hg
    have h2 := hcore2.2.2.2.2 i nd hi hg
    rw [h1] at h2
    exact ⟨h1, (beq_iff_eq.mp h2.symm)⟩

/-- Witness for C2: fitting the three-sample dataset `[0, 0, 1]` with the
demonstration splitter terminates within 3 splits and leaves only pure
leaves. -/
theorem fit_full_tree_terminates_witness :
    Tree.init (.d1 [1, 2, 3]) [0, 0, 1] = .ok tDemo ∧
    (∃ t2 k, tDemo.fit_full_tree demoSplit 4 = .ok (t2, k) ∧
      k ≤ ([0, 0, 1] : List ℤ).length ∧
      (∀ i ∈ t2.leaf_inds, ∀ nd, dictGet t2.node_dict i = some nd →
        nd.is_stopped = true ∧ numUnique nd.labels = 1)) :=
  ⟨by with_unfolding_all rfl,
   fit_full_tree_terminates demoSplit (.d1 [1, 2, 3]) [0, 0, 1] tDemo 4
     (by with_unfolding_all rfl) (by decide) demoSplit_partition (by decide)⟩

/-! ## C7: reach-probability conservation -/

/-- C7: at construction the root's reach probability is 1 and the leaf sum
of reach probabilities is 1; provided each split's two branch probabilities
sum to 1, every split hands its two children reach probabilities summing to
the parent's, and the leaf sum stays 1 after any number of growth passes and
after `fit_full_tree`. -/
theorem reach_prob_conservation (sp : Splitter) (dat : NPArray) (labels : List ℤ)
    (t : Tree) (hinit : Tree.init dat labels = .ok t) (hbr : BranchHyp sp) :
    (∃ nd, dictGet t.node_dict 0 = some nd ∧ nd.reach_prob = 1) ∧
    leafRPSum t = 1 ∧
    (∀ nd : Node, (sp nd).left_branch_prob * nd.reach_prob +
      (sp nd).right_branch_prob * nd.reach_prob = nd.reach_prob) ∧
    (∀ n mk t2 mk2, fitSteps sp n t mk = .ok (t2, mk2) → leafRPSum t2 = 1) ∧
    (∀ fuel t2 k, t.fit_full_tree sp fuel = .ok (t2, k) → leafRPSum t2 = 1) := by
  obtain ⟨hGC, hGL, hphi, hrp1, hkeys0, hroot⟩ := init_facts dat labels t hinit
  have hmax : maxKeyE t.node_dict = .ok 0 := by simp [maxKeyE, hkeys0]
  refine ⟨hroot, hrp1, ?_, ?_, ?_⟩
  · intro nd
    rw [← add_mul, hbr nd, one_mul]
  · intro n mk t2 mk2 heq
    obtain ⟨-, hrp⟩ := fitSteps_preserves sp n t mk (hGC mk) t2 mk2 heq
    rw [hrp hbr, hrp1]
  · intro fuel t2 k heq
    simp only [Tree.fit_full_tree, hmax, exceptBind_ok] at heq
    obtain ⟨-, hrp⟩ := fitAux_preserves sp fuel t 0 (hGC 0) t2 k heq
    rw [hrp hbr, hrp1]

/-- Witness for C7 on the concrete dataset `[0, 0, 1]` with the
demonstration splitter. -/
theorem reach_prob_conservation_witness :
    (∃ nd, dictGet tDemo.node_dict 0 = some nd ∧ nd.reach_prob = 1) ∧
    leafRPSum tDemo = 1 ∧
    (∀ nd : Node, (demoSplit nd).left_branch_prob * nd.reach_prob +
      (demoSplit nd).right_branch_prob * nd.reach_prob = nd.reach_prob) ∧
    (∀ n mk t2 mk2, fitSteps demoSplit n tDemo mk = .ok (t2, mk2) →
      leafRPSum t2 = 1) ∧
    (∀ fuel t2 k, tDemo.fit_full_tree demoSplit fuel = .ok (t2, k) →
      leafRPSum t2 = 1) :=
  reach_prob_conservation demoSplit (.d1 [1, 2, 3]) [0, 0, 1] tDemo
    (by with_unfolding_all rfl) demoSplit_branch

/-! ## C3: the leaf list invariant across the public operations -/

/-- C3: `leaf_inds` holds exactly the stored identifiers whose two child
fields are absent, in every state produced by construction, and each of
`fit_full_tree`, `remove_subtree` and `cut_useless_leaves` preserves this
invariant (on well-formed input states). -/
theorem leaf_inds_invariant :
    (∀ dat labels t, Tree.init dat labels = .ok t → leafInvariant t) ∧
    (∀ sp fuel t t2 k, (dictKeys t.node_dict).Nodup → t.leaf_inds.Nodup →
      leafInvariant t →
      (∀ i nd, i ∈ t.leaf_inds → dictGet t.node_dict i = some nd →
        nd.is_stopped = (numUnique nd.labels == 1)) →
      t.fit_full_tree sp fuel = .ok (t2, k) → leafInvariant t2) ∧
    (∀ t s n t' o, Represents t s → t.remove_subtree n = .ok (t', o) →
      leafInvariant t') ∧
    (∀ t s t' k, Represents t s → (∀ j, s ≠ Shape.leaf j) →
      t.cut_useless_leaves = .ok (t', k) → leafInvariant t') := by
  refine ⟨?_, ?_, ?_, ?_⟩
  · intro dat labels t hinit
    exact ((init_facts dat labels t hinit).1 0).2.2.2.1
  · intro sp fuel t t2 k hknd hlnd hinv hflags heq
    cases hks : dictKeys t.node_dict with
    | nil =>
      exfalso
      simp only [Tree.fit_full_tree, maxKeyE, hks, exceptBind_error] at heq
      cases heq
    | cons k0 ks =>
      obtain ⟨m, hmax, hbound⟩ := maxKeyE_spec t.node_dict k0 ks hks
      simp only [Tree.fit_full_tree, hmax, exceptBind_ok] at heq
      have hcore : GCore t m := ⟨hknd, hbound, hlnd, hinv, hflags⟩
      exact ((fitAux_preserves sp fuel t m hcore t2 k heq).1).2.2.2.1
  · intro t s n t' o hrep heq
    have hrep2 := hrep
    obtain ⟨hcons, hkz, hnd, hkeysp, hleafp⟩ := hrep2
    unfold Tree.remove_subtree at heq
    cases hg : dictGet t.node_dict n with
    | none =>
      rw [hg] at heq
      injection heq with heq
      injection heq with h1 h2
      rw [← h1]
      exact hrep.leafInvariant
    | some root_node =>
      simp only [hg] at heq
      by_cases hlf : n ∈ t.leaf_inds
      · rw [if_pos hlf] at heq
        injection heq with heq
        injection heq with h1 h2
        rw [← h1]
        exact hrep.leafInvariant
      · rw [if_neg hlf] at heq
        have hnk : n ∈ s.ids :=
          hkeysp.mem_iff.mp (mem_dictKeys_of_dictGet _ _ _ hg)
        obtain ⟨si, hfind⟩ :=
          Option.isSome_iff_exists.mp (Shape.find?_isSome_of_mem s n hnk)
        have hroot := Shape.find?_root s n si hfind
        cases si with
        | leaf j =>
          exfalso
          have hj : j = n := hroot
          subst hj
          have hlv : j ∈ s.leaves := Shape.find?_leaves_subset s j _ hfind j (by
            simp [Shape.leaves])
          exact hlf (hleafp.mem_iff.mpr hlv)
        | node j sl sr =>
          have hj : j = n := hroot
          subst hj
          obtain ⟨t'', nd, hg2, heq2, hrep3, -⟩ :=
            remove_subtree_charact t s j sl sr hrep hfind
          unfold Tree.remove_subtree at heq2
          simp only [hg] at heq2
          rw [if_neg hlf] at heq2
          rw [heq2] at heq
          injection heq with heq
          injection heq with h1 h2
          rw [← h1]
          exact hrep3.leafInvariant
  · intro t s t' k hrep hs heq
    exact cut_preserves_leafInvariant t s hrep hs t' k heq

/-- Witness for C3: the invariant holds after construction, after a full
fit, after an internal-node removal, and after a cut, each on a concrete
tree. -/
theorem leaf_inds_invariant_witness :
    leafInvariant tUniform ∧ leafInvariant fitDemo.1 ∧
    leafInvariant remDemo.1 ∧ leafInvariant cutDemo.1 :=
  ⟨leaf_inds_invariant.1 (.d1 [1, 2]) [5, 5] tUniform (by with_unfolding_all rfl),
   leaf_inds_invariant.2.1 demoSplit 4 tDemo fitDemo.1 fitDemo.2
     (by with_unfolding_all decide) (by with_unfolding_all decide)
     (leafInvariant_of_B tDemo (by with_unfolding_all decide))
     (flagsOK_of_B tDemo (by with_unfolding_all decide))
     (by with_unfolding_all rfl),
   leaf_inds_invariant.2.2.1 tStar sStar 3 remDemo.1 remDemo.2 (by decide)
     (by with_unfolding_all rfl),
   leaf_inds_invariant.2.2.2 tPair sPair cutDemo.1 cutDemo.2 (by decide)
     (fun j h => Shape.noConfusion h) (by with_unfolding_all rfl)⟩

/-! ## C1 infrastructure: the argmin of the link array -/

theorem oLE_refl (a : Option ℚ) : oLE a a = true := by
  cases a with
  | none => rfl
  | some x => simp [oLE]

theorem oLE_trans {a b c : Option ℚ} (h1 : oLE a b = true) (h2 : oLE b c = true) :
    oLE a c = true := by
  cases a <;> cases b <;> cases c <;> simp_all [oLE]
  all_goals exact le_trans h1 h2

theorem oLE_of_not_oLT {a b : Option ℚ} (h : oLT a b = false) : oLE b a = true := by
  cases a <;> cases b <;> simp_all [oLE, oLT]

theorem oLE_of_oLT {a b : Option ℚ} (h : oLT a b = true) : oLE a b = true := by
  cases a <;> cases b <;> simp_all [oLE, oLT]
  all_goals exact le_of_lt h

theorem argminGo_spec : ∀ (rest : List (Option ℚ)) (idx best : Nat) (bv : Option ℚ),
    ∃ v, ((argminGo rest idx best bv = best ∧ v = bv) ∨
          (∃ k, k < rest.length ∧ argminGo rest idx best bv = idx + k ∧
            rest.getD k none = v)) ∧
      oLE v bv = true ∧ (∀ j, j < rest.length → oLE v (rest.getD j none) = true) := by
  intro rest
  induction rest with
  | nil =>
    intro idx best bv
    exact ⟨bv, Or.inl ⟨rfl, rfl⟩, oLE_refl bv, fun j hj => by simp at hj⟩
  | cons x rest2 ih =>
    intro idx best bv
    cases hlt : oLT x bv
    · obtain ⟨v, hcase, hle, hall⟩ := ih (idx + 1) best bv
      have heq : argminGo (x :: rest2) idx best bv = argminGo rest2 (idx + 1) best bv := by
        simp [argminGo, hlt]
      refine ⟨v, ?_, hle, ?_⟩
      · rcases hcase with ⟨h1, h2⟩ | ⟨k, hk, h1, h2⟩
        · exact Or.inl ⟨heq.trans h1, h2⟩
        · refine Or.inr ⟨k + 1, by simp; omega, ?_, h2⟩
          rw [heq, h1]
          omega
      · intro j hj
        cases j with
        | zero => exact oLE_trans hle (oLE_of_not_oLT hlt)
        | succ j2 =>
          simp only [List.length_cons] at hj
          exact hall j2 (by omega)
    · obtain ⟨v, hcase, hle, hall⟩ := ih (idx + 1) idx x
      have heq : argminGo (x :: rest2) idx best bv = argminGo rest2 (idx + 1) idx x := by
        simp [argminGo, hlt]
      refine ⟨v, ?_, oLE_trans hle (oLE_of_oLT hlt), ?_⟩
      · rcases hcase with ⟨h1, h2⟩ | ⟨k, hk, h1, h2⟩
        · refine Or.inr ⟨0, by simp, ?_, ?_⟩
          · rw [heq, h1]
            omega
          · rw [h2]
            rfl
        · refine Or.inr ⟨k + 1, by simp; omega, ?_, h2⟩
          rw [heq, h1]
          omega
      · intro j hj
        cases j with
        | zero => exact hle
        | succ j2 =>
          simp only [List.length_cons] at hj
          exact hall j2 (by omega)

theorem argminO_spec (x : Option ℚ) (rest : List (Option ℚ)) :
    argminO (x :: rest) < (x :: rest).length ∧
    ∀ j, j < (x :: rest).length →
      oLE ((x :: rest).getD (argminO (x :: rest)) none) ((x :: rest).getD j none)
        = true := by
  obtain ⟨v, hcase, hle, hall⟩ := argminGo_spec rest 1 0 x
  have hres : argminO (x :: rest) = argminGo rest 1 0 x := rfl
  have hval : (x :: rest).getD (argminO (x :: rest)) none = v := by
    rw [hres]
    rcases hcase with ⟨h1, h2⟩ | ⟨k, hk, h1, h2⟩
    · rw [h1, h2]
      rfl
    · rw [h1, Nat.add_comm 1 k]
      exact h2
  constructor
  · rw [hres]
    rcases hcase with ⟨h1, h2⟩ | ⟨k, hk, h1, h2⟩
    · rw [h1]
      simp
    · rw [h1]
      simp
      omega
  · intro j hj
    rw [hval]
    cases j with
    | zero => exact hle
    | succ j2 =>
      simp only [List.length_cons] at hj
      exact hall j2 (by omega)

theorem Shape.ids_length_pos (sh : Shape) : 1 ≤ sh.ids.length := by
  cases sh <;> simp [Shape.ids]

theorem find?_node_collapse (s : Shape) (hnd : s.ids.Nodup) :
    ∀ n i a b, (s.collapse n).find? i = some (.node i a b) →
      ∃ a2 b2, s.find? i = some (.node i a2 b2) := by
  induction s with
  | leaf j =>
    intro n i a b h
    simp only [Shape.collapse, Shape.find?] at h
    split_ifs at h <;> cases h
  | node j l r ihl ihr =>
    intro n i a b h
    simp only [Shape.ids, List.nodup_cons, List.nodup_append] at hnd
    obtain ⟨hjmem, hndl, hndr, hdisj⟩ := hnd
    simp only [Shape.collapse] at h
    split_ifs at h with hjn
    · simp only [Shape.find?] at h
      split_ifs at h <;> cases h
    · simp only [Shape.find?] at h
      split_ifs at h with hji
      · rw [Option.some.injEq] at h
        injection h with he1 he2 he3
        subst he1
        exact ⟨l, r, by simp [Shape.find?]⟩
      · cases hml : (l.collapse n).find? i with
        | some s2 =>
          rw [hml] at h
          rw [Option.some.injEq] at h
          subst h
          obtain ⟨a2, b2, hfind⟩ := ihl hndl n i a b hml
          refine ⟨a2, b2, ?_⟩
          simp only [Shape.find?, if_neg hji, hfind]
        | none =>
          rw [hml] at h
          obtain ⟨a2, b2, hfind⟩ := ihr hndr n i a b h
          have hlnone : l.find? i = none := by
            cases hl2 : l.find? i with
            | none => rfl
            | some s3 =>
              exfalso
              have h1 := Shape.find?_mem l i s3 hl2
              have h2 := Shape.find?_mem r i _ hfind
              exact hdisj h1 h2
          refine ⟨a2, b2, ?_⟩
          simp only [Shape.find?, if_neg hji, hlnone, hfind]

theorem compute_error_rate_congr {nd nd0 : Node} (h : nd.class_prob = nd0.class_prob) :
    nd.compute_error_rate = nd0.compute_error_rate := by
  unfold Node.compute_error_rate
  rw [h]

theorem risksOK_of_B (t : Tree) (h : risksOKB t = true) :
    ∀ i nd r L, dictGet t.node_dict i = some nd →
      t.subtree_props i = .ok (some (r, L)) → r ≤ nd.compute_error_rate := by
  unfold risksOKB at h
  rw [List.all_eq_true] at h
  intro i nd r L hg hsub
  have h1 := h i (mem_dictKeys_of_dictGet _ _ _ hg)
  rw [hg, hsub] at h1
  simp at h1
  exact h1

theorem linkFor_ok (base T : Tree) (i : Nat)
    (h1 : i ∉ T.leaf_inds → ∃ nd r L, dictGet T.node_dict i = some nd ∧
      base.subtree_props i = .ok (some (r, L)) ∧ r ≤ nd.compute_error_rate ∧
      2 ≤ L.length) :
    linkFor base T i = .ok (specLink base T i) := by
  by_cases hlf : i ∈ T.leaf_inds
  · simp [linkFor, specLink, hlf]
  · obtain ⟨nd, r, L, hg, hsub, hle, hlen⟩ := h1 hlf
    unfold linkFor specLink
    rw [if_neg hlf, if_neg hlf]
    simp only [lookupE, hg, exceptBind_ok, hsub]
    have hng : ¬(r > nd.compute_error_rate) := not_lt.mpr hle
    rw [if_neg hng]
    have hlen1 : (L.length == 1) = false := by
      simp
      omega
    rw [hlen1]
    simp

theorem linksLoop_spec (base T : Tree) : ∀ nodes : List Nat,
    (∀ i ∈ nodes, linkFor base T i = .ok (specLink base T i)) →
    linksLoop base T nodes = .ok (nodes.map (specLink base T)) := by
  intro nodes
  induction nodes with
  | nil => intro _; rfl
  | cons i rest ih =>
    intro hall
    simp only [linksLoop, hall i (List.mem_cons_self _ _), exceptBind_ok,
      ih (fun j hj => hall j (List.mem_cons_of_mem _ hj))]
    rfl

theorem find?_node_of_not_leaf (sT : Shape) (i : Nat)
    (hmem : i ∈ sT.ids) (hnl : i ∉ sT.leaves) :
    ∃ a b, sT.find? i = some (.node i a b) := by
  obtain ⟨si, hf⟩ := Option.isSome_iff_exists.mp (Shape.find?_isSome_of_mem sT i hmem)
  have hroot := Shape.find?_root sT i si hf
  cases si with
  | leaf j =>
    exfalso
    have hj : j = i := hroot
    subst hj
    exact hnl (Shape.find?_leaves_subset sT j _ hf j (by simp [Shape.leaves]))
  | node j a b =>
    have hj : j = i := hroot
    subst hj
    exact ⟨a, b, hf⟩

theorem getD_map_f (f : Nat → Option ℚ) : ∀ (l : List Nat) (n : Nat), n < l.length →
    (l.map f).getD n none = f (l.getD n 0) := by
  intro l
  induction l with
  | nil => intro n h; simp at h
  | cons x rest ih =>
    intro n h
    cases n with
    | zero => rfl
    | succ m =>
      simp only [List.length_cons] at h
      show (rest.map f).getD m none = f (rest.getD m 0)
      exact ih m (by omega)

theorem getD_mem_nat : ∀ (l : List Nat) (n : Nat), n < l.length → l.getD n 0 ∈ l := by
  intro l
  induction l with
  | nil => intro n h; simp at h
  | cons x rest ih =>
    intro n h
    cases n with
    | zero => exact List.mem_cons_self _ _
    | succ m =>
      simp only [List.length_cons] at h
      exact List.mem_cons_of_mem _ (ih m (by omega))

theorem exists_getD_eq : ∀ (l : List Nat) (m : Nat), m ∈ l →
    ∃ idx, idx < l.length ∧ l.getD idx 0 = m := by
  intro l
  induction l with
  | nil => intro m h; cases h
  | cons x rest ih =>
    intro m h
    rcases List.mem_cons.mp h with rfl | h
    · exact ⟨0, by simp, rfl⟩
    · obtain ⟨idx, h1, h2⟩ := ih m h
      exact ⟨idx + 1, by simp; omega, h2⟩

theorem specLink_of_leaf (base T : Tree) (i : Nat) (h : i ∈ T.leaf_inds) :
    specLink base T i = none := by
  unfold specLink
  rw [if_pos h]

theorem ccsLoop_spec (base : Tree) (s : Shape) (hrepb : Represents base s)
    (hrisk : ∀ i nd r L, dictGet base.node_dict i = some nd →
      base.subtree_props i = .ok (some (r, L)) → r ≤ nd.compute_error_rate) :
    ∀ (fuel : Nat) (T : Tree) (sT : Shape) (acc : List Tree),
      T.node_dict.length ≤ fuel + 1 →
      Represents T sT →
      sT.root = s.root →
      (∀ i a b, sT.find? i = some (.node i a b) →
        ∃ a2 b2, s.find? i = some (.node i a2 b2)) →
      (∀ i nd, dictGet T.node_dict i = some nd →
        ∃ nd0, dictGet base.node_dict i = some nd0 ∧ nd.class_prob = nd0.class_prob) →
      ∃ seq, ccsLoop base fuel T acc = .ok (acc ++ seq) ∧
        chainCCS base T seq ∧
        (seq.getLastD T).node_dict.length = 1 ∧
        dictKeys (seq.getLastD T).node_dict = [s.root] := by
  have hstop : ∀ (T : Tree) (sT : Shape), Represents T sT → sT.root = s.root →
      ¬(T.node_dict.length > 1) →
      T.node_dict.length = 1 ∧ dictKeys T.node_dict = [s.root] := by
    intro T sT hrep hroot hlen
    have hdl := hrep.dict_length
    cases sT with
    | node j l r =>
      exfalso
      have h1 := Shape.ids_length_pos l
      have h2 := Shape.ids_length_pos r
      simp only [Shape.ids, List.length_cons, List.length_append] at hdl
      omega
    | leaf j =>
      simp only [Shape.ids, List.length_singleton] at hdl
      refine ⟨by omega, ?_⟩
      have hperm := hrep.2.2.2.1
      have hkeq : dictKeys T.node_dict = [j] := List.perm_singleton.mp (by
        simpa [Shape.ids] using hperm)
      rw [hkeq, ← hroot]
      rfl
  intro fuel
  induction fuel with
  | zero =>
    intro T sT acc hlen hrep hroot hnp hep
    have hle : ¬(T.node_dict.length > 1) := by omega
    obtain ⟨h1, h2⟩ := hstop T sT hrep hroot hle
    refine ⟨[], ?_, trivial, by simpa using h1, by simpa using h2⟩
    simp [ccsLoop, hle]
  | succ fuel ih =>
    intro T sT acc hlen hrep hroot hnp hep
    by_cases hgt : T.node_dict.length > 1
    case neg =>
      obtain ⟨h1, h2⟩ := hstop T sT hrep hroot hgt
      refine ⟨[], ?_, trivial, by simpa using h1, by simpa using h2⟩
      simp [ccsLoop, hgt]
    case pos =>
      have hrep2 := hrep
      obtain ⟨hcons, hkz, hnd, hkeysp, hleafp⟩ := hrep2
      have hall : ∀ i ∈ dictKeys T.node_dict,
          linkFor base T i = .ok (specLink base T i) := by
        intro i hi
        refine linkFor_ok base T i ?_
        intro hnl
        have himem : i ∈ sT.ids := hkeysp.mem_iff.mp hi
        have hnl2 : i ∉ sT.leaves := fun h => hnl (hleafp.mem_iff.mpr h)
        obtain ⟨a, b, hfT⟩ := find?_node_of_not_leaf sT i himem hnl2
        obtain ⟨a2, b2, hfS⟩ := hnp i a b hfT
        obtain ⟨L, hLperm, hsub⟩ := (subtree_props_charact base s i _ hrepb hfS).1
        obtain ⟨nd, hg⟩ := dictGet_some_of_mem _ i hi
        obtain ⟨nd0, hg0, hcp⟩ := hep i nd hg
        have herr : nd.compute_error_rate = nd0.compute_error_rate :=
          compute_error_rate_congr hcp
        have hLlen : 2 ≤ L.length := by
          have hpl := hLperm.length_eq
          have h1 := Shape.leaves_length_pos a2
          have h2 := Shape.leaves_length_pos b2
          simp only [Shape.leaves, List.length_append] at hpl
          omega
        refine ⟨nd, _, L, hg, hsub, ?_, hLlen⟩
        rw [herr]
        exact hrisk i nd0 _ L hg0 hsub
      have hsome : ∀ i ∈ dictKeys T.node_dict, i ∉ T.leaf_inds →
          (specLink base T i).isSome = true := by
        intro i hi hnl
        have himem : i ∈ sT.ids := hkeysp.mem_iff.mp hi
        have hnl2 : i ∉ sT.leaves := fun h => hnl (hleafp.mem_iff.mpr h)
        obtain ⟨a, b, hfT⟩ := find?_node_of_not_leaf sT i himem hnl2
        obtain ⟨a2, b2, hfS⟩ := hnp i a b hfT
        obtain ⟨L, hLperm, hsub⟩ := (subtree_props_charact base s i _ hrepb hfS).1
        obtain ⟨nd, hg⟩ := dictGet_some_of_mem _ i hi
        unfold specLink
        rw [if_neg hnl, hg, hsub]
        simp
      cases sT with
      | leaf j =>
        exfalso
        have hdl := hrep.dict_length
        simp only [Shape.ids, List.length_singleton] at hdl
        omega
      | node j0 sl0 sr0 =>
        have hrootmem : j0 ∈ dictKeys T.node_dict :=
          hkeysp.mem_iff.mpr (by simp [Shape.ids])
        have hrootnl : j0 ∉ T.leaf_inds := by
          intro h
          have hlv := hleafp.mem_iff.mp h
          exact Shape.not_mem_leaves_of_find_node _ j0 sl0 sr0 hnd
            (Shape.find?_self (Shape.node j0 sl0 sr0)) hlv
        have hklen : (dictKeys T.node_dict).length = T.node_dict.length :=
          dictKeys_length _
        cases hnodes : dictKeys T.node_dict with
        | nil =>
          exfalso
          rw [hnodes] at hklen
          simp at hklen
          omega
        | cons n0 nrest =>
        have hlinks := linksLoop_spec base T (dictKeys T.node_dict) hall
        rw [hnodes] at hlinks
        obtain ⟨hwlt, hwmin⟩ := argminO_spec (specLink base T n0)
          (nrest.map (specLink base T))
        have hwlt2 : argminO ((n0 :: nrest).map (specLink base T)) <
            (n0 :: nrest).length := by
          simpa using hwlt
        have hminval : ∀ m ∈ (n0 :: nrest),
            oLE (specLink base T ((n0 :: nrest).getD (argminO ((n0 :: nrest).map (specLink base T))) 0)) (specLink base T m) = true := by
          intro m hm
          obtain ⟨idx, hidx, hidxeq⟩ := exists_getD_eq _ m hm
          have hmv := hwmin idx (by simpa using hidx)
          rw [show ((specLink base T n0 :: nrest.map (specLink base T))) =
            (n0 :: nrest).map (specLink base T) from rfl] at hmv
          rw [getD_map_f _ _ _ hwlt2, getD_map_f _ _ _ hidx, hidxeq] at hmv
          exact hmv
        have hrootSome := hsome j0 hrootmem hrootnl
        have hchosenSome : (specLink base T ((n0 :: nrest).getD (argminO ((n0 :: nrest).map (specLink base T))) 0)).isSome = true := by
          have hle2 := hminval j0 (by rw [← hnodes]; exact hrootmem)
          cases hmin : specLink base T ((n0 :: nrest).getD (argminO ((n0 :: nrest).map (specLink base T))) 0) with
          | some v => rfl
          | none =>
            exfalso
            rw [hmin] at hle2
            obtain ⟨v, hv⟩ := Option.isSome_iff_exists.mp hrootSome
            rw [hv] at hle2
            simp [oLE] at hle2
        have hchosenl : ((n0 :: nrest).getD (argminO ((n0 :: nrest).map (specLink base T))) 0) ∉ T.leaf_inds := by
          intro h
          rw [specLink_of_leaf base T _ h] at hchosenSome
          simp at hchosenSome
        have hchosenkey : ((n0 :: nrest).getD (argminO ((n0 :: nrest).map (specLink base T))) 0) ∈ dictKeys T.node_dict := by
          rw [hnodes]
          exact getD_mem_nat _ _ hwlt2
        have hcim : ((n0 :: nrest).getD (argminO ((n0 :: nrest).map (specLink base T))) 0) ∈ (Shape.node j0 sl0 sr0).ids := hkeysp.mem_iff.mp hchosenkey
        have hcnl2 : ((n0 :: nrest).getD (argminO ((n0 :: nrest).map (specLink base T))) 0) ∉ (Shape.node j0 sl0 sr0).leaves :=
          fun h => hchosenl (hleafp.mem_iff.mpr h)
        obtain ⟨ca, cb, hcf⟩ := find?_node_of_not_leaf _ _ hcim hcnl2
        obtain ⟨t', ndc, hgc, hremeq, hrep', hentryn, hgone, hpresk, hcount,
          hlendec, hsym⟩ := remove_subtree_charact T (Shape.node j0 sl0 sr0)
            ((n0 :: nrest).getD (argminO ((n0 :: nrest).map (specLink base T))) 0) ca cb hrep hcf
        have hlen2 : t'.node_dict.length ≤ fuel + 1 := by
          have h1 := Shape.ids_length_pos ca
          have h2 := Shape.ids_length_pos cb
          omega
        have hroot2 : ((Shape.node j0 sl0 sr0).collapse ((n0 :: nrest).getD (argminO ((n0 :: nrest).map (specLink base T))) 0)).root = s.root := by
          rw [Shape.root_collapse]
          exact hroot
        have hnp2 : ∀ i a b, ((Shape.node j0 sl0 sr0).collapse ((n0 :: nrest).getD (argminO ((n0 :: nrest).map (specLink base T))) 0)).find? i =
            some (.node i a b) → ∃ a2 b2, s.find? i = some (.node i a2 b2) := by
          intro i a b hf
          obtain ⟨a2, b2, hf2⟩ :=
            find?_node_collapse (Shape.node j0 sl0 sr0) hnd ((n0 :: nrest).getD (argminO ((n0 :: nrest).map (specLink base T))) 0) i a b hf
          exact hnp i a2 b2 hf2
        have hep2 : ∀ i nd, dictGet t'.node_dict i = some nd →
            ∃ nd0, dictGet base.node_dict i = some nd0 ∧
              nd.class_prob = nd0.class_prob := by
          intro i nd hgi
          by_cases hin : i ∈ ca.ids ∨ i ∈ cb.ids
          · exfalso
            rw [(hgone i hin).1] at hgi
            cases hgi
          · push_neg at hin
            by_cases hic : i = ((n0 :: nrest).getD (argminO ((n0 :: nrest).map (specLink base T))) 0)
            · subst hic
              rw [hentryn] at hgi
              injection hgi with he
              obtain ⟨nd0, hg0, hcp⟩ := hep _ ndc hgc
              refine ⟨nd0, hg0, ?_⟩
              rw [← he]
              exact hcp
            · rw [hpresk i hic hin.1 hin.2] at hgi
              exact hep i nd hgi
        obtain ⟨seq2, heq2, hchain2, hlast2, hkeys2⟩ :=
          ih t' ((Shape.node j0 sl0 sr0).collapse ((n0 :: nrest).getD (argminO ((n0 :: nrest).map (specLink base T))) 0)) (acc ++ [t'])
            hlen2 hrep' hroot2 hnp2 hep2
        refine ⟨t' :: seq2, ?_, ⟨?_, ?_, hchain2⟩, ?_, ?_⟩
        · show ccsLoop base (fuel + 1) T acc = _
          simp only [ccsLoop]
          rw [if_pos hgt, hnodes]
          simp only [hlinks, exceptBind_ok, hremeq, heq2]
          simp [List.append_assoc]
        · exact ⟨((n0 :: nrest).getD (argminO ((n0 :: nrest).map (specLink base T))) 0), hchosenkey, hchosenSome,
            fun m hm => hminval m (by rw [← hnodes]; exact hm), hremeq⟩
        · have h1 := Shape.ids_length_pos ca
          have h2 := Shape.ids_length_pos cb
          omega
        · rw [List.getLastD_cons]
          exact hlast2
        · rw [List.getLastD_cons]
          exact hkeys2

/-! ## C1: the pruning sequence -/

/-- C1 (amended): on a well-formed tree that `cut_useless_leaves` leaves
unchanged and whose stored subtree risks never exceed their root nodes' own
error rates, `cost_complexity_seq` succeeds and returns a sequence headed by
the cleaned tree; each tree follows its predecessor by collapsing a node of
minimum link strength `(node error − subtreeRisk)/(leafCount − 1)` — where
`subtreeRisk` and `leafCount` are read off the original cleaned tree by
`self.subtree_props`, not off the working copy, and every current leaf of
the working copy gets link `+∞`; node counts strictly decrease along the
sequence and the last tree is the single-node tree holding only the root. -/
theorem cost_complexity_seq_spec (t : Tree) (s : Shape) (fuel : Nat)
    (hrep : Represents t s)
    (hcut : t.cut_useless_leaves = .ok (t, 0))
    (hrisk : risksOKB t = true)
    (hfuel : t.node_dict.length ≤ fuel) :
    ∃ seq, t.cost_complexity_seq fuel = .ok (t :: seq) ∧
      chainCCS t t seq ∧
      (seq.getLastD t).node_dict.length = 1 ∧
      dictKeys (seq.getLastD t).node_dict = [s.root] := by
  obtain ⟨seq, heq, hchain, hlast, hkeys⟩ :=
    ccsLoop_spec t s hrep (risksOK_of_B t hrisk) fuel t s [t] (by omega) hrep rfl
      (fun i a b h => ⟨a, b, h⟩) (fun i nd h => ⟨nd, h, rfl⟩)
  refine ⟨seq, ?_, hchain, hlast, hkeys⟩
  show Tree.cost_complexity_seq fuel t = _
  simp only [Tree.cost_complexity_seq, hcut, exceptBind_ok, heq]
  rfl

/-- Witness for the amended C1 on the concrete 9-node tree `tStar`, which
the cut phase leaves unchanged. -/
theorem cost_complexity_seq_spec_witness :
    Represents tStar sStar ∧ tStar.cut_useless_leaves = .ok (tStar, 0) ∧
    risksOKB tStar = true ∧ tStar.node_dict.length ≤ 9 ∧
    (∃ seq, tStar.cost_complexity_seq 9 = .ok (tStar :: seq) ∧
      chainCCS tStar tStar seq ∧
      (seq.getLastD tStar).node_dict.length = 1 ∧
      dictKeys (seq.getLastD tStar).node_dict = [sStar.root]) :=
  ⟨by decide, by with_unfolding_all rfl, by with_unfolding_all decide, by decide,
   cost_complexity_seq_spec tStar sStar 9 (by decide) (by with_unfolding_all rfl)
     (by with_unfolding_all decide) (by decide)⟩

/-- C1 counterexample to the frozen wording: in the sequence the source
computes on `tStar`, the step from the second to the third tree does not
collapse any node minimizing the link strength computed over the working
copy's own current structure — the risks the source divides by are those of
the original cleaned tree, not the working copy's. -/
theorem cost_complexity_counterexample :
    tStar.cost_complexity_seq 9 = .ok cexSeq ∧ cexSeq.length = 4 ∧
    claimStepOk (cexSeq.getD 1 emptyTree) (cexSeq.getD 2 emptyTree) = false :=
  ⟨by with_unfolding_all rfl, by with_unfolding_all decide,
   by with_unfolding_all decide⟩

theorem mapMinMax_ok (rows : List (List ℚ)) (h : ∀ r ∈ rows, r ≠ []) :
    ∃ v, mapMinMax rows = .ok v := by
  induction rows with
  | nil => exact ⟨[], rfl⟩
  | cons r rs ih =>
    obtain ⟨v, hv⟩ := ih (fun q hq => h q (List.mem_cons_of_mem _ hq))
    match r, h r (List.mem_cons_self _ _) with
    | [], hr => exact absurd rfl hr
    | a :: as, _ =>
      exact ⟨(as.foldl min a, as.foldl max a) :: v, by simp [mapMinMax, minMaxE, hv]⟩

/-! ## C9: construction rejects dimensionality above 2 -/

/-- C9: `Tree.__init__` fails with the dimensionality `ValueError` (before
any tree state is produced) whenever the data's `ndim` exceeds 2, while a
(nonempty) 1-D vector and a 2-D matrix with nonempty rows are accepted. -/
theorem construction_dimension_check :
    (∀ (dat : NPArray) (labels : List ℤ), 2 < dat.ndim →
      Tree.init dat labels =
        .error (.valueError "Dimension of the input data should not be higher than 2")) ∧
    (∀ (x : ℚ) (xs : List ℚ) (labels : List ℤ),
      ∃ t, Tree.init (.d1 (x :: xs)) labels = .ok t) ∧
    (∀ (rows : List (List ℚ)) (labels : List ℤ), (∀ r ∈ rows, r ≠ []) →
      ∃ t, Tree.init (.d2 rows) labels = .ok t) := by
  refine ⟨fun dat labels h => ?_, fun x xs labels => ⟨_, rfl⟩, fun rows labels h => ?_⟩
  · cases dat with
    | d1 xs => simp [NPArray.ndim] at h
    | d2 rows => simp [NPArray.ndim] at h
    | dn k => rfl
  · obtain ⟨v, hv⟩ := mapMinMax_ok rows h
    simp only [Tree.init, rulesOf, hv]
    exact ⟨_, rfl⟩

/-- Witness for C9 at concrete inputs: a 3-D array is rejected, a nonempty
1-D vector and a 2-D matrix are accepted. -/
theorem construction_dimension_check_witness :
    Tree.init (.dn 0) [1] =
      .error (.valueError "Dimension of the input data should not be higher than 2") ∧
    (∃ t, Tree.init (.d1 [3]) [1] = .ok t) ∧
    (∃ t, Tree.init (.d2 [[3], [4]]) [1] = .ok t) :=
  ⟨construction_dimension_check.1 (.dn 0) [1] (by decide),
   construction_dimension_check.2.1 3 [] [1],
   construction_dimension_check.2.2 [[3], [4]] [1] (by decide)⟩

/-! ## C5: behaviour on a missing identifier -/

/-- C5 (amended): for an identifier absent from the node collection,
`subtree_props` prints a notice and returns `None` (`ok none`), and
`remove_subtree` prints a notice and returns with the tree unchanged;
neither reports a typed "not found" failure to the caller. -/
theorem missing_id_returns_none (t : Tree) (i : Nat)
    (h : dictGet t.node_dict i = none) :
    t.subtree_props i = .ok none ∧ t.remove_subtree i = .ok (t, .notFound) := by
  constructor
  · unfold Tree.subtree_props
    rw [h]
  · unfold Tree.remove_subtree
    rw [h]

/-- C5 counterexample: at the concrete single-node tree `tSolo` and the
absent identifier 9, both lookups return `ok` (a printed notice and a bare
`None` return in the source) — not the typed "not found" failure the claim
asserts. -/
theorem missing_id_counterexample :
    tSolo.subtree_props 9 = .ok none ∧ tSolo.remove_subtree 9 = .ok (tSolo, .notFound) :=
  ⟨rfl, rfl⟩

/-- Witness for C5 at a concrete input. -/
theorem missing_id_returns_none_witness :
    tSolo.subtree_props 7 = .ok none ∧ tSolo.remove_subtree 7 = .ok (tSolo, .notFound) :=
  missing_id_returns_none tSolo 7 rfl

/-! ## C10: a parentless leaf crashes the sibling scan -/

/-- C10: whenever the root (identifier 0, whose `parent` is `None`) heads
the current leaf list — in particular for any single-node tree —
`leaf_siblings` raises `KeyError('None')` while dereferencing
`node_dict[str(None)]`, and `cut_useless_leaves` and `cost_complexity_seq`
(which invoke it) propagate the same failure instead of returning an empty
result: these operations require every current leaf to have a parent. -/
theorem root_leaf_keyerror (t : Tree) (rest : List Nat) (rootnd : Node) (fuel : Nat)
    (h1 : t.leaf_inds = 0 :: rest) (h2 : dictGet t.node_dict 0 = some rootnd)
    (h3 : rootnd.parent = none) :
    t.leaf_siblings = .error (.keyError "None") ∧
    t.cut_useless_leaves = .error (.keyError "None") ∧
    t.cost_complexity_seq fuel = .error (.keyError "None") := by
  have hs : t.leaf_siblings = .error (.keyError "None") := by
    unfold Tree.leaf_siblings
    rw [h1]
    simp [lsGo, lookupE, h2, h3, lookupO]
  have hc : t.cut_useless_leaves = .error (.keyError "None") := by
    unfold Tree.cut_useless_leaves
    rw [hs]
    rfl
  refine ⟨hs, hc, ?_⟩
  unfold Tree.cost_complexity_seq
  rw [hc]
  rfl

/-- Witness for C10: the single-node tree built by the constructor from
identical labels crashes all three operations with `KeyError('None')`. -/
theorem root_leaf_keyerror_witness :
    tUniform.leaf_siblings = .error (.keyError "None") ∧
    tUniform.cut_useless_leaves = .error (.keyError "None") ∧
    tUniform.cost_complexity_seq 3 = .error (.keyError "None") :=
  root_leaf_keyerror tUniform []
    { rules := [(0, 1, 2)], dat := .d1 [1, 2], labels := [5, 5],
      is_stopped := true, reach_prob := 1, class_prob := [1] } 3
    (by with_unfolding_all decide) (by with_unfolding_all decide) rfl

end DT
